import Mathlib

/-!
# Route-Planning: occupancy-grid raster (`path_planning::GridMap`) and `dijkstra`

A shallow embedding of `src/map/grid_map.cpp`, `include/path_planning/grid_map.hpp` and
`src/algos/Dijsktra.cpp`.

Modelling conventions
* C++ `int` is embedded as `Int`; the arithmetic of the source is assumed to stay inside the
  range of `int` (signed overflow is undefined behaviour in C++). Where a bound of `int` is
  visible in the source (the sentinel `INT32_MAX` of the Prim keys), the theorems state the
  range they need as a hypothesis.
* `uint8_t` cell values are embedded as `Nat`.
* `std::vector<uint8_t> data_` is embedded as `List Nat`, row-major.
* `for` loops with an integer counter are embedded with `loopN` (a counted iteration), loops
  over `size_t` indices with `forIdx`.
* `while` loops carry fuel and return `none` when it runs out: `line`, `circle` and `dijkstra`
  take the fuel as an argument, `carve_line` computes a fuel that suffices whenever its loop
  terminates.
* The random engine is embedded as the stream of its raw outputs (`Rng`); files are embedded as
  lists of bytes.
-/

set_option autoImplicit false

namespace path_planning

/-! ## Data model -/

/-- Embeds `enum class Connectivity : uint8_t { Four = 4, Eight = 8 }`. -/
inductive Connectivity where
  | Four
  | Eight
deriving DecidableEq, Repr

/-- Embeds `class GridMap`: `size_ = {width, height}` and the row-major cell buffer `data_`. -/
structure GridMap where
  width : Int
  height : Int
  data : List Nat
deriving DecidableEq, Repr

/-- Embeds `static inline size_t idx(int x, int y, int w)`: `static_cast<size_t>(y) * w + x`. -/
def idx (x y w : Int) : Nat := (y * w + x).toNat

/-- The conversion `value ? 1 : 0` applied to a `uint8_t`. -/
def clamp01 (value : Nat) : Nat := if value ≠ 0 then 1 else 0

/-- Counted iteration: runs `body i` for `i = lo, lo+1, ..., lo+n-1`, threading the state. -/
def loopN {σ : Type} : Nat → Int → (Int → σ → σ) → σ → σ
  | 0, _, _, s => s
  | n + 1, i, body, s => loopN n (i + 1) body (body i s)

/-- The loop `for (int i = lo; i <= hi; ++i) body(i)`. -/
def forLe {σ : Type} (lo hi : Int) (body : Int → σ → σ) (s : σ) : σ :=
  loopN (hi + 1 - lo).toNat lo body s

/-- The loop `for (int i = lo; i < hi; ++i) body(i)`. -/
def forLt {σ : Type} (lo hi : Int) (body : Int → σ → σ) (s : σ) : σ :=
  loopN (hi - lo).toNat lo body s

/-- Embeds `std::abs` on `int`. -/
def iabs (a : Int) : Int := if a < 0 then -a else a

/-- The loop `for (size_t i = 0; i < n; ++i) body(i)`. -/
def forIdx {σ : Type} (n : Nat) (body : Nat → σ → σ) (s : σ) : σ :=
  (List.range n).foldl (fun s i => body i s) s

/-- Embeds `INT32_MAX`. -/
def INT32_MAX : Int := 2147483647

/-! ## Random source

`std::mt19937 rng(p.seed)` is embedded as the stream of raw outputs it will deliver; a
distribution consumes the next raw output and turns it into one of its possible values.
The probability of a value is not modelled. -/

/-- State of `std::mt19937`: its future raw outputs and the number already consumed. -/
structure Rng where
  raw : Nat → Nat
  pos : Nat

/-- One raw output of the engine. -/
def Rng.next (g : Rng) : Nat × Rng := (g.raw g.pos, { g with pos := g.pos + 1 })

/-- One call `std::uniform_int_distribution<int>(a, b)(rng)`: a value of `[a, b]`. -/
def uniformInt (a b : Int) (g : Rng) : Int × Rng :=
  (a + ((g.next.1 : Nat) : Int) % (b - a + 1), g.next.2)

/-- One call `std::bernoulli_distribution(prob)(rng)`: either outcome. -/
def bernoulli (g : Rng) : Bool × Rng := (g.next.1 % 2 == 1, g.next.2)

/-- Embeds `struct GridMap::RandomParams`. The fields `obstacle_density` and `seed` only fix the
Bernoulli probability and the engine state; the embedding receives the engine as an argument
instead. -/
structure RandomParams where
  width : Int := 64
  height : Int := 64
  add_border_walls : Bool := true
  num_rooms : Int := 0
  room_min_w : Int := 6
  room_min_h : Int := 6
  room_max_w : Int := 14
  room_max_h : Int := 14
  corridor_width : Int := 2
  cluster_iterations : Int := 0
  connectivity : Connectivity := Connectivity.Eight

/-- Embeds `struct Rect { int x,y,w,h,cx,cy; }` local to `genRoomsAndCorridors`. -/
structure Rect where
  x : Int
  y : Int
  w : Int
  h : Int
  cx : Int
  cy : Int
deriving DecidableEq, Repr, Inhabited

/-- Embeds `const int dirs8[8][2]` of `growClusters`. -/
def dirs8 : List (Int × Int) :=
  [(1, 0), (-1, 0), (0, 1), (0, -1), (1, 1), (1, -1), (-1, 1), (-1, -1)]

/-- Embeds `const int dirs4[4][2]` of `growClusters`. -/
def dirs4 : List (Int × Int) := [(1, 0), (-1, 0), (0, 1), (0, -1)]

/-- Embeds `dirs = (conn == Connectivity::Eight) ? dirs8 : dirs4` (with `nd` its length). -/
def dirs (conn : Connectivity) : List (Int × Int) :=
  if conn = Connectivity.Eight then dirs8 else dirs4

namespace GridMap

/-- Embeds `GridMap::GridMap(int w, int h, uint8_t fill)`: `data_.assign(std::max(0, w*h), fill)`.
The product is taken in the integers: the embedding is the source as long as `w*h` fits an
`int` (`NewInRange`). -/
def new (w h : Int) (fill : Nat) : GridMap :=
  { width := w, height := h, data := List.replicate (max 0 (w * h)).toNat fill }

/-- Embeds `GridMap() = default`: size `{0, 0}` and an empty buffer. -/
def empty : GridMap := { width := 0, height := 0, data := [] }

/-- The test `x < 0 || y < 0 || x >= width() || y >= height()` shared by `at` and `set`. -/
def oob (m : GridMap) (x y : Int) : Bool :=
  decide (x < 0) || decide (y < 0) || decide (x ≥ m.width) || decide (y ≥ m.height)

/-- Embeds `uint8_t GridMap::at(int x, int y) const` (`at` is reserved in Lean, hence the
underscore). A read past the end of the buffer, undefined in C++, yields 0; it does not occur on
a raster that holds `width*height` cells (`idx_lt_of_inBounds`). -/
def at_ (m : GridMap) (x y : Int) : Nat :=
  if m.oob x y then 1 else m.data.getD (idx x y m.width) 0

/-- Embeds `void GridMap::set(int x, int y, uint8_t value)`. A write past the end of the buffer,
undefined in C++, is dropped; it does not occur on a raster that holds `width*height` cells. -/
def set (m : GridMap) (x y : Int) (value : Nat) : GridMap :=
  if m.oob x y then m
  else { m with data := m.data.set (idx x y m.width) (clamp01 value) }

/-- Embeds `bool GridMap::isFree(int x, int y) const`. -/
def isFree (m : GridMap) (x y : Int) : Bool :=
  (decide (x ≥ 0) && decide (y ≥ 0) && decide (x < m.width) && decide (y < m.height))
    && decide (m.at_ x y = 0)

/-- Embeds `void GridMap::clear(uint8_t value)`: `std::fill` of the whole buffer with `value ? 1 : 0`. -/
def clear (m : GridMap) (value : Nat) : GridMap :=
  { m with data := List.replicate m.data.length (clamp01 value) }

/-- The buffer has one entry per cell: `data_.size() == width * height`. -/
def Sized (m : GridMap) : Prop := m.data.length = (m.width * m.height).toNat

/-- The cell `(x, y)` lies in `[0, width) × [0, height)`. -/
def InBounds (m : GridMap) (x y : Int) : Prop :=
  0 ≤ x ∧ 0 ≤ y ∧ x < m.width ∧ y < m.height

instance (m : GridMap) : Decidable m.Sized := by unfold Sized; infer_instance
instance (m : GridMap) (x y : Int) : Decidable (m.InBounds x y) := by
  unfold InBounds; infer_instance

/-- Embeds `void GridMap::rectangle(int x0, int y0, int w, int h, uint8_t value, bool filled)`.
The corners and the loop counters are unbounded integers: the embedding is the source as long
as `x0 + w` and `y0 + h` fit an `int` (`RectInRange`). -/
def rectangle (m : GridMap) (x0 y0 w h : Int) (value : Nat) (filled : Bool) : GridMap :=
  let x1 := x0 + w - 1
  let y1 := y0 + h - 1
  if filled then
    forLe y0 y1 (fun y m => forLe x0 x1 (fun x m => m.set x y value) m) m
  else
    let m := forLe x0 x1 (fun x m => (m.set x y0 value).set x y1 value) m
    forLe y0 y1 (fun y m => (m.set x0 y value).set x1 y value) m

/-- The `while (true)` loop of `GridMap::line`. One unit of fuel is one iteration; the second
component of the result lists, in order, the cells handed to `set`. The error term is an
unbounded integer: the embedding is the source as long as `|x1-x0| + |y1-y0| < 2^30`
(`LineInRange`), beyond which `2*err` overflows `int`. -/
def lineLoop (value : Nat) (x1 y1 dx dy sx sy : Int) :
    Nat → GridMap → Int → Int → Int → Option (GridMap × List (Int × Int))
  | 0, _, _, _, _ => none
  | fuel + 1, m, x0, y0, err =>
    let m := m.set x0 y0 value
    if x0 = x1 ∧ y0 = y1 then some (m, [(x0, y0)])
    else
      let e2 := 2 * err
      let err1 := if e2 ≥ dy then err + dy else err
      let x0' := if e2 ≥ dy then x0 + sx else x0
      let err2 := if e2 ≤ dx then err1 + dx else err1
      let y0' := if e2 ≤ dx then y0 + sy else y0
      match lineLoop value x1 y1 dx dy sx sy fuel m x0' y0' err2 with
      | none => none
      | some (r, cells) => some (r, (x0, y0) :: cells)

/-- Embeds `void GridMap::line(int x0, int y0, int x1, int y1, uint8_t value)` (Bresenham). -/
def line (fuel : Nat) (m : GridMap) (x0 y0 x1 y1 : Int) (value : Nat) :
    Option (GridMap × List (Int × Int)) :=
  let dx := iabs (x1 - x0)
  let sx : Int := if x0 < x1 then 1 else -1
  let dy := -iabs (y1 - y0)
  let sy : Int := if y0 < y1 then 1 else -1
  let err := dx + dy
  lineLoop value x1 y1 dx dy sx sy fuel m x0 y0 err

/-! ## Procedural generation -/

/-- The border-wall block shared verbatim by `genUniform` and `genRoomsAndCorridors`:
`for x in [0,width): set(x,0,1), set(x,height-1,1); for y in [0,height): set(0,y,1),
set(width-1,y,1)`. -/
def addBorderWalls (p : RandomParams) (m : GridMap) : GridMap :=
  let m := forLt 0 p.width (fun x m => (m.set x 0 1).set x (p.height - 1) 1) m
  forLt 0 p.height (fun y m => (m.set 0 y 1).set (p.width - 1) y 1) m

/-- Embeds `GridMap GridMap::genUniform(const RandomParams& p)`; the state of the double loop is the
raster together with the engine. -/
def genUniform (p : RandomParams) (rng : Rng) : GridMap :=
  let m := GridMap.new p.width p.height 0
  let s := forLt 0 p.height (fun y s =>
    forLt 0 p.width (fun x (s : GridMap × Rng) =>
      ((if (bernoulli s.2).1 then s.1.set x y 1 else s.1), (bernoulli s.2).2)) s) (m, rng)
  if p.add_border_walls then addBorderWalls p s.1 else s.1

/-- The inner `for k` loop of `growClusters`: the number of offsets whose cell is not free. -/
def neighbourCount (m : GridMap) (ds : List (Int × Int)) (x y : Int) : Nat :=
  ds.foldl (fun cnt d => if !m.isFree (x + d.1) (y + d.2) then cnt + 1 else cnt) 0

/-- The value `growClusters` writes for cell `(x, y)` of the raster `m` it reads. -/
def clusterRule (m : GridMap) (conn : Connectivity) (x y : Int) : Nat :=
  if !m.isFree x y then (if neighbourCount m (dirs conn) x y ≥ 3 then 1 else 0)
  else (if neighbourCount m (dirs conn) x y ≥ 5 then 1 else 0)

/-- One iteration of the `for it` loop of `growClusters` before `m = out`: the double loop that
reads `m` and writes `out`. -/
def clusterPass (m out : GridMap) (conn : Connectivity) : GridMap :=
  forLt 0 m.height (fun y out =>
    forLt 0 m.width (fun x out => out.set x y (clusterRule m conn x y)) out) out

/-- Embeds `void GridMap::growClusters(GridMap& m, int iterations, Connectivity conn)`; the state of
the `for it` loop is the pair `(m, out)`. -/
def growClusters (m : GridMap) (iterations : Int) (conn : Connectivity) : GridMap :=
  if iterations ≤ 0 then m
  else
    let out := GridMap.new m.width m.height 0
    (forLt 0 iterations (fun _ (s : GridMap × GridMap) =>
      (clusterPass s.1 s.2 conn, clusterPass s.1 s.2 conn)) (m, out)).1

/-- The lambda `carve_rect` of `genRoomsAndCorridors`. -/
def carve_rect (p : RandomParams) (m : GridMap) (x0 y0 w h : Int) : GridMap :=
  forLt y0 (min (y0 + h) p.height) (fun y m =>
    forLt x0 (min (x0 + w) p.width) (fun x m => m.set x y 0) m) m

/-- The overlap test of the room `r` against an accepted room `q`. -/
def overlaps (r q : Rect) : Bool :=
  decide (r.x < q.x + q.w) && decide (r.x + r.w > q.x) &&
    decide (r.y < q.y + q.h) && decide (r.y + r.h > q.y)

/-- The candidate room drawn by one attempt of the placement loop, with the engine after the
four draws `rw`, `rh`, `rx`, `ry`. -/
def drawRoom (p : RandomParams) (rng : Rng) : Rect × Rng :=
  let dw := uniformInt p.room_min_w p.room_max_w rng
  let w := min dw.1 (p.width - 2)
  let dh := uniformInt p.room_min_h p.room_max_h dw.2
  let h := min dh.1 (p.height - 2)
  let dx := uniformInt 1 (max 1 (p.width - 2)) dh.2
  let x := min (max 1 (dx.1 - w.tdiv 2)) (p.width - w - 1)
  let dy := uniformInt 1 (max 1 (p.height - 2)) dx.2
  let y := min (max 1 (dy.1 - h.tdiv 2)) (p.height - h - 1)
  ({ x := x, y := y, w := w, h := h, cx := x + w.tdiv 2, cy := y + h.tdiv 2 }, dy.2)

/-- The placement loop `while ((int)rooms.size() < p.num_rooms && tries-- > 0)`; the first
argument is the remaining value of `tries`. -/
def placeRooms (p : RandomParams) :
    Nat → List Rect → GridMap → Rng → List Rect × GridMap × Rng
  | 0, rooms, m, rng => (rooms, m, rng)
  | tries + 1, rooms, m, rng =>
    if (rooms.length : Int) < p.num_rooms then
      let d := drawRoom p rng
      if rooms.any (fun q => overlaps d.1 q) then placeRooms p tries rooms m d.2
      else placeRooms p tries (rooms ++ [d.1]) (carve_rect p m d.1.x d.1.y d.1.w d.1.h) d.2
    else (rooms, m, rng)

/-- The arrays `parent`, `key`, `inMST` of the Prim loop. -/
structure PrimState where
  parent : List Int
  key : List Int
  inMST : List Bool
deriving DecidableEq, Repr

/-- The selection loop `for i: if (!inMST[i] && key[i] < best) { best = key[i]; u = i; }`,
started from `u = -1`, `best = INT32_MAX`; the result is `(u, best)`. -/
def selectMin (st : PrimState) (n : Nat) : Int × Int :=
  forIdx n (fun i (s : Int × Int) =>
    if !st.inMST.getD i false && decide (st.key.getD i 0 < s.2) then ((i : Int), st.key.getD i 0)
    else s) (-1, INT32_MAX)

/-- The edge weight `std::abs(rooms[u].cx-rooms[v].cx) + std::abs(rooms[u].cy-rooms[v].cy)`. -/
def roomDist (rooms : List Rect) (u : Int) (v : Nat) : Int :=
  iabs ((rooms.getD u.toNat default).cx - (rooms.getD v default).cx) +
    iabs ((rooms.getD u.toNat default).cy - (rooms.getD v default).cy)

/-- The relaxation loop over `v` after room `u` has been marked. -/
def relax (rooms : List Rect) (u : Int) (n : Nat) (st : PrimState) : PrimState :=
  forIdx n (fun v st =>
    if !st.inMST.getD v false then
      if roomDist rooms u v < st.key.getD v 0 then
        { st with key := st.key.set v (roomDist rooms u v), parent := st.parent.set v u }
      else st
    else st) st

/-- One iteration of the outer loop `for c` of Prim: select, mark, relax. When no room
qualifies, `u` stays `-1` and the source indexes `inMST[-1]` (undefined); the embedding then
uses index 0. Under the invariant `PrimInv` a room always qualifies (`primStep_inv`). -/
def primStep (rooms : List Rect) (st : PrimState) : PrimState :=
  let u := (selectMin st rooms.length).1
  relax rooms u rooms.length { st with inMST := st.inMST.set u.toNat true }

/-- The state of the Prim arrays before the outer loop: `parent` all `-1`, `key` all
`INT32_MAX` except `key[0] = 0`, `inMST` all false. -/
def primInit (n : Nat) : PrimState :=
  { parent := (List.replicate n (-1)).set 0 (-1),
    key := (List.replicate n INT32_MAX).set 0 0,
    inMST := List.replicate n false }

/-- The Prim loop of `genRoomsAndCorridors` (`rooms.size() - 1` iterations); the result is the
array `parent`. -/
def primMST (rooms : List Rect) : List Int :=
  (forIdx (rooms.length - 1) (fun _ st => primStep rooms st) (primInit rooms.length)).parent

/-- The brush of `carve_line`: the double loop over `ox`, `oy` in
`[-(corridor_width/2), corridor_width/2]` around `(ax, ay)`. -/
def brush (p : RandomParams) (m : GridMap) (ax ay : Int) : GridMap :=
  forLe (-(p.corridor_width.tdiv 2)) (p.corridor_width.tdiv 2) (fun ox m =>
    forLe (-(p.corridor_width.tdiv 2)) (p.corridor_width.tdiv 2) (fun oy m =>
      m.set (ax + ox) (ay + oy) 0) m) m

/-- The loop `while (ax != bx || ay != by) { brush; ax += dx; ay += dy; }` of `carve_line`;
one unit of fuel is one evaluation of the loop condition. -/
def carveLineLoop (p : RandomParams) (bx by_ dx dy : Int) :
    Nat → GridMap → Int → Int → Option GridMap
  | 0, _, _, _ => none
  | fuel + 1, m, ax, ay =>
    if ax ≠ bx ∨ ay ≠ by_ then
      carveLineLoop p bx by_ dx dy fuel (brush p m ax ay) (ax + dx) (ay + dy)
    else some m

/-- The step `(b > a) ? 1 : ((b < a) ? -1 : 0)` of `carve_line` along one axis. -/
def stepDir (a b : Int) : Int := if b > a then 1 else (if b < a then -1 else 0)

/-- The lambda `carve_line(ax, ay, bx, by)`. The loop condition is evaluated at most
`|bx-ax| + |by-ay| + 1` times when the loop terminates (`carveLineLoop_fuel`), so the result
is `none` exactly when the loop of the source does not terminate. -/
def carve_line (p : RandomParams) (m : GridMap) (ax ay bx by_ : Int) : Option GridMap :=
  let dx : Int := stepDir ax bx
  let dy : Int := stepDir ay by_
  carveLineLoop p bx by_ dx dy (iabs (bx - ax) + iabs (by_ - ay) + 1).toNat m ax ay

/-- The lambda `carve_corridor(x0, y0, x1, y1)`: one Bernoulli draw picks the elbow. -/
def carve_corridor (p : RandomParams) (m : GridMap) (rng : Rng) (x0 y0 x1 y1 : Int) :
    Option (GridMap × Rng) :=
  if (bernoulli rng).1 then
    match carve_line p m x0 y0 x1 y0 with
    | none => none
    | some m1 =>
      match carve_line p m1 x1 y0 x1 y1 with
      | none => none
      | some m2 => some (m2, (bernoulli rng).2)
  else
    match carve_line p m x0 y0 x0 y1 with
    | none => none
    | some m1 =>
      match carve_line p m1 x0 y1 x1 y1 with
      | none => none
      | some m2 => some (m2, (bernoulli rng).2)

/-- The loop `for (size_t v = 1; v < rooms.size(); ++v) if (parent[v] != -1) carve_corridor(..)`
over the list of the remaining values of `v`. -/
def carveCorridors (p : RandomParams) (rooms : List Rect) (parent : List Int) :
    List Nat → GridMap → Rng → Option (GridMap × Rng)
  | [], m, rng => some (m, rng)
  | v :: vs, m, rng =>
    if parent.getD v (-1) ≠ -1 then
      match carve_corridor p m rng (rooms.getD v default).cx (rooms.getD v default).cy
          (rooms.getD (parent.getD v (-1)).toNat default).cx
          (rooms.getD (parent.getD v (-1)).toNat default).cy with
      | none => none
      | some s => carveCorridors p rooms parent vs s.1 s.2
    else carveCorridors p rooms parent vs m rng

/-- Embeds `GridMap GridMap::genRoomsAndCorridors(const RandomParams& p)`; `none` stands for a
corridor loop that does not terminate. -/
def genRoomsAndCorridors (p : RandomParams) (rng : Rng) : Option GridMap :=
  let st := placeRooms p (p.num_rooms * 10).toNat [] (GridMap.new p.width p.height 1) rng
  let carved :=
    if st.1.length ≥ 2 then
      carveCorridors p st.1 (primMST st.1) (List.range' 1 (st.1.length - 1)) st.2.1 st.2.2
    else some (st.2.1, st.2.2)
  match carved with
  | none => none
  | some s => some (if p.add_border_walls then addBorderWalls p s.1 else s.1)

/-- Embeds `GridMap GridMap::random(const RandomParams& p)`. -/
def random (p : RandomParams) (rng : Rng) : Option GridMap :=
  if p.num_rooms > 0 then
    match genRoomsAndCorridors p rng with
    | none => none
    | some m =>
      some (if p.cluster_iterations > 0 then growClusters m p.cluster_iterations p.connectivity
        else m)
  else
    some (if p.cluster_iterations > 0 then
        growClusters (genUniform p rng) p.cluster_iterations p.connectivity
      else genUniform p rng)

/-- Raster `m'` has the dimensions of `m`, holds `width*height` cells, reads `f x y ? 1 : 0` at the
in-bounds cells `(x, y)` of `S` and reads like `m` everywhere else. -/
def Paints (m m' : GridMap) (f : Int → Int → Nat) (S : Int → Int → Prop) : Prop :=
  m'.width = m.width ∧ m'.height = m.height ∧ m'.Sized ∧
  ∀ x y : Int, (S x y → m.InBounds x y → m'.at_ x y = clamp01 (f x y)) ∧
    (¬ S x y → m'.at_ x y = m.at_ x y)

/-- Two cells are distinct neighbours in the 8-neighbourhood. -/
def Adj8 (a b : Int × Int) : Prop :=
  a ≠ b ∧ iabs (b.1 - a.1) ≤ 1 ∧ iabs (b.2 - a.2) ≤ 1

instance (a b : Int × Int) : Decidable (Adj8 a b) := by unfold Adj8; infer_instance

/-- The raster has the dimensions `W x H` and holds `W*H` cells. -/
def HasShape (W H : Int) (m : GridMap) : Prop := m.width = W ∧ m.height = H ∧ m.Sized

/-- The cells written by the border-wall block. -/
def BorderCells (p : RandomParams) (x y : Int) : Prop :=
  (0 ≤ x ∧ x < p.width ∧ (y = 0 ∨ y = p.height - 1)) ∨
  (0 ≤ y ∧ y < p.height ∧ (x = 0 ∨ x = p.width - 1))

/-- Every in-bounds cell of the outermost ring reads 1. -/
def BorderBlocked (m : GridMap) : Prop :=
  ∀ x y : Int, m.InBounds x y →
    (x = 0 ∨ x = m.width - 1 ∨ y = 0 ∨ y = m.height - 1) → m.at_ x y = 1

/-- Every stored cell is 0 or 1. -/
def Binary (m : GridMap) : Prop := ∀ v ∈ m.data, v = 0 ∨ v = 1

/-! ## Codec

A file is embedded as the list of its bytes (`List Nat`, text as ASCII codes). The writers
return the bytes written when the file could be opened; the readers start from an input stream
holding the bytes of the file. The stream operations of the standard library are embedded by
their contract: `operator>>(int&)` skips white space, reads an optional sign and a run of
decimal digits (range errors of `int` are not modelled), stores 0 and sets the fail bit when no
digit is found, and leaves its argument untouched on a stream that has already failed or hits
the end of the file while skipping white space. -/

/-- Embeds `std::isspace` in the C locale. -/
def isSpace (c : Nat) : Bool := c == 32 || (decide (9 ≤ c) && decide (c ≤ 13))

/-- Embeds `std::isdigit`. -/
def isDigit (c : Nat) : Bool := decide (48 ≤ c) && decide (c ≤ 57)

/-- The decimal digits of a natural number, most significant first, as ASCII codes. -/
def natDigits (n : Nat) : List Nat :=
  if h : n < 10 then [48 + n] else natDigits (n / 10) ++ [48 + n % 10]
decreasing_by omega

/-- The characters `ofs << n` writes for an `int`. -/
def putInt (n : Int) : List Nat :=
  if n < 0 then 45 :: natDigits (-n).toNat else natDigits n.toNat

/-- The number denoted by a run of decimal digits. -/
def digitsVal (ds : List Nat) : Nat := ds.foldl (fun acc d => 10 * acc + (d - 48)) 0

/-- Embeds `std::ifstream`: the bytes not yet consumed and the fail bit. -/
structure IStream where
  buf : List Nat
  fail : Bool
deriving DecidableEq, Repr

/-- Embeds `ifs >> v` for `int v` holding `old` before the call: the value of `v` afterwards and the
stream afterwards. -/
def IStream.readInt (s : IStream) (old : Int) : Int × IStream :=
  if s.fail then (old, s)
  else
    match s.buf.dropWhile isSpace with
    | [] => (old, { buf := [], fail := true })
    | c :: rest =>
      let body := if c = 45 ∨ c = 43 then rest else c :: rest
      if body.takeWhile isDigit = [] then (0, { buf := body, fail := true })
      else
        ((if c = 45 then -((digitsVal (body.takeWhile isDigit) : Nat) : Int)
          else ((digitsVal (body.takeWhile isDigit) : Nat) : Int)),
          { buf := body.dropWhile isDigit, fail := false })

/-- Embeds `ifs >> str` for `std::string str` holding `old`: skips white space and reads up to the next
white space. -/
def IStream.readWord (s : IStream) (old : List Nat) : List Nat × IStream :=
  if s.fail then (old, s)
  else
    match s.buf.dropWhile isSpace with
    | [] => (old, { buf := [], fail := true })
    | c :: rest =>
      ((c :: rest).takeWhile (fun c => !isSpace c),
        { buf := (c :: rest).dropWhile (fun c => !isSpace c), fail := false })

/-- Embeds `ifs.get()` with the result discarded: consumes one byte if there is one. -/
def IStream.get (s : IStream) : IStream :=
  if s.fail then s
  else
    match s.buf with
    | [] => { buf := [], fail := true }
    | _ :: rest => { buf := rest, fail := false }

/-- Embeds `ifs.read(&pix, 1)` for `unsigned char pix` holding `old`. -/
def IStream.readByte (s : IStream) (old : Nat) : Nat × IStream :=
  if s.fail then (old, s)
  else
    match s.buf with
    | [] => (old, { buf := [], fail := true })
    | c :: rest => (c, { buf := rest, fail := false })

/-- Embeds `bool GridMap::saveASCII(const std::string& path) const`: the bytes written to a file that
could be opened. -/
def saveASCII (m : GridMap) : List Nat :=
  forLt 0 m.height (fun y out =>
    forLt 0 m.width (fun x out =>
      out ++ putInt (m.at_ x y) ++ [if x + 1 = m.width then 10 else 32]) out)
    (putInt m.width ++ [32] ++ putInt m.height ++ [10])

/-- Embeds `GridMap GridMap::loadASCII(const std::string& path)` on the stream `ifs`; `indet` is the
value of the uninitialised `int v` when an extraction leaves it untouched. -/
def loadASCII (indet : Int) (ifs : IStream) : GridMap :=
  let rw := ifs.readInt 0
  let rh := rw.2.readInt 0
  (forLt 0 rh.1 (fun y st =>
    forLt 0 rw.1 (fun x (st : GridMap × IStream) =>
      (st.1.set x y (if (st.2.readInt indet).1 ≠ 0 then 1 else 0), (st.2.readInt indet).2)) st)
    (GridMap.new rw.1 rh.1 0, rh.2)).1

/-- Embeds `bool GridMap::savePGM(const std::string& path, bool binary) const`: the bytes written to a
file that could be opened (`"P5\n"` is `[80, 53, 10]`, `"\n255\n"` is `[10, 50, 53, 53, 10]`). -/
def savePGM (m : GridMap) (binary : Bool) : List Nat :=
  if binary then
    forLt 0 m.height (fun y out =>
      forLt 0 m.width (fun x out => out ++ [if m.at_ x y ≠ 0 then 0 else 255]) out)
      ([80, 53, 10] ++ putInt m.width ++ [32] ++ putInt m.height ++ [10, 50, 53, 53, 10])
  else
    forLt 0 m.height (fun y out =>
      forLt 0 m.width (fun x out =>
        out ++ putInt (if m.at_ x y ≠ 0 then 0 else 255) ++
          [if x + 1 = m.width then 10 else 32]) out)
      ([80, 50, 10] ++ putInt m.width ++ [32] ++ putInt m.height ++ [10, 50, 53, 53, 10])

/-- Embeds `GridMap GridMap::loadPGM(const std::string& path)` on the stream `ifs`; `indet` and
`indetByte` are the values of the uninitialised `int pix` and `unsigned char pix` when a read
leaves them untouched. -/
def loadPGM (indet : Int) (indetByte : Nat) (ifs : IStream) : GridMap :=
  let rm := ifs.readWord []
  if rm.1 ≠ [80, 50] ∧ rm.1 ≠ [80, 53] then GridMap.empty
  else
    let rw := rm.2.readInt 0
    let rh := rw.2.readInt 0
    let rmax := rh.2.readInt 255
    let s := rmax.2.get
    if rm.1 = [80, 53] then
      (forLt 0 rh.1 (fun y st =>
        forLt 0 rw.1 (fun x (st : GridMap × IStream) =>
          (st.1.set x y (if (st.2.readByte indetByte).1 < 128 then 1 else 0),
            (st.2.readByte indetByte).2)) st)
        (GridMap.new rw.1 rh.1 0, s)).1
    else
      (forLt 0 rh.1 (fun y st =>
        forLt 0 rw.1 (fun x (st : GridMap × IStream) =>
          (st.1.set x y (if (st.2.readInt indet).1 < 128 then 1 else 0),
            (st.2.readInt indet).2)) st)
        (GridMap.new rw.1 rh.1 0, s)).1

/-- The cells of a `w x h` raster in the order of the double loop
`for y in [0,h): for x in [0,w)`. -/
def scanCells (w h : Nat) : List (Int × Int) :=
  (List.range h).flatMap (fun (y : Nat) =>
    (List.range w).map (fun (x : Nat) => ((x : Int), (y : Int))))

/-! ## Connectivity of the free space -/

/-- The cell `b` is a neighbour of `a` under the connectivity `conn`: their offset is one of
the rows of `dirs4` or `dirs8`. -/
def Neighbour (conn : Connectivity) (a b : Int × Int) : Prop :=
  (b.1 - a.1, b.2 - a.2) ∈ dirs conn

/-- One link of a chain of free cells of `m`. -/
def FreeStep (m : GridMap) (conn : Connectivity) (a b : Int × Int) : Prop :=
  m.isFree a.1 a.2 = true ∧ m.isFree b.1 b.2 = true ∧ Neighbour conn a b

/-- One link between two axis neighbours inside a set `F` of cells. -/
def Step4 (F : Int × Int → Prop) (a b : Int × Int) : Prop :=
  F a ∧ F b ∧ iabs (b.1 - a.1) + iabs (b.2 - a.2) = 1

/-- The cells `a` and `b` are joined by a chain of axis neighbours inside `F`. -/
def Conn4 (F : Int × Int → Prop) (a b : Int × Int) : Prop :=
  Relation.ReflTransGen (Step4 F) a b

/-- The cell `c` lies in the inclusive box `[xl, xh] × [yl, yh]`. -/
def InBox (xl xh yl yh : Int) (c : Int × Int) : Prop :=
  xl ≤ c.1 ∧ c.1 ≤ xh ∧ yl ≤ c.2 ∧ c.2 ≤ yh

/-- The cells of the half-open rectangle `[x, x+w) × [y, y+h)` of a room. -/
def RectMem (r : Rect) (c : Int × Int) : Prop :=
  r.x ≤ c.1 ∧ c.1 < r.x + r.w ∧ r.y ≤ c.2 ∧ c.2 < r.y + r.h

/-- The centre `(cx, cy)` of a room. -/
def centre (r : Rect) : Int × Int := (r.cx, r.cy)

/-- The cells the border-wall block leaves alone: all in-bounds cells without border walls, the
cells off the outer ring with them. -/
def Safe (p : RandomParams) (c : Int × Int) : Prop :=
  (if p.add_border_walls then 1 else 0) ≤ c.1 ∧
  c.1 ≤ p.width - 1 - (if p.add_border_walls then 1 else 0) ∧
  (if p.add_border_walls then 1 else 0) ≤ c.2 ∧
  c.2 ≤ p.height - 1 - (if p.add_border_walls then 1 else 0)

/-- The cells that are free in the raster returned when `m` is the raster before the
border-wall block. -/
def FinalFree (p : RandomParams) (m : GridMap) (c : Int × Int) : Prop :=
  Safe p c ∧ m.at_ c.1 c.2 = 0

/-- The cells strictly inside the outer ring. -/
def Interior (p : RandomParams) (c : Int × Int) : Prop :=
  1 ≤ c.1 ∧ c.1 ≤ p.width - 2 ∧ 1 ≤ c.2 ∧ c.2 ≤ p.height - 2

/-- A room produced by the placement loop under a valid configuration: at least one cell wide
and high, off the outer ring, with its centre computed from its corner. -/
def RectValid (p : RandomParams) (r : Rect) : Prop :=
  1 ≤ r.w ∧ 1 ≤ r.h ∧ 1 ≤ r.x ∧ r.x + r.w ≤ p.width - 1 ∧ 1 ≤ r.y ∧ r.y + r.h ≤ p.height - 1 ∧
  r.cx = r.x + r.w.tdiv 2 ∧ r.cy = r.y + r.h.tdiv 2

/-- The invariant of the raster while corridors are carved, for the rooms placed: it has the
configured shape, every room cell is free, and every cell that will be free in the result is
joined to the centre of some room by a chain of cells that will be free in the result. -/
def CarveInv (p : RandomParams) (rooms : List Rect) (m : GridMap) : Prop :=
  HasShape p.width p.height m ∧
  (∀ r ∈ rooms, ∀ c, RectMem r c → m.at_ c.1 c.2 = 0) ∧
  (∀ c, FinalFree p m c → ∃ r ∈ rooms, Conn4 (FinalFree p m) c (centre r))

/-- The invariant of the placement loop: the raster has the configured shape, every accepted
room is valid, and the free cells are exactly the cells of the accepted rooms. -/
def PlaceInv (p : RandomParams) (rooms : List Rect) (m : GridMap) : Prop :=
  HasShape p.width p.height m ∧
  (∀ r ∈ rooms, RectValid p r) ∧
  (∀ r ∈ rooms, ∀ c, RectMem r c → m.at_ c.1 c.2 = 0) ∧
  (∀ c : Int × Int, m.at_ c.1 c.2 = 0 → ∃ r ∈ rooms, RectMem r c)

/-- Room `v` reaches room 0 by following `parent` through rooms that are marked in `inMST`. -/
inductive RootPath (parent : List Int) (inMST : List Bool) : Nat → Prop
  | root : RootPath parent inMST 0
  | step (v u : Nat) : inMST.getD v false = true → parent.getD v (-1) = (u : Int) →
      RootPath parent inMST u → RootPath parent inMST v

/-- The invariant of the Prim loop before iteration `c` (0-based) over `rooms`. -/
def PrimInv (rooms : List Rect) (c : Nat) (st : PrimState) : Prop :=
  st.parent.length = rooms.length ∧ st.key.length = rooms.length ∧
  st.inMST.length = rooms.length ∧
  st.inMST.count true ≤ c ∧
  (c = 0 → (∀ v, st.inMST.getD v false = false) ∧ st.key.getD 0 0 = 0 ∧
    (∀ v, 0 < v → v < rooms.length → st.key.getD v 0 = INT32_MAX)) ∧
  (0 < c → st.inMST.getD 0 false = true ∧
    (∀ v, v < rooms.length → st.key.getD v 0 < INT32_MAX) ∧
    (∀ v, 0 < v → v < rooms.length → st.parent.getD v (-1) ≠ -1)) ∧
  (∀ v, v < rooms.length → st.parent.getD v (-1) ≠ -1 →
    ∃ u : Nat, st.parent.getD v (-1) = (u : Int) ∧ u < rooms.length ∧
      st.inMST.getD u false = true) ∧
  (∀ v, v < rooms.length → st.inMST.getD v false = true → RootPath st.parent st.inMST v)

/-! ## Circles -/

/-- The lambda `plot8(px, py)` of `GridMap::circle`: the horizontal spans of the rows
`cy + py` and `cy - py` in the filled variant, the eight symmetric points otherwise. -/
def plot8 (m : GridMap) (cx cy : Int) (value : Nat) (filled : Bool) (px py : Int) : GridMap :=
  if filled then
    forLe (cx - px) (cx + px) (fun ix m => (m.set ix (cy + py) value).set ix (cy - py) value) m
  else
    (((((((m.set (cx + px) (cy + py) value).set (cx - px) (cy + py) value).set
      (cx + px) (cy - py) value).set (cx - px) (cy - py) value).set
      (cx + py) (cy + px) value).set (cx - py) (cy + px) value).set
      (cx + py) (cy - px) value).set (cx - py) (cy - px) value

/-- The loop `while (x >= y) { plot8(x,y); y++; if (err <= 0) err += 2*y + 1;
if (err > 0) { x--; err -= 2*x + 1; } }` of `GridMap::circle`; one unit of fuel is one
evaluation of the loop condition. -/
def circleLoop (cx cy : Int) (value : Nat) (filled : Bool) :
    Nat → GridMap → Int → Int → Int → Option GridMap
  | 0, _, _, _, _ => none
  | fuel + 1, m, x, y, err =>
    if x ≥ y then
      let err1 := if err ≤ 0 then err + (2 * (y + 1) + 1) else err
      let x' := if err1 > 0 then x - 1 else x
      let err2 := if err1 > 0 then err1 - (2 * x' + 1) else err1
      circleLoop cx cy value filled fuel (plot8 m cx cy value filled x y) x' (y + 1) err2
    else some m

/-- Embeds `void GridMap::circle(int cx, int cy, int r, uint8_t value, bool filled)`. The
coordinates and the error term are unbounded integers: the embedding is the source as long as
they fit an `int` (`CircleInRange`). -/
def circle (fuel : Nat) (m : GridMap) (cx cy r : Int) (value : Nat) (filled : Bool) :
    Option GridMap :=
  circleLoop cx cy value filled fuel m r 0 0

/-- Raster `m'` has the width, the height and the buffer length of `m`. -/
def Preserved (m m' : GridMap) : Prop :=
  m'.width = m.width ∧ m'.height = m.height ∧ m'.data.length = m.data.length

/-- The synchronous step `S` of the clustering automaton: one pass of the double loop of
`growClusters` reading `m` and writing a fresh zero buffer of the same dimensions. -/
def clusterStep (m : GridMap) (conn : Connectivity) : GridMap :=
  clusterPass m (GridMap.new m.width m.height 0) conn

/-- Two rooms share no cell as half-open rectangles `[x, x+w) × [y, y+h)`. -/
def RectDisjoint (q r : Rect) : Prop := ∀ c : Int × Int, ¬ (RectMem q c ∧ RectMem r c)

/-- The optimality invariant of the Prim loop once room 0 is marked: every unmarked room `v`
has a marked parent at distance `key[v]`, no marked room is nearer to `v` than `key[v]`, and no
room but the first is its own parent. -/
def PrimOpt (rooms : List Rect) (st : PrimState) : Prop :=
  st.parent.length = rooms.length ∧ st.key.length = rooms.length ∧
  st.inMST.length = rooms.length ∧
  st.inMST.getD 0 false = true ∧
  (∀ v, v < rooms.length → st.inMST.getD v false = false →
    ∃ s : Nat, s < rooms.length ∧ st.inMST.getD s false = true ∧
      st.parent.getD v (-1) = (s : Int) ∧ st.key.getD v 0 = roomDist rooms (s : Int) v) ∧
  (∀ v, v < rooms.length → st.inMST.getD v false = false →
    ∀ s, s < rooms.length → st.inMST.getD s false = true →
      st.key.getD v 0 ≤ roomDist rooms (s : Int) v) ∧
  (∀ v, 0 < v → v < rooms.length →
    ∃ s : Nat, s < rooms.length ∧ s ≠ v ∧ st.parent.getD v (-1) = (s : Int))

/-- The rooms below `n` that are not marked in `inMST`. -/
def unmarkedSet (n : Nat) (st : PrimState) : Finset Nat :=
  (Finset.range n).filter (fun v => st.inMST.getD v false = false)

/-- The rooms of the witness of C14: three rooms with centres `(0,0)`, `(10,0)`, `(3,0)`. -/
def sampleRooms : List Rect :=
  [⟨0, 0, 1, 1, 0, 0⟩, ⟨10, 0, 1, 1, 10, 0⟩, ⟨3, 0, 1, 1, 3, 0⟩]

/-- The least value of a 32-bit `int`. -/
def INT32_MIN : Int := -2147483648

/-- The integer is a value of the 32-bit type `int` of the source. -/
def InInt (a : Int) : Prop := INT32_MIN ≤ a ∧ a ≤ INT32_MAX

instance (a : Int) : Decidable (InInt a) := by unfold InInt; infer_instance

/-- The arguments of `GridMap(w, h, fill)` for which the product `w*h` of the source does not
overflow `int`. -/
def NewInRange (w h : Int) : Prop := InInt w ∧ InInt h ∧ InInt (w * h)

instance (w h : Int) : Decidable (NewInRange w h) := by unfold NewInRange; infer_instance

/-- The arguments of `rectangle` for which no `int` computation of the source overflows: the
sums `x0 + w`, `y0 + h`, the corners `x1 = x0 + w - 1`, `y1 = y0 + h - 1`, and the loop
counters, which run up to `x1 + 1` and `y1 + 1`. -/
def RectInRange (x0 y0 w h : Int) : Prop :=
  InInt x0 ∧ InInt y0 ∧ InInt w ∧ InInt h ∧
  INT32_MIN < x0 + w ∧ x0 + w ≤ INT32_MAX ∧ INT32_MIN < y0 + h ∧ y0 + h ≤ INT32_MAX

instance (x0 y0 w h : Int) : Decidable (RectInRange x0 y0 w h) := by
  unfold RectInRange; infer_instance

/-- The end points of `line` for which no `int` computation of the source overflows: the error
term `err` stays within `±(dx + |dy|)`, so `2*err`, `err + dy` and `err + dx` fit an `int` as
long as `|x1-x0| + |y1-y0| < 2^30`. -/
def LineInRange (x0 y0 x1 y1 : Int) : Prop :=
  InInt x0 ∧ InInt y0 ∧ InInt x1 ∧ InInt y1 ∧ iabs (x1 - x0) + iabs (y1 - y0) < 1073741824

instance (x0 y0 x1 y1 : Int) : Decidable (LineInRange x0 y0 x1 y1) := by
  unfold LineInRange; infer_instance

/-- The arguments of `circle` for which no `int` computation of the source overflows: the
coordinates `cx ± x`, `cy ± y`, the span counter `ix`, and the terms `2*y + 1`, `2*x + 1` and
`err`, all bounded by `|cx| + |r| + 1`, `|cy| + |r| + 1` or `2*|r| + 3`. -/
def CircleInRange (cx cy r : Int) : Prop :=
  InInt cx ∧ InInt cy ∧ InInt r ∧ iabs cx + iabs r < 1073741824 ∧ iabs cy + iabs r < 1073741824

instance (cx cy r : Int) : Decidable (CircleInRange cx cy r) := by
  unfold CircleInRange; infer_instance

/-- The cell `c` lies on the axis-aligned segment between `a` and `b`. -/
def OnLeg (a b c : Int × Int) : Prop :=
  (a.2 = b.2 ∧ c.2 = a.2 ∧ min a.1 b.1 ≤ c.1 ∧ c.1 ≤ max a.1 b.1) ∨
  (a.1 = b.1 ∧ c.1 = a.1 ∧ min a.2 b.2 ≤ c.2 ∧ c.2 ≤ max a.2 b.2)

/-- Every cell of one of the two L-shaped paths from `a` to `b` (the elbow at `(b.1, a.2)`,
first along the row of `a`, or at `(a.1, b.2)`, first along the column of `a`) lies in `F`. -/
def CorridorFree (F : Int × Int → Prop) (a b : Int × Int) : Prop :=
  ∃ e : Int × Int, (e = (b.1, a.2) ∨ e = (a.1, b.2)) ∧
    ∀ c : Int × Int, OnLeg a e c ∨ OnLeg e b c → F c

end GridMap

/-! ## Dijkstra
Embeds `dijkstra` of `src/algos/Dijsktra.cpp`. `double` weights and distances are embedded as
exact rationals, with `⊤` for `std::numeric_limits<double>::infinity()`. Node indices (`n`, `s`,
`Edge::v`, the second component of a queue entry) are natural numbers: a negative index is
undefined behaviour in the source. The `std::priority_queue` with `std::greater<State>` is
embedded as the list of the pairs it holds: `top` is the least pair in the lexicographic order,
`pop` removes it and `emplace` adds a pair. An index past the end of `dist` or `g`, undefined in
the source, reads `⊤` or the empty list. -/

/-- Embeds `struct Edge { int v; double w; }`. -/
structure Edge where
  v : Nat
  w : ℚ

/-- Embeds `using Graph = vector<vector<Edge>>`. -/
abbrev Graph := List (List Edge)

/-- Embeds `using State = pair<double,int>`. -/
abbrev State := WithTop ℚ × Nat

/-- The variables `dist`, `prev` and `pq` of `dijkstra`. -/
structure DijkstraState where
  dist : List (WithTop ℚ)
  prev : List Int
  pq : List State

/-- The order of `std::pair`: lexicographic, `a <= b`. -/
def stateLe (a b : State) : Bool :=
  decide (a.1 < b.1) || (decide (a.1 = b.1) && decide (a.2 ≤ b.2))

/-- Embeds `pq.top()` for the min-queue `priority_queue<State, vector<State>, greater<State>>`:
the least pair held, `none` on an empty queue. -/
def pqTop : List State → Option State
  | [] => none
  | x :: xs =>
    match pqTop xs with
    | none => some x
    | some m => if stateLe x m then some x else some m

/-- The loop `for (auto [v, w] : g[u])` of `dijkstra` over the edges still to visit. -/
def relaxEdges (u : Nat) : List Edge → DijkstraState → DijkstraState
  | [], st => st
  | e :: es, st =>
    relaxEdges u es
      (if st.dist.getD e.v ⊤ > st.dist.getD u ⊤ + (e.w : WithTop ℚ) then
        { dist := st.dist.set e.v (st.dist.getD u ⊤ + (e.w : WithTop ℚ)),
          prev := st.prev.set e.v (u : Int),
          pq := (st.dist.getD u ⊤ + (e.w : WithTop ℚ), e.v) :: st.pq }
      else st)

/-- The loop `while (!pq.empty())` of `dijkstra`; one unit of fuel is one evaluation of the
loop condition. -/
def dijkstraLoop (g : Graph) : Nat → DijkstraState → Option DijkstraState
  | 0, _ => none
  | fuel + 1, st =>
    match pqTop st.pq with
    | none => some st
    | some top =>
      if top.1 > st.dist.getD top.2 ⊤ then
        dijkstraLoop g fuel { st with pq := st.pq.erase top }
      else
        dijkstraLoop g fuel
          (relaxEdges top.2 (g.getD top.2 []) { st with pq := st.pq.erase top })

/-- Embeds `pair<vector<double>, vector<int>> dijkstra(int n, const Graph& g, int s)`. -/
def dijkstra (fuel : Nat) (n : Nat) (g : Graph) (s : Nat) :
    Option (List (WithTop ℚ) × List Int) :=
  match dijkstraLoop g fuel
      { dist := (List.replicate n ⊤).set s 0, prev := List.replicate n (-1), pq := [(0, s)] } with
  | none => none
  | some st => some (st.dist, st.prev)

/-- A directed path of `g` from `s` to a node, with its total weight. -/
inductive Path (g : Graph) (s : Nat) : Nat → ℚ → Prop
  | nil : Path g s s 0
  | snoc (u : Nat) (c : ℚ) (e : Edge) : Path g s u c → e ∈ g.getD u [] → Path g s e.v (c + e.w)

/-- The invariant of the loops of `dijkstra`. `X` holds the nodes already expanded, `dstar` is
the key of the last expansion and `cl x` lists the edges of the expanded node `x` that have
been relaxed. -/
def DInv (g : Graph) (n s : Nat) (X : Finset Nat) (dstar : WithTop ℚ) (cl : Nat → List Edge)
    (st : DijkstraState) : Prop :=
  st.dist.length = n ∧
  (∀ k x, (k, x) ∈ st.pq → x < n ∧ st.dist.getD x ⊤ ≤ k ∧ dstar ≤ k) ∧
  st.pq.Nodup ∧
  (∀ x ∈ X, x < n ∧ st.dist.getD x ⊤ ≤ dstar ∧
    (∀ k, (k, x) ∈ st.pq → st.dist.getD x ⊤ < k) ∧
    ∀ e ∈ cl x, st.dist.getD e.v ⊤ ≤ st.dist.getD x ⊤ + (e.w : WithTop ℚ)) ∧
  (∀ x, x < n → x ∉ X → st.dist.getD x ⊤ ≠ ⊤ → (st.dist.getD x ⊤, x) ∈ st.pq) ∧
  (∀ x, x < n → st.dist.getD x ⊤ ≠ ⊤ →
    ∃ c : ℚ, Path g s x c ∧ st.dist.getD x ⊤ = (c : WithTop ℚ)) ∧
  st.dist.getD s ⊤ ≤ 0

/-- The graph of `main_dijkstra_demo`: edges `0->1 (2)`, `0->2 (5)`, `1->2 (1)`, `1->3 (2)`,
`2->3 (1)`, `3->4 (3)` on 5 nodes. -/
def demoGraph : Graph :=
  [[⟨1, 2⟩, ⟨2, 5⟩], [⟨2, 1⟩, ⟨3, 2⟩], [⟨3, 1⟩], [⟨4, 3⟩], []]

/-! ## Theorems -/

namespace GridMap

theorem oob_eq_false_iff (m : GridMap) (x y : Int) : m.oob x y = false ↔ m.InBounds x y := by
  simp only [oob, InBounds, Bool.or_eq_false_iff, decide_eq_false_iff_not, not_lt, ge_iff_le,
    not_le]
  tauto

theorem oob_eq_true_iff (m : GridMap) (x y : Int) : m.oob x y = true ↔ ¬ m.InBounds x y := by
  rw [← oob_eq_false_iff]; simp

theorem idx_lt_of_inBounds {m : GridMap} (hs : m.Sized) {x y : Int} (h : m.InBounds x y) :
    idx x y m.width < m.data.length := by
  obtain ⟨hx, hy, hxw, hyh⟩ := h
  have h1 : (y + 1) * m.width ≤ m.height * m.width :=
    Int.mul_le_mul_of_nonneg_right (by omega) (by omega)
  have h2 : 0 ≤ y * m.width := Int.mul_nonneg hy (by omega)
  rw [hs, idx]
  have h3 : m.width * m.height = m.height * m.width := Int.mul_comm _ _
  have h4 : (y + 1) * m.width = y * m.width + m.width := by ring
  omega

theorem idx_inj {w x y x' y' : Int} (hx : 0 ≤ x) (hxw : x < w) (hy : 0 ≤ y)
    (hx' : 0 ≤ x') (hxw' : x' < w) (hy' : 0 ≤ y') (h : idx x y w = idx x' y' w) :
    x = x' ∧ y = y' := by
  have h2 : 0 ≤ y * w := Int.mul_nonneg hy (by omega)
  have h2' : 0 ≤ y' * w := Int.mul_nonneg hy' (by omega)
  have e : y * w + x = y' * w + x' := by
    unfold idx at h; omega
  have hyy : y = y' := by
    rcases lt_trichotomy y y' with hlt | heq | hgt
    · have h1 : (y + 1) * w ≤ y' * w := Int.mul_le_mul_of_nonneg_right (by omega) (by omega)
      have h4 : (y + 1) * w = y * w + w := by ring
      omega
    · exact heq
    · have h1 : (y' + 1) * w ≤ y * w := Int.mul_le_mul_of_nonneg_right (by omega) (by omega)
      have h4 : (y' + 1) * w = y' * w + w := by ring
      omega
  subst hyy
  exact ⟨by omega, rfl⟩

@[simp] theorem set_width (m : GridMap) (x y : Int) (v : Nat) : (m.set x y v).width = m.width := by
  unfold set; split <;> rfl

@[simp] theorem set_height (m : GridMap) (x y : Int) (v : Nat) :
    (m.set x y v).height = m.height := by
  unfold set; split <;> rfl

@[simp] theorem set_length (m : GridMap) (x y : Int) (v : Nat) :
    (m.set x y v).data.length = m.data.length := by
  unfold set; split <;> simp

theorem set_sized {m : GridMap} (hs : m.Sized) (x y : Int) (v : Nat) : (m.set x y v).Sized := by
  unfold Sized at *; simp [hs]

@[simp] theorem set_oob (m : GridMap) (x y : Int) (v : Nat) (x' y' : Int) :
    (m.set x y v).oob x' y' = m.oob x' y' := by
  simp [oob]

theorem set_inBounds (m : GridMap) (x y : Int) (v : Nat) (x' y' : Int) :
    (m.set x y v).InBounds x' y' ↔ m.InBounds x' y' := by
  simp [InBounds]

theorem set_data_of_inBounds {m : GridMap} {x y : Int} (h : m.InBounds x y) (v : Nat) :
    (m.set x y v).data = m.data.set (idx x y m.width) (clamp01 v) := by
  simp [set, (oob_eq_false_iff m x y).2 h]

theorem set_of_not_inBounds {m : GridMap} {x y : Int} (h : ¬ m.InBounds x y) (v : Nat) :
    m.set x y v = m := by
  simp [set, (oob_eq_true_iff m x y).2 h]

/-- The value read back after one `set`, for every queried cell. -/
theorem at_set {m : GridMap} (hs : m.Sized) (x y : Int) (v : Nat) (x' y' : Int) :
    (m.set x y v).at_ x' y' =
      if (x' = x ∧ y' = y) ∧ m.InBounds x y then clamp01 v else m.at_ x' y' := by
  by_cases hin : m.InBounds x y
  · unfold at_
    rw [set_oob, set_width, set_data_of_inBounds hin]
    by_cases hin' : m.InBounds x' y'
    · have ho' : m.oob x' y' = false := (oob_eq_false_iff m x' y').2 hin'
      have hlt := idx_lt_of_inBounds hs hin
      by_cases hxy : x' = x ∧ y' = y
      · obtain ⟨rfl, rfl⟩ := hxy
        simp [ho', hin, List.getD_eq_getElem?_getD, List.getElem?_set, hlt]
      · have hne : idx x y m.width ≠ idx x' y' m.width := by
          intro he
          obtain ⟨h1, h2⟩ := idx_inj hin.1 hin.2.2.1 hin.2.1 hin'.1 hin'.2.2.1 hin'.2.1 he
          exact hxy ⟨h1.symm, h2.symm⟩
        simp [ho', hxy, List.getD_eq_getElem?_getD, List.getElem?_set, hne]
    · have ho' : m.oob x' y' = true := (oob_eq_true_iff m x' y').2 hin'
      have hxy : ¬ (x' = x ∧ y' = y) := by
        rintro ⟨rfl, rfl⟩; exact hin' hin
      simp [ho', hxy]
  · rw [set_of_not_inBounds hin]; simp [hin]

/-! ### Painting: the effect of sequences of `set` with one value -/

theorem Paints.refl {m : GridMap} (hs : m.Sized) (f : Int → Int → Nat) :
    Paints m m f (fun _ _ => False) :=
  ⟨rfl, rfl, hs, fun _ _ => ⟨fun h => h.elim, fun _ => rfl⟩⟩

theorem Paints.set_cell {m : GridMap} (hs : m.Sized) (a b : Int) (f : Int → Int → Nat) :
    Paints m (m.set a b (f a b)) f (fun x y => x = a ∧ y = b) := by
  refine ⟨set_width .., set_height .., set_sized hs .., fun x y => ⟨?_, ?_⟩⟩
  · rintro ⟨rfl, rfl⟩ hin
    rw [at_set hs]; simp [hin]
  · intro hn
    rw [at_set hs]; simp [hn]

theorem Paints.inBounds {m m' : GridMap} {f : Int → Int → Nat} {S : Int → Int → Prop} (h : Paints m m' f S)
    (x y : Int) : m'.InBounds x y ↔ m.InBounds x y := by
  unfold InBounds; rw [h.1, h.2.1]

theorem Paints.trans {m m' m'' : GridMap} {f : Int → Int → Nat} {S T : Int → Int → Prop}
    (h1 : Paints m m' f S) (h2 : Paints m' m'' f T) :
    Paints m m'' f (fun x y => S x y ∨ T x y) := by
  refine ⟨h2.1.trans h1.1, h2.2.1.trans h1.2.1, h2.2.2.1, fun x y => ⟨?_, ?_⟩⟩
  · intro hst hin
    by_cases ht : T x y
    · exact (h2.2.2.2 x y).1 ht ((h1.inBounds x y).2 hin)
    · rw [(h2.2.2.2 x y).2 ht]
      exact (h1.2.2.2 x y).1 (hst.resolve_right ht) hin
  · intro hn
    rw [(h2.2.2.2 x y).2 (fun h => hn (Or.inr h)), (h1.2.2.2 x y).2 (fun h => hn (Or.inl h))]

theorem Paints.congr {m m' : GridMap} {f : Int → Int → Nat} {S T : Int → Int → Prop}
    (h : Paints m m' f S) (hST : ∀ x y, S x y ↔ T x y) : Paints m m' f T := by
  refine ⟨h.1, h.2.1, h.2.2.1, fun x y => ⟨?_, ?_⟩⟩
  · intro ht; exact (h.2.2.2 x y).1 ((hST x y).2 ht)
  · intro hn; exact (h.2.2.2 x y).2 (fun hs => hn ((hST x y).1 hs))

/-- A counted loop whose body paints `S i` paints the union of the `S i` it ran through. -/
theorem Paints.loopN {f : Int → Int → Nat} {S : Int → Int → Int → Prop} {b : Int → GridMap → GridMap}
    (hb : ∀ i m, m.Sized → Paints m (b i m) f (S i)) :
    ∀ (n : Nat) (lo : Int) (m : GridMap), m.Sized →
      Paints m (path_planning.loopN n lo b m) f
        (fun x y => ∃ i : Int, lo ≤ i ∧ i < lo + n ∧ S i x y)
  | 0, lo, m, hs => by
    refine (Paints.refl hs f).congr (fun x y => ⟨fun h => h.elim, ?_⟩)
    rintro ⟨i, h1, h2, _⟩
    simp at h2; omega
  | n + 1, lo, m, hs => by
    have h1 := hb lo m hs
    have h2 := Paints.loopN hb n (lo + 1) (b lo m) h1.2.2.1
    refine (h1.trans h2).congr (fun x y => ⟨?_, ?_⟩)
    · rintro (h | ⟨i, hi1, hi2, hi3⟩)
      · exact ⟨lo, le_refl _, by push_cast; omega, h⟩
      · exact ⟨i, by omega, by push_cast; omega, hi3⟩
    · rintro ⟨i, hi1, hi2, hi3⟩
      by_cases hil : i = lo
      · subst hil; exact Or.inl hi3
      · exact Or.inr ⟨i, by omega, by push_cast at hi2; omega, hi3⟩

theorem Paints.forLe {f : Int → Int → Nat} {S : Int → Int → Int → Prop} {b : Int → GridMap → GridMap}
    (hb : ∀ i m, m.Sized → Paints m (b i m) f (S i)) (lo hi : Int) {m : GridMap}
    (hs : m.Sized) :
    Paints m (path_planning.forLe lo hi b m) f
      (fun x y => ∃ i : Int, lo ≤ i ∧ i ≤ hi ∧ S i x y) := by
  refine (Paints.loopN hb (hi + 1 - lo).toNat lo m hs).congr (fun x y => ?_)
  constructor
  · rintro ⟨i, h1, h2, h3⟩; exact ⟨i, h1, by omega, h3⟩
  · rintro ⟨i, h1, h2, h3⟩; exact ⟨i, h1, by omega, h3⟩

theorem Paints.forLt {f : Int → Int → Nat} {S : Int → Int → Int → Prop} {b : Int → GridMap → GridMap}
    (hb : ∀ i m, m.Sized → Paints m (b i m) f (S i)) (lo hi : Int) {m : GridMap}
    (hs : m.Sized) :
    Paints m (path_planning.forLt lo hi b m) f
      (fun x y => ∃ i : Int, lo ≤ i ∧ i < hi ∧ S i x y) := by
  refine (Paints.loopN hb (hi - lo).toNat lo m hs).congr (fun x y => ?_)
  constructor
  · rintro ⟨i, h1, h2, h3⟩; exact ⟨i, h1, by omega, h3⟩
  · rintro ⟨i, h1, h2, h3⟩; exact ⟨i, h1, by omega, h3⟩

/-- Painting a list of cells one after the other. -/
theorem Paints.foldl (v : Nat) :
    ∀ (cells : List (Int × Int)) (m : GridMap), m.Sized →
      Paints m (cells.foldl (fun m c => m.set c.1 c.2 v) m) (fun _ _ => v)
        (fun x y => (x, y) ∈ cells)
  | [], m, hs => (Paints.refl hs _).congr (fun x y => by simp)
  | c :: cs, m, hs => by
    have h1 : Paints m (m.set c.1 c.2 v) (fun _ _ => v) _ := Paints.set_cell hs c.1 c.2 (fun _ _ => v)
    have h2 := Paints.foldl v cs (m.set c.1 c.2 v) h1.2.2.1
    refine (h1.trans h2).congr (fun x y => ?_)
    simp [Prod.ext_iff]

theorem loopN_id {σ : Type} {body : Int → σ → σ} (hb : ∀ i s, body i s = s) :
    ∀ (n : Nat) (lo : Int) (s : σ), loopN n lo body s = s
  | 0, _, _ => rfl
  | n + 1, lo, s => by rw [path_planning.loopN, hb, loopN_id hb n]

theorem at_new (w h : Int) (fill : Nat) (x y : Int) :
    (GridMap.new w h fill).at_ x y =
      if (GridMap.new w h fill).InBounds x y then fill else 1 := by
  by_cases hin : (GridMap.new w h fill).InBounds x y
  · have hs : (GridMap.new w h fill).Sized := by
      unfold Sized GridMap.new; simp
      omega
    have hlt := idx_lt_of_inBounds hs hin
    have hlt' := hlt
    simp only [GridMap.new, List.length_replicate] at hlt'
    simp only [at_, (oob_eq_false_iff _ x y).2 hin, hin, if_true]
    simp [GridMap.new, List.getD_eq_getElem?_getD, List.getElem?_replicate, hlt']
  · simp [at_, (oob_eq_true_iff _ x y).2 hin, hin]

theorem new_sized (w h : Int) (fill : Nat) : (GridMap.new w h fill).Sized := by
  unfold Sized GridMap.new; simp
  omega

/-- The filled rectangle paints the inclusive range `[x0, x0+w-1] × [y0, y0+h-1]`. -/
theorem rectangle_filled_paints {m : GridMap} (hs : m.Sized) (x0 y0 w h : Int) (v : Nat) :
    Paints m (m.rectangle x0 y0 w h v true) (fun _ _ => v)
      (fun x y => x0 ≤ x ∧ x ≤ x0 + w - 1 ∧ y0 ≤ y ∧ y ≤ y0 + h - 1) := by
  unfold rectangle
  simp only [if_true]
  have inner : ∀ (j : Int) (m : GridMap), m.Sized →
      Paints m (path_planning.forLe x0 (x0 + w - 1) (fun x m => m.set x j v) m) (fun _ _ => v)
        (fun x y => ∃ i : Int, x0 ≤ i ∧ i ≤ x0 + w - 1 ∧ (x = i ∧ y = j)) :=
    fun j m hm => Paints.forLe (S := fun i x y => x = i ∧ y = j)
      (fun i m hm => Paints.set_cell hm i j (fun _ _ => v)) x0 (x0 + w - 1) hm
  refine (Paints.forLe (S := fun j x y => ∃ i : Int, x0 ≤ i ∧ i ≤ x0 + w - 1 ∧ (x = i ∧ y = j))
    inner y0 (y0 + h - 1) hs).congr (fun x y => ?_)
  constructor
  · rintro ⟨j, hj1, hj2, i, hi1, hi2, rfl, rfl⟩
    exact ⟨hi1, hi2, hj1, hj2⟩
  · rintro ⟨h1, h2, h3, h4⟩
    exact ⟨y, h3, h4, x, h1, h2, rfl, rfl⟩

/-- What the outline branch of `rectangle` paints, for every `w` and `h`: the two rows `y0`, `y1`
over the columns `x0..x1`, and the two columns `x0`, `x1` over the rows `y0..y1`. -/
theorem rectangle_outline_paints {m : GridMap} (hs : m.Sized) (x0 y0 w h : Int) (v : Nat) :
    Paints m (m.rectangle x0 y0 w h v false) (fun _ _ => v)
      (fun x y => (x0 ≤ x ∧ x ≤ x0 + w - 1 ∧ (y = y0 ∨ y = y0 + h - 1)) ∨
        (y0 ≤ y ∧ y ≤ y0 + h - 1 ∧ (x = x0 ∨ x = x0 + w - 1))) := by
  unfold rectangle
  simp only [Bool.false_eq_true, if_false]
  have hrow := Paints.forLe (f := fun _ _ => v)
    (S := fun i x y => (x = i ∧ y = y0) ∨ (x = i ∧ y = y0 + h - 1))
    (b := fun x m => (m.set x y0 v).set x (y0 + h - 1) v)
    (fun i m hm => (Paints.set_cell hm i y0 (fun _ _ => v)).trans
      (Paints.set_cell (set_sized hm i y0 v) i (y0 + h - 1) (fun _ _ => v))) x0 (x0 + w - 1) hs
  have hcol := Paints.forLe (f := fun _ _ => v)
    (S := fun j x y => (x = x0 ∧ y = j) ∨ (x = x0 + w - 1 ∧ y = j))
    (b := fun y m => (m.set x0 y v).set (x0 + w - 1) y v)
    (fun j m hm => (Paints.set_cell hm x0 j (fun _ _ => v)).trans
      (Paints.set_cell (set_sized hm x0 j v) (x0 + w - 1) j (fun _ _ => v))) y0 (y0 + h - 1) hrow.2.2.1
  refine (hrow.trans hcol).congr (fun x y => ?_)
  constructor
  · rintro (⟨i, h1, h2, (⟨rfl, rfl⟩ | ⟨rfl, rfl⟩)⟩ | ⟨j, h1, h2, (⟨rfl, rfl⟩ | ⟨rfl, rfl⟩)⟩)
    · exact Or.inl ⟨h1, h2, Or.inl rfl⟩
    · exact Or.inl ⟨h1, h2, Or.inr rfl⟩
    · exact Or.inr ⟨h1, h2, Or.inl rfl⟩
    · exact Or.inr ⟨h1, h2, Or.inr rfl⟩
  · rintro (⟨h1, h2, (rfl | rfl)⟩ | ⟨h1, h2, (rfl | rfl)⟩)
    · exact Or.inl ⟨x, h1, h2, Or.inl ⟨rfl, rfl⟩⟩
    · exact Or.inl ⟨x, h1, h2, Or.inr ⟨rfl, rfl⟩⟩
    · exact Or.inr ⟨y, h1, h2, Or.inl ⟨rfl, rfl⟩⟩
    · exact Or.inr ⟨y, h1, h2, Or.inr ⟨rfl, rfl⟩⟩

/-- The loop of `line`, started `a` column steps and `b` row steps away from the end point with
the error term of Bresenham, stops after `a + b + 1` iterations at most. -/
theorem lineLoop_spec (v : Nat) (x1 y1 dx ady sx sy : Int)
    (hsx : sx = 1 ∨ sx = -1) (hsy : sy = 1 ∨ sy = -1) :
    ∀ (fuel : Nat) (m : GridMap) (x0 y0 err a b : Int),
      0 ≤ a → 0 ≤ b → a + b < fuel → a ≤ dx → b ≤ ady →
      x1 = x0 + sx * a → y1 = y0 + sy * b → err = dx - ady + a * ady - b * dx →
      ∃ cells : List (Int × Int),
        lineLoop v x1 y1 dx (-ady) sx sy fuel m x0 y0 err =
          some (cells.foldl (fun m c => m.set c.1 c.2 v) m, cells) ∧
        cells.head? = some (x0, y0) ∧ cells.getLast? = some (x1, y1) ∧
        cells.Chain' Adj8 ∧ (cells.length : Int) ≤ a + b + 1 := by
  intro fuel
  induction fuel with
  | zero => intro m x0 y0 err a b ha hb hf; simp at hf; omega
  | succ n ih =>
    intro m x0 y0 err a b ha hb hf hadx hbdy hx hy herr
    by_cases hend : x0 = x1 ∧ y0 = y1
    · refine ⟨[(x0, y0)], ?_, rfl, ?_, List.chain'_singleton _, ?_⟩
      · simp [lineLoop, hend]
      · simp [hend.1, hend.2]
      · simp; omega
    · have hab : 0 < a ∨ 0 < b := by
        by_contra hc
        have ha0 : a = 0 := by omega
        have hb0 : b = 0 := by omega
        subst ha0 hb0
        exact hend ⟨by simpa using hx.symm, by simpa using hy.symm⟩
      -- no column step once the end column is reached, no row step once the end row is reached
      have hnox : a = 0 → ¬ (2 * err ≥ -ady) := by
        intro ha0
        have hb1 : 1 ≤ b := by omega
        have hp : 0 ≤ (b - 1) * dx := mul_nonneg (by omega) (by omega)
        subst ha0
        intro hc
        have : err = dx - ady - b * dx := by rw [herr]; ring
        have h2 : (b - 1) * dx = b * dx - dx := by ring
        omega
      have hnoy : b = 0 → ¬ (2 * err ≤ dx) := by
        intro hb0
        have ha1 : 1 ≤ a := by omega
        have hp : 0 ≤ (a - 1) * ady := mul_nonneg (by omega) (by omega)
        subst hb0
        intro hc
        have : err = dx - ady + a * ady := by rw [herr]; ring
        have h2 : (a - 1) * ady = a * ady - ady := by ring
        omega
      have hady : 0 ≤ ady := by omega
      have hdx : 0 ≤ dx := by omega
      by_cases hcx : 2 * err ≥ -ady
      · have ha1 : 1 ≤ a := by
          by_contra hc
          exact hnox (by omega) hcx
        by_cases hcy : 2 * err + 2 * (-ady) ≤ dx ∧ 2 * err ≤ dx
        · -- both steps
          have hb1 : 1 ≤ b := by
            by_contra hc
            exact hnoy (by omega) hcy.2
          obtain ⟨cells, hrun, hhead, hlast, hchain, hlen⟩ :=
            ih (m.set x0 y0 v) (x0 + sx) (y0 + sy) (err + -ady + dx) (a - 1) (b - 1)
              (by omega) (by omega) (by push_cast at hf; omega) (by omega) (by omega)
              (by rw [hx]; ring) (by rw [hy]; ring) (by rw [herr]; ring)
          refine ⟨(x0, y0) :: cells, ?_, rfl, ?_, ?_, ?_⟩
          · simp [lineLoop, hend, hcx, hcy.2, hrun]
          · cases cells with
            | nil => simp at hhead
            | cons c cs => simpa [List.getLast?_cons_cons] using hlast
          · cases cells with
            | nil => simp at hhead
            | cons c cs =>
              simp only [List.head?_cons, Option.some.injEq] at hhead
              subst hhead
              refine List.Chain'.cons ?_ hchain
              refine ⟨?_, ?_, ?_⟩
              · intro he
                have := congrArg Prod.fst he
                simp at this
                rcases hsx with h | h <;> omega
              · simp only [iabs]; rcases hsx with h | h <;> subst h <;> simp
              · simp only [iabs]; rcases hsy with h | h <;> subst h <;> simp
          · simp; omega
        · -- column step only
          have hcy' : ¬ (2 * err ≤ dx) := by
            intro hc; exact hcy ⟨by omega, hc⟩
          obtain ⟨cells, hrun, hhead, hlast, hchain, hlen⟩ :=
            ih (m.set x0 y0 v) (x0 + sx) y0 (err + -ady) (a - 1) b
              (by omega) hb (by push_cast at hf; omega) (by omega) hbdy
              (by rw [hx]; ring) hy (by rw [herr]; ring)
          refine ⟨(x0, y0) :: cells, ?_, rfl, ?_, ?_, ?_⟩
          · simp [lineLoop, hend, hcx, hcy', hrun]
          · cases cells with
            | nil => simp at hhead
            | cons c cs => simpa [List.getLast?_cons_cons] using hlast
          · cases cells with
            | nil => simp at hhead
            | cons c cs =>
              simp only [List.head?_cons, Option.some.injEq] at hhead
              subst hhead
              refine List.Chain'.cons ?_ hchain
              refine ⟨?_, ?_, ?_⟩
              · intro he
                have := congrArg Prod.fst he
                simp at this
                rcases hsx with h | h <;> omega
              · simp only [iabs]; rcases hsx with h | h <;> subst h <;> simp
              · simp [iabs]
          · simp; omega
      · -- row step only
        have hcy : 2 * err ≤ dx := by omega
        have hb1 : 1 ≤ b := by
          by_contra hc
          exact hnoy (by omega) hcy
        obtain ⟨cells, hrun, hhead, hlast, hchain, hlen⟩ :=
          ih (m.set x0 y0 v) x0 (y0 + sy) (err + dx) a (b - 1)
            ha (by omega) (by push_cast at hf; omega) hadx (by omega)
            hx (by rw [hy]; ring) (by rw [herr]; ring)
        refine ⟨(x0, y0) :: cells, ?_, rfl, ?_, ?_, ?_⟩
        · simp [lineLoop, hend, hcx, hcy, hrun]
        · cases cells with
          | nil => simp at hhead
          | cons c cs => simpa [List.getLast?_cons_cons] using hlast
        · cases cells with
          | nil => simp at hhead
          | cons c cs =>
            simp only [List.head?_cons, Option.some.injEq] at hhead
            subst hhead
            refine List.Chain'.cons ?_ hchain
            refine ⟨?_, ?_, ?_⟩
            · intro he
              have := congrArg Prod.snd he
              simp at this
              rcases hsy with h | h <;> omega
            · simp [iabs]
            · simp only [iabs]; rcases hsy with h | h <;> subst h <;> simp
        · simp; omega

theorem lineLoop_mono (v : Nat) (x1 y1 dx dy sx sy : Int) :
    ∀ (n : Nat) (m : GridMap) (x0 y0 err : Int) (r : GridMap × List (Int × Int)),
      lineLoop v x1 y1 dx dy sx sy n m x0 y0 err = some r →
      ∀ k : Nat, n ≤ k → lineLoop v x1 y1 dx dy sx sy k m x0 y0 err = some r := by
  intro n
  induction n with
  | zero => intro m x0 y0 err r h; simp [lineLoop] at h
  | succ n ih =>
    intro m x0 y0 err r h k hk
    obtain ⟨k', rfl⟩ : ∃ k', k = k' + 1 := ⟨k - 1, by omega⟩
    unfold lineLoop at h ⊢
    simp only at h ⊢
    split at h
    · rename_i hend; rw [if_pos hend]; exact h
    · rename_i hend
      rw [if_neg hend]
      split at h
      · exact absurd h (by simp)
      · rename_i r' cells' hrec
        rw [ih _ _ _ _ _ hrec k' (by omega)]
        exact h

/-! ### Generic loop invariants -/

theorem loopN_inv {σ : Type} (P : σ → Prop) {b : Int → σ → σ}
    (hb : ∀ i s, P s → P (b i s)) :
    ∀ (n : Nat) (lo : Int) (s : σ), P s → P (loopN n lo b s)
  | 0, _, _, h => h
  | n + 1, lo, s, h => loopN_inv P hb n (lo + 1) (b lo s) (hb lo s h)

theorem forLt_inv {σ : Type} (P : σ → Prop) {b : Int → σ → σ}
    (hb : ∀ i s, P s → P (b i s)) (lo hi : Int) (s : σ) (h : P s) :
    P (forLt lo hi b s) :=
  loopN_inv P hb _ lo s h

theorem forLe_inv {σ : Type} (P : σ → Prop) {b : Int → σ → σ}
    (hb : ∀ i s, P s → P (b i s)) (lo hi : Int) (s : σ) (h : P s) :
    P (forLe lo hi b s) :=
  loopN_inv P hb _ lo s h

theorem HasShape.set_keeps {W H : Int} {m : GridMap} (h : HasShape W H m) (x y : Int) (v : Nat) :
    HasShape W H (m.set x y v) :=
  ⟨by rw [set_width, h.1], by rw [set_height, h.2.1], set_sized h.2.2 x y v⟩

theorem Paints.hasShape {W H : Int} {m m' : GridMap} {f : Int → Int → Nat}
    {S : Int → Int → Prop} (hp : Paints m m' f S) (h : HasShape W H m) : HasShape W H m' :=
  ⟨hp.1.trans h.1, hp.2.1.trans h.2.1, hp.2.2.1⟩

theorem new_hasShape (w h : Int) (fill : Nat) : HasShape w h (GridMap.new w h fill) :=
  ⟨rfl, rfl, new_sized w h fill⟩

/-! ### Border walls -/

theorem addBorderWalls_paints (p : RandomParams) {m : GridMap} (hs : m.Sized) :
    Paints m (addBorderWalls p m) (fun _ _ => 1) (BorderCells p) := by
  unfold addBorderWalls
  have hrow := Paints.forLt (f := fun _ _ => 1)
    (S := fun i x y => (x = i ∧ y = 0) ∨ (x = i ∧ y = p.height - 1))
    (b := fun x m => (m.set x 0 1).set x (p.height - 1) 1)
    (fun i m hm => (Paints.set_cell hm i 0 (fun _ _ => 1)).trans
      (Paints.set_cell (set_sized hm i 0 1) i (p.height - 1) (fun _ _ => 1))) 0 p.width hs
  have hcol := Paints.forLt (f := fun _ _ => 1)
    (S := fun j x y => (x = 0 ∧ y = j) ∨ (x = p.width - 1 ∧ y = j))
    (b := fun y m => (m.set 0 y 1).set (p.width - 1) y 1)
    (fun j m hm => (Paints.set_cell hm 0 j (fun _ _ => 1)).trans
      (Paints.set_cell (set_sized hm 0 j 1) (p.width - 1) j (fun _ _ => 1))) 0 p.height hrow.2.2.1
  refine (hrow.trans hcol).congr (fun x y => ?_)
  unfold BorderCells
  constructor
  · rintro (⟨i, h1, h2, (⟨rfl, rfl⟩ | ⟨rfl, rfl⟩)⟩ | ⟨j, h1, h2, (⟨rfl, rfl⟩ | ⟨rfl, rfl⟩)⟩)
    · exact Or.inl ⟨h1, h2, Or.inl rfl⟩
    · exact Or.inl ⟨h1, h2, Or.inr rfl⟩
    · exact Or.inr ⟨h1, h2, Or.inl rfl⟩
    · exact Or.inr ⟨h1, h2, Or.inr rfl⟩
  · rintro (⟨h1, h2, (rfl | rfl)⟩ | ⟨h1, h2, (rfl | rfl)⟩)
    · exact Or.inl ⟨x, h1, h2, Or.inl ⟨rfl, rfl⟩⟩
    · exact Or.inl ⟨x, h1, h2, Or.inr ⟨rfl, rfl⟩⟩
    · exact Or.inr ⟨y, h1, h2, Or.inl ⟨rfl, rfl⟩⟩
    · exact Or.inr ⟨y, h1, h2, Or.inr ⟨rfl, rfl⟩⟩

theorem addBorderWalls_borderBlocked (p : RandomParams) {m : GridMap}
    (h : HasShape p.width p.height m) :
    HasShape p.width p.height (addBorderWalls p m) ∧ BorderBlocked (addBorderWalls p m) := by
  have hp := addBorderWalls_paints p h.2.2
  refine ⟨hp.hasShape h, ?_⟩
  intro x y hin hb
  have hin' : m.InBounds x y := (hp.inBounds x y).1 hin
  have hw : (addBorderWalls p m).width = p.width := hp.1.trans h.1
  have hh : (addBorderWalls p m).height = p.height := hp.2.1.trans h.2.1
  rw [hw, hh] at hb
  have hc : BorderCells p x y := by
    unfold BorderCells
    obtain ⟨h1, h2, h3, h4⟩ := hin'
    rw [h.1] at h3; rw [h.2.1] at h4
    rcases hb with hb | hb | hb | hb
    · exact Or.inr ⟨h2, h4, Or.inl hb⟩
    · exact Or.inr ⟨h2, h4, Or.inr hb⟩
    · exact Or.inl ⟨h1, h3, Or.inl hb⟩
    · exact Or.inl ⟨h1, h3, Or.inr hb⟩
  have := (hp.2.2.2 x y).1 hc hin'
  simpa [clamp01] using this

/-! ### Cell predicates -/

theorem isFree_iff (m : GridMap) (x y : Int) :
    m.isFree x y = true ↔ m.InBounds x y ∧ m.at_ x y = 0 := by
  simp only [isFree, InBounds, Bool.and_eq_true, decide_eq_true_eq, ge_iff_le]
  tauto

theorem isFree_eq_false_iff (m : GridMap) (x y : Int) :
    m.isFree x y = false ↔ ¬ (m.InBounds x y ∧ m.at_ x y = 0) := by
  rw [← isFree_iff]; simp

theorem at_of_not_inBounds {m : GridMap} {x y : Int} (h : ¬ m.InBounds x y) : m.at_ x y = 1 := by
  simp [at_, (oob_eq_true_iff m x y).2 h]

theorem notFree_of_borderBlocked {m : GridMap} (hb : BorderBlocked m) (x y : Int)
    (h : ¬ m.InBounds x y ∨ x = 0 ∨ x = m.width - 1 ∨ y = 0 ∨ y = m.height - 1) :
    m.isFree x y = false := by
  rw [isFree_eq_false_iff]
  rintro ⟨hin, h0⟩
  rcases h with h | h
  · exact h hin
  · rw [hb x y hin h] at h0; exact absurd h0 (by decide)

/-! ### Clustering -/

theorem clamp01_clusterRule (m : GridMap) (conn : Connectivity) (x y : Int) :
    clamp01 (clusterRule m conn x y) = clusterRule m conn x y := by
  unfold clusterRule clamp01
  split <;> split <;> simp

theorem clusterPass_paints {m out : GridMap} (conn : Connectivity) (ho : out.Sized) :
    Paints out (clusterPass m out conn) (clusterRule m conn)
      (fun x y => 0 ≤ x ∧ x < m.width ∧ 0 ≤ y ∧ y < m.height) := by
  unfold clusterPass
  have inner : ∀ (j : Int) (o : GridMap), o.Sized →
      Paints o (path_planning.forLt 0 m.width (fun x o => o.set x j (clusterRule m conn x j)) o)
        (clusterRule m conn)
        (fun x y => ∃ i : Int, 0 ≤ i ∧ i < m.width ∧ (x = i ∧ y = j)) :=
    fun j o ho => Paints.forLt (S := fun i x y => x = i ∧ y = j)
      (fun i o ho => Paints.set_cell ho i j (clusterRule m conn)) 0 m.width ho
  refine (Paints.forLt
    (S := fun j x y => ∃ i : Int, 0 ≤ i ∧ i < m.width ∧ (x = i ∧ y = j))
    inner 0 m.height ho).congr (fun x y => ?_)
  constructor
  · rintro ⟨j, hj1, hj2, i, hi1, hi2, rfl, rfl⟩
    exact ⟨hi1, hi2, hj1, hj2⟩
  · rintro ⟨h1, h2, h3, h4⟩
    exact ⟨y, h3, h4, x, h1, h2, rfl, rfl⟩

/-- After one pass every in-bounds cell holds the value of the rule on the raster read. -/
theorem at_clusterPass {W H : Int} {m out : GridMap} (conn : Connectivity)
    (hm : HasShape W H m) (ho : HasShape W H out) (x y : Int) (hin : m.InBounds x y) :
    (clusterPass m out conn).at_ x y = clusterRule m conn x y := by
  have hp := clusterPass_paints (m := m) conn ho.2.2
  have hin' : out.InBounds x y := by
    unfold InBounds at hin ⊢; rw [ho.1, ho.2.1]; rw [hm.1, hm.2.1] at hin; exact hin
  rw [(hp.2.2.2 x y).1 ⟨hin.1, hin.2.2.1, hin.2.1, hin.2.2.2⟩ hin', clamp01_clusterRule]

theorem neighbourCount_eq_filter (m : GridMap) (x y : Int) (ds : List (Int × Int)) :
    neighbourCount m ds x y =
      (ds.filter (fun d => !m.isFree (x + d.1) (y + d.2))).length := by
  have gen : ∀ (l : List (Int × Int)) (n : Nat),
      l.foldl (fun cnt d => if (!m.isFree (x + d.1) (y + d.2)) = true then cnt + 1 else cnt) n =
        n + (l.filter (fun d => !m.isFree (x + d.1) (y + d.2))).length := by
    intro l
    induction l with
    | nil => intro n; simp
    | cons d l ih =>
      intro n
      rw [List.foldl_cons, ih, List.filter_cons]
      split <;> simp; omega
  unfold neighbourCount
  rw [gen]; simp

theorem neighbourCount_dirs4_le (m : GridMap) (conn : Connectivity) (x y : Int) :
    neighbourCount m dirs4 x y ≤ neighbourCount m (dirs conn) x y := by
  cases conn
  · simp [dirs]
  · have h8 : dirs Connectivity.Eight =
        dirs4 ++ [((1 : Int), (1 : Int)), (1, -1), (-1, 1), (-1, -1)] := by
      simp [dirs, dirs4, dirs8]
    rw [neighbourCount_eq_filter, neighbourCount_eq_filter, h8, List.filter_append,
      List.length_append]
    omega

theorem neighbourCount_border {m : GridMap} (hb : BorderBlocked m) (conn : Connectivity)
    {x y : Int} (hin : m.InBounds x y)
    (hbd : x = 0 ∨ x = m.width - 1 ∨ y = 0 ∨ y = m.height - 1) :
    3 ≤ neighbourCount m (dirs conn) x y := by
  refine le_trans ?_ (neighbourCount_dirs4_le m conn x y)
  obtain ⟨h1, h2, h3, h4⟩ := hin
  rcases hbd with hx | hx | hy | hy
  · have f1 : m.isFree (x + -1) (y + 0) = false :=
      notFree_of_borderBlocked hb _ _ (Or.inl (by unfold InBounds; omega))
    have f2 : m.isFree (x + 0) (y + 1) = false :=
      notFree_of_borderBlocked hb _ _ (Or.inr (Or.inl (by omega)))
    have f3 : m.isFree (x + 0) (y + -1) = false :=
      notFree_of_borderBlocked hb _ _ (Or.inr (Or.inl (by omega)))
    simp only [neighbourCount, dirs4, List.foldl, f1, f2, f3, Bool.not_false, if_true]
    split_ifs <;> omega
  · have f1 : m.isFree (x + 1) (y + 0) = false :=
      notFree_of_borderBlocked hb _ _ (Or.inl (by unfold InBounds; omega))
    have f2 : m.isFree (x + 0) (y + 1) = false :=
      notFree_of_borderBlocked hb _ _ (Or.inr (Or.inr (Or.inl (by omega))))
    have f3 : m.isFree (x + 0) (y + -1) = false :=
      notFree_of_borderBlocked hb _ _ (Or.inr (Or.inr (Or.inl (by omega))))
    simp only [neighbourCount, dirs4, List.foldl, f1, f2, f3, Bool.not_false, if_true]
    split_ifs <;> omega
  · have f1 : m.isFree (x + 0) (y + -1) = false :=
      notFree_of_borderBlocked hb _ _ (Or.inl (by unfold InBounds; omega))
    have f2 : m.isFree (x + 1) (y + 0) = false :=
      notFree_of_borderBlocked hb _ _ (Or.inr (Or.inr (Or.inr (Or.inl (by omega)))))
    have f3 : m.isFree (x + -1) (y + 0) = false :=
      notFree_of_borderBlocked hb _ _ (Or.inr (Or.inr (Or.inr (Or.inl (by omega)))))
    simp only [neighbourCount, dirs4, List.foldl, f1, f2, f3, Bool.not_false, if_true]
    split_ifs <;> omega
  · have f1 : m.isFree (x + 0) (y + 1) = false :=
      notFree_of_borderBlocked hb _ _ (Or.inl (by unfold InBounds; omega))
    have f2 : m.isFree (x + 1) (y + 0) = false :=
      notFree_of_borderBlocked hb _ _ (Or.inr (Or.inr (Or.inr (Or.inr (by omega)))))
    have f3 : m.isFree (x + -1) (y + 0) = false :=
      notFree_of_borderBlocked hb _ _ (Or.inr (Or.inr (Or.inr (Or.inr (by omega)))))
    simp only [neighbourCount, dirs4, List.foldl, f1, f2, f3, Bool.not_false, if_true]
    split_ifs <;> omega

theorem clusterPass_hasShape {W H : Int} {m out : GridMap} (conn : Connectivity)
    (ho : HasShape W H out) : HasShape W H (clusterPass m out conn) :=
  (clusterPass_paints (m := m) conn ho.2.2).hasShape ho

theorem clusterPass_borderBlocked {W H : Int} {m out : GridMap} (conn : Connectivity)
    (hm : HasShape W H m) (ho : HasShape W H out) (hb : BorderBlocked m) :
    BorderBlocked (clusterPass m out conn) := by
  intro x y hin hbd
  have hsh := clusterPass_hasShape (m := m) conn ho
  have hin' : m.InBounds x y := by
    unfold InBounds at hin ⊢; rw [hsh.1, hsh.2.1] at hin; rw [hm.1, hm.2.1]; exact hin
  have hbd' : x = 0 ∨ x = m.width - 1 ∨ y = 0 ∨ y = m.height - 1 := by
    rw [hsh.1, hsh.2.1] at hbd; rw [hm.1, hm.2.1]; exact hbd
  rw [at_clusterPass conn hm ho x y hin']
  have hnf : m.isFree x y = false := notFree_of_borderBlocked hb x y (Or.inr hbd')
  have hc := neighbourCount_border hb conn hin' hbd'
  simp [clusterRule, hnf, hc]

/-- Clustering keeps the dimensions and never frees a cell of a blocked outer ring. -/
theorem growClusters_borderBlocked {W H : Int} {m : GridMap} (n : Int) (conn : Connectivity)
    (hm : HasShape W H m) (hb : BorderBlocked m) :
    HasShape W H (growClusters m n conn) ∧ BorderBlocked (growClusters m n conn) := by
  unfold growClusters
  split
  · exact ⟨hm, hb⟩
  · have hinv := forLt_inv
      (fun s : GridMap × GridMap => HasShape W H s.1 ∧ HasShape W H s.2 ∧ BorderBlocked s.1)
      (b := fun _ (s : GridMap × GridMap) =>
        (clusterPass s.1 s.2 conn, clusterPass s.1 s.2 conn))
      (fun _ s hs => ⟨clusterPass_hasShape conn hs.2.1, clusterPass_hasShape conn hs.2.1,
        clusterPass_borderBlocked conn hs.1 hs.2.1 hs.2.2⟩)
      0 n (m, GridMap.new m.width m.height 0)
      ⟨hm, by rw [hm.1, hm.2.1]; exact new_hasShape W H 0, hb⟩
    exact ⟨hinv.1, hinv.2.2⟩

/-! ### Shape of the generated rasters -/

theorem genUniform_prewall_hasShape (p : RandomParams) (rng : Rng) :
    HasShape p.width p.height
      (forLt 0 p.height (fun y s =>
        forLt 0 p.width (fun x (s : GridMap × Rng) =>
          ((if (bernoulli s.2).1 then s.1.set x y 1 else s.1), (bernoulli s.2).2)) s)
        (GridMap.new p.width p.height 0, rng)).1 := by
  refine forLt_inv (fun s : GridMap × Rng => HasShape p.width p.height s.1) ?_ 0 p.height _
    (new_hasShape _ _ 0)
  intro y s hs
  refine forLt_inv (fun s : GridMap × Rng => HasShape p.width p.height s.1) ?_ 0 p.width _ hs
  intro x s hs
  show HasShape p.width p.height (if (bernoulli s.2).1 then s.1.set x y 1 else s.1)
  split
  · exact hs.set_keeps x y 1
  · exact hs

theorem carve_rect_hasShape {W H : Int} (p : RandomParams) {m : GridMap} (h : HasShape W H m)
    (x0 y0 w hh : Int) : HasShape W H (carve_rect p m x0 y0 w hh) := by
  unfold carve_rect
  refine forLt_inv (HasShape W H) ?_ _ _ _ h
  intro y m hm
  exact forLt_inv (HasShape W H) (fun x m hm => hm.set_keeps x y 0) _ _ _ hm

theorem brush_hasShape {W H : Int} (p : RandomParams) {m : GridMap} (h : HasShape W H m)
    (ax ay : Int) : HasShape W H (brush p m ax ay) := by
  unfold brush
  refine forLe_inv (HasShape W H) ?_ _ _ _ h
  intro ox m hm
  exact forLe_inv (HasShape W H) (fun oy m hm => hm.set_keeps (ax + ox) (ay + oy) 0) _ _ _ hm

theorem placeRooms_hasShape {W H : Int} (p : RandomParams) :
    ∀ (tries : Nat) (rooms : List Rect) (m : GridMap) (rng : Rng), HasShape W H m →
      HasShape W H (placeRooms p tries rooms m rng).2.1
  | 0, _, _, _, h => h
  | tries + 1, rooms, m, rng, h => by
    unfold placeRooms
    split
    · simp only
      split
      · exact placeRooms_hasShape p tries _ _ _ h
      · exact placeRooms_hasShape p tries _ _ _ (carve_rect_hasShape p h _ _ _ _)
    · exact h

/-- The loop of `carve_line` along a leg of `K` unit steps `(dx, dy)`: it ends, and an
invariant `P m t` (raster `m` before the `t`-th cell of the leg is brushed) is carried from
`t = 0` to `t = K`. -/
theorem carveLineLoop_inv (p : RandomParams) (ax ay dx dy : Int) (K : Nat)
    (hd : 0 < K → dx ≠ 0 ∨ dy ≠ 0) (P : GridMap → Nat → Prop)
    (hstep : ∀ (m : GridMap) (t : Nat), t < K → P m t →
      P (brush p m (ax + t * dx) (ay + t * dy)) (t + 1)) :
    ∀ (j t fuel : Nat) (m : GridMap), t + j = K → j < fuel → P m t →
      ∃ m', carveLineLoop p (ax + K * dx) (ay + K * dy) dx dy fuel m
          (ax + t * dx) (ay + t * dy) = some m' ∧ P m' K := by
  intro j
  induction j with
  | zero =>
    intro t fuel m ht hf hP
    obtain ⟨f, rfl⟩ : ∃ f, fuel = f + 1 := ⟨fuel - 1, by omega⟩
    have : t = K := by omega
    subst this
    exact ⟨m, by simp [carveLineLoop], hP⟩
  | succ j ih =>
    intro t fuel m ht hf hP
    obtain ⟨f, rfl⟩ : ∃ f, fuel = f + 1 := ⟨fuel - 1, by omega⟩
    have hne : ax + (t : Int) * dx ≠ ax + (K : Int) * dx ∨
        ay + (t : Int) * dy ≠ ay + (K : Int) * dy := by
      have hKt : (K : Int) - t ≠ 0 := by omega
      rcases hd (by omega) with hdx | hdy
      · left
        intro he
        have : ((K : Int) - t) * dx = 0 := by linarith
        rcases mul_eq_zero.1 this with h | h
        · exact hKt h
        · exact hdx h
      · right
        intro he
        have : ((K : Int) - t) * dy = 0 := by linarith
        rcases mul_eq_zero.1 this with h | h
        · exact hKt h
        · exact hdy h
    obtain ⟨m', hrun, hP'⟩ := ih (t + 1) f _ (by omega) (by omega) (hstep m t (by omega) hP)
    refine ⟨m', ?_, hP'⟩
    rw [carveLineLoop, if_pos hne]
    have e1 : ax + (t : Int) * dx + dx = ax + ((t + 1 : Nat) : Int) * dx := by push_cast; ring
    have e2 : ay + (t : Int) * dy + dy = ay + ((t + 1 : Nat) : Int) * dy := by push_cast; ring
    rw [e1, e2]
    exact hrun

theorem stepDir_mul (a b : Int) : b = a + ((iabs (b - a)).toNat : Int) * stepDir a b := by
  unfold stepDir iabs
  split <;> split <;> try split
  all_goals omega

theorem stepDir_ne_zero (a b : Int) (h : 0 < (iabs (b - a)).toNat) : stepDir a b ≠ 0 := by
  unfold stepDir
  unfold iabs at h
  split
  · omega
  · split
    · omega
    · split at h <;> omega

theorem stepDir_self (a : Int) : stepDir a a = 0 := by simp [stepDir]

theorem iabs_self_sub (a : Int) : iabs (a - a) = 0 := by simp [iabs]

theorem iabs_nonneg (a : Int) : 0 ≤ iabs a := by unfold iabs; split <;> omega

/-- A horizontal leg `carve_line(x0, y, x1, y)` ends and carries an invariant along its
`|x1 - x0|` cells. -/
theorem carve_line_horizontal (p : RandomParams) (x0 y x1 : Int) (P : GridMap → Nat → Prop)
    (hstep : ∀ (m : GridMap) (t : Nat), t < (iabs (x1 - x0)).toNat → P m t →
      P (brush p m (x0 + t * stepDir x0 x1) y) (t + 1))
    (m : GridMap) (h0 : P m 0) :
    ∃ m', carve_line p m x0 y x1 y = some m' ∧ P m' (iabs (x1 - x0)).toNat := by
  have hx := stepDir_mul x0 x1
  have h := carveLineLoop_inv p x0 y (stepDir x0 x1) 0 (iabs (x1 - x0)).toNat
    (fun hK => Or.inl (stepDir_ne_zero x0 x1 hK)) P
    (fun m t ht hP => by simpa using hstep m t ht hP)
    (iabs (x1 - x0)).toNat 0 ((iabs (x1 - x0)).toNat + 1) m (by omega) (by omega) h0
  obtain ⟨m', hrun, hP⟩ := h
  refine ⟨m', ?_, hP⟩
  unfold carve_line
  simp only [stepDir_self, iabs_self_sub, add_zero]
  have hf : (iabs (x1 - x0) + 1).toNat = (iabs (x1 - x0)).toNat + 1 := by
    have := iabs_nonneg (x1 - x0); omega
  rw [hf]
  simp only [mul_zero, add_zero, Nat.cast_zero, zero_mul] at hrun
  rw [← hx] at hrun
  exact hrun

/-- A vertical leg `carve_line(x, y0, x, y1)` ends and carries an invariant along its
`|y1 - y0|` cells. -/
theorem carve_line_vertical (p : RandomParams) (x y0 y1 : Int) (P : GridMap → Nat → Prop)
    (hstep : ∀ (m : GridMap) (t : Nat), t < (iabs (y1 - y0)).toNat → P m t →
      P (brush p m x (y0 + t * stepDir y0 y1)) (t + 1))
    (m : GridMap) (h0 : P m 0) :
    ∃ m', carve_line p m x y0 x y1 = some m' ∧ P m' (iabs (y1 - y0)).toNat := by
  have hy := stepDir_mul y0 y1
  have h := carveLineLoop_inv p x y0 0 (stepDir y0 y1) (iabs (y1 - y0)).toNat
    (fun hK => Or.inr (stepDir_ne_zero y0 y1 hK)) P
    (fun m t ht hP => by simpa using hstep m t ht hP)
    (iabs (y1 - y0)).toNat 0 ((iabs (y1 - y0)).toNat + 1) m (by omega) (by omega) h0
  obtain ⟨m', hrun, hP⟩ := h
  refine ⟨m', ?_, hP⟩
  unfold carve_line
  simp only [stepDir_self, iabs_self_sub, zero_add]
  have hf : (iabs (y1 - y0) + 1).toNat = (iabs (y1 - y0)).toNat + 1 := by
    have := iabs_nonneg (y1 - y0); omega
  rw [hf]
  simp only [mul_zero, add_zero, Nat.cast_zero, zero_mul] at hrun
  rw [← hy] at hrun
  exact hrun

/-- A corridor is always carved to the end, and carries every property of the raster that the
brush preserves. -/
theorem carve_corridor_total (p : RandomParams) (P : GridMap → Prop)
    (hb : ∀ m ax ay, P m → P (brush p m ax ay))
    (m : GridMap) (rng : Rng) (x0 y0 x1 y1 : Int) (h : P m) :
    ∃ s, carve_corridor p m rng x0 y0 x1 y1 = some s ∧ P s.1 := by
  unfold carve_corridor
  split
  · obtain ⟨m1, h1, hP1⟩ := carve_line_horizontal p x0 y0 x1 (fun m _ => P m)
      (fun m t _ hm => hb m _ _ hm) m h
    obtain ⟨m2, h2, hP2⟩ := carve_line_vertical p x1 y0 y1 (fun m _ => P m)
      (fun m t _ hm => hb m _ _ hm) m1 hP1
    rw [h1]; simp only; rw [h2]
    exact ⟨_, rfl, hP2⟩
  · obtain ⟨m1, h1, hP1⟩ := carve_line_vertical p x0 y0 y1 (fun m _ => P m)
      (fun m t _ hm => hb m _ _ hm) m h
    obtain ⟨m2, h2, hP2⟩ := carve_line_horizontal p x0 y1 x1 (fun m _ => P m)
      (fun m t _ hm => hb m _ _ hm) m1 hP1
    rw [h1]; simp only; rw [h2]
    exact ⟨_, rfl, hP2⟩

theorem carveCorridors_total (p : RandomParams) (rooms : List Rect) (parent : List Int)
    (P : GridMap → Prop) (hb : ∀ m ax ay, P m → P (brush p m ax ay)) :
    ∀ (vs : List Nat) (m : GridMap) (rng : Rng), P m →
      ∃ s, carveCorridors p rooms parent vs m rng = some s ∧ P s.1
  | [], m, rng, h => ⟨(m, rng), rfl, h⟩
  | v :: vs, m, rng, h => by
    unfold carveCorridors
    split
    · obtain ⟨s, hs, hP⟩ := carve_corridor_total p P hb m rng
        (rooms.getD v default).cx (rooms.getD v default).cy
        (rooms.getD (parent.getD v (-1)).toNat default).cx
        (rooms.getD (parent.getD v (-1)).toNat default).cy h
      rw [hs]
      exact carveCorridors_total p rooms parent P hb vs s.1 s.2 hP
    · exact carveCorridors_total p rooms parent P hb vs m rng h

/-- Totality: `genRoomsAndCorridors` always returns, with a raster of the configured dimensions whose
outer ring is blocked when border walls are requested. -/
theorem genRoomsAndCorridors_total (p : RandomParams) (rng : Rng) :
    ∃ m, genRoomsAndCorridors p rng = some m ∧ HasShape p.width p.height m ∧
      (p.add_border_walls = true → BorderBlocked m) := by
  unfold genRoomsAndCorridors
  have hpl := placeRooms_hasShape p (p.num_rooms * 10).toNat [] _ rng
    (new_hasShape p.width p.height 1)
  have hcarved : ∃ s,
      (if (placeRooms p (p.num_rooms * 10).toNat [] (GridMap.new p.width p.height 1) rng).1.length
          ≥ 2 then
        carveCorridors p
          (placeRooms p (p.num_rooms * 10).toNat [] (GridMap.new p.width p.height 1) rng).1
          (primMST
            (placeRooms p (p.num_rooms * 10).toNat [] (GridMap.new p.width p.height 1) rng).1)
          (List.range' 1
            ((placeRooms p (p.num_rooms * 10).toNat [] (GridMap.new p.width p.height 1)
              rng).1.length - 1))
          (placeRooms p (p.num_rooms * 10).toNat [] (GridMap.new p.width p.height 1) rng).2.1
          (placeRooms p (p.num_rooms * 10).toNat [] (GridMap.new p.width p.height 1) rng).2.2
      else some
        ((placeRooms p (p.num_rooms * 10).toNat [] (GridMap.new p.width p.height 1) rng).2.1,
          (placeRooms p (p.num_rooms * 10).toNat [] (GridMap.new p.width p.height 1) rng).2.2))
        = some s ∧ HasShape p.width p.height s.1 := by
    split
    · exact carveCorridors_total p _ _ (HasShape p.width p.height)
        (fun m ax ay hm => brush_hasShape p hm ax ay) _ _ _ hpl
    · exact ⟨_, rfl, hpl⟩
  obtain ⟨s, hs, hsh⟩ := hcarved
  simp only [hs]
  refine ⟨_, rfl, ?_, ?_⟩
  · split
    · exact (addBorderWalls_borderBlocked p hsh).1
    · exact hsh
  · intro hb
    rw [if_pos hb]
    exact (addBorderWalls_borderBlocked p hsh).2

theorem genUniform_shape (p : RandomParams) (rng : Rng) :
    HasShape p.width p.height (genUniform p rng) ∧
      (p.add_border_walls = true → BorderBlocked (genUniform p rng)) := by
  have hsh := genUniform_prewall_hasShape p rng
  unfold genUniform
  simp only
  constructor
  · split
    · exact (addBorderWalls_borderBlocked p hsh).1
    · exact hsh
  · intro hb
    rw [if_pos hb]
    exact (addBorderWalls_borderBlocked p hsh).2

/-! ### Double loops as folds over the cells in row-major order -/

theorem loopN_eq_foldl {σ : Type} (b : Int → σ → σ) :
    ∀ (n : Nat) (lo : Int) (s : σ),
      loopN n lo b s = (List.range n).foldl (fun s i => b (lo + (i : Nat)) s) s
  | 0, _, _ => rfl
  | n + 1, lo, s => by
    rw [loopN, loopN_eq_foldl b n (lo + 1) (b lo s), List.range_succ_eq_map, List.foldl_cons,
      List.foldl_map]
    simp only [Nat.cast_zero, add_zero, Nat.succ_eq_add_one, Nat.cast_add, Nat.cast_one]
    congr 1
    funext s i
    congr 1
    ring

theorem scan_eq_foldl {σ : Type} (b : Int → Int → σ → σ) (w h : Int) (s : σ) :
    forLt 0 h (fun y s => forLt 0 w (fun x s => b x y s) s) s =
      (scanCells w.toNat h.toNat).foldl (fun s c => b c.1 c.2 s) s := by
  unfold forLt scanCells
  simp only [sub_zero]
  rw [loopN_eq_foldl]
  generalize List.range h.toNat = ys
  induction ys generalizing s with
  | nil => rfl
  | cons y ys ih =>
    rw [List.foldl_cons, List.flatMap_cons, List.foldl_append, ← ih]
    congr 1
    rw [loopN_eq_foldl, List.foldl_map]
    simp

theorem mem_scanCells (w h : Nat) (x y : Int) :
    (x, y) ∈ scanCells w h ↔ 0 ≤ x ∧ x < w ∧ 0 ≤ y ∧ y < h := by
  unfold scanCells
  simp only [List.mem_flatMap, List.mem_range, List.mem_map, Prod.mk.injEq]
  constructor
  · rintro ⟨j, hj, i, hi, rfl, rfl⟩
    omega
  · rintro ⟨h1, h2, h3, h4⟩
    exact ⟨y.toNat, by omega, x.toNat, by omega, by omega, by omega⟩

/-- Painting a list of cells with values that depend on the cell only. -/
theorem Paints.foldl_fun (f : Int → Int → Nat) :
    ∀ (cells : List (Int × Int)) (m : GridMap), m.Sized →
      Paints m (cells.foldl (fun m c => m.set c.1 c.2 (f c.1 c.2)) m) f
        (fun x y => (x, y) ∈ cells)
  | [], m, hs => (Paints.refl hs _).congr (fun x y => by simp)
  | c :: cs, m, hs => by
    have h1 := Paints.set_cell hs c.1 c.2 f
    have h2 := Paints.foldl_fun f cs (m.set c.1 c.2 (f c.1 c.2)) h1.2.2.1
    refine (h1.trans h2).congr (fun x y => ?_)
    simp [Prod.ext_iff]

/-! ### Decimal numbers -/

theorem natDigits_ne_nil (n : Nat) : natDigits n ≠ [] := by
  rw [natDigits]; split <;> simp

theorem natDigits_isDigit (n : Nat) : ∀ c ∈ natDigits n, isDigit c = true := by
  induction n using Nat.strong_induction_on with
  | _ n ih =>
    rw [natDigits]
    split
    · intro c hc
      simp only [List.mem_singleton] at hc
      subst hc
      simp [isDigit]; omega
    · intro c hc
      rcases List.mem_append.1 hc with h | h
      · exact ih (n / 10) (by omega) c h
      · simp only [List.mem_singleton] at h
        subst h
        simp [isDigit]; omega

theorem digitsVal_append_singleton (ds : List Nat) (d : Nat) :
    digitsVal (ds ++ [d]) = 10 * digitsVal ds + (d - 48) := by
  simp [digitsVal, List.foldl_append]

theorem digitsVal_natDigits (n : Nat) : digitsVal (natDigits n) = n := by
  induction n using Nat.strong_induction_on with
  | _ n ih =>
    rw [natDigits]
    split
    · simp [digitsVal]
    · rw [digitsVal_append_singleton, ih (n / 10) (by omega)]
      omega

theorem isDigit_not_space {c : Nat} (h : isDigit c = true) : isSpace c = false := by
  simp only [isDigit, Bool.and_eq_true, decide_eq_true_eq] at h
  simp [isSpace]; omega

theorem isSpace_not_digit {c : Nat} (h : isSpace c = true) : isDigit c = false := by
  cases hd : isDigit c
  · rfl
  · rw [isDigit_not_space hd] at h; exact absurd h (by decide)

theorem dropWhile_space_append (ws rest : List Nat) (hws : ∀ c ∈ ws, isSpace c = true) :
    (ws ++ rest).dropWhile isSpace = rest.dropWhile isSpace := by
  induction ws with
  | nil => rfl
  | cons c ws ih =>
    rw [List.cons_append, List.dropWhile_cons, if_pos (hws c (List.mem_cons_self _ _))]
    exact ih (fun c hc => hws c (List.mem_cons_of_mem _ hc))

theorem takeWhile_digit_append (ds : List Nat) (sep : Nat) (rest : List Nat)
    (hds : ∀ c ∈ ds, isDigit c = true) (hsep : isDigit sep = false) :
    (ds ++ sep :: rest).takeWhile isDigit = ds := by
  induction ds with
  | nil => simp [List.takeWhile_cons, hsep]
  | cons c ds ih =>
    rw [List.cons_append, List.takeWhile_cons, if_pos (hds c (List.mem_cons_self _ _)),
      ih (fun c hc => hds c (List.mem_cons_of_mem _ hc))]

theorem dropWhile_digit_append (ds : List Nat) (sep : Nat) (rest : List Nat)
    (hds : ∀ c ∈ ds, isDigit c = true) (hsep : isDigit sep = false) :
    (ds ++ sep :: rest).dropWhile isDigit = sep :: rest := by
  induction ds with
  | nil => simp [List.dropWhile_cons, hsep]
  | cons c ds ih =>
    rw [List.cons_append, List.dropWhile_cons, if_pos (hds c (List.mem_cons_self _ _)),
      ih (fun c hc => hds c (List.mem_cons_of_mem _ hc))]

/-- Extracting an `int` from a stream that holds white space, the decimal digits of `n` and
then a byte that is not a digit: the value is `n` and the stream stops before that byte. -/
theorem readInt_natDigits (ws : List Nat) (n : Nat) (sep : Nat) (rest : List Nat) (old : Int)
    (hws : ∀ c ∈ ws, isSpace c = true) (hsep : isDigit sep = false) :
    IStream.readInt { buf := ws ++ natDigits n ++ sep :: rest, fail := false } old =
      ((n : Int), { buf := sep :: rest, fail := false }) := by
  have hd := natDigits_isDigit n
  obtain ⟨c, ds, hcd⟩ : ∃ c ds, natDigits n = c :: ds := by
    cases h : natDigits n with
    | nil => exact absurd h (natDigits_ne_nil n)
    | cons c ds => exact ⟨c, ds, rfl⟩
  have hc : isDigit c = true := hd c (by rw [hcd]; exact List.mem_cons_self _ _)
  have hcs : isSpace c = false := isDigit_not_space hc
  have hc45 : ¬ (c = 45 ∨ c = 43) := by
    simp only [isDigit, Bool.and_eq_true, decide_eq_true_eq] at hc; omega
  have hc45' : ¬ c = 45 := fun h => hc45 (Or.inl h)
  have hdrop : (ws ++ natDigits n ++ sep :: rest).dropWhile isSpace =
      c :: (ds ++ sep :: rest) := by
    rw [List.append_assoc, dropWhile_space_append _ _ hws, hcd, List.cons_append,
      List.dropWhile_cons, hcs]
    simp
  unfold IStream.readInt
  have hc43 : ¬ c = 43 := fun h => hc45 (Or.inr h)
  simp only [hdrop, Bool.false_eq_true, if_false, hc45', hc43, or_self]
  have e : c :: (ds ++ sep :: rest) = natDigits n ++ sep :: rest := by rw [hcd]; rfl
  rw [e, takeWhile_digit_append _ _ _ hd hsep, dropWhile_digit_append _ _ _ hd hsep,
    if_neg (natDigits_ne_nil n), digitsVal_natDigits]

theorem putInt_natCast (n : Nat) : putInt (n : Int) = natDigits n := by
  unfold putInt
  rw [if_neg (by omega)]
  simp

theorem putInt_of_nonneg {n : Int} (h : 0 ≤ n) : putInt n = natDigits n.toNat := by
  unfold putInt
  rw [if_neg (by omega)]

/-! ### Writers and readers over the cell list -/

theorem foldl_append_eq_flatMap {α : Type} (t : α → List Nat) :
    ∀ (cs : List α) (init : List Nat),
      cs.foldl (fun out c => out ++ t c) init = init ++ cs.flatMap t
  | [], init => by simp
  | c :: cs, init => by
    rw [List.foldl_cons, foldl_append_eq_flatMap t cs, List.flatMap_cons, List.append_assoc]

/-- Reading back a run of cells written as decimal numbers, each followed by one white-space
byte: the raster receives the converted numbers in the same order. -/
theorem readCells_text (conv : Int → Nat) (wv sep : Int × Int → Nat) (indet : Int)
    (hsep : ∀ c, isSpace (sep c) = true) (rest : List Nat) :
    ∀ (cs : List (Int × Int)) (m : GridMap) (ws : List Nat), (∀ c ∈ ws, isSpace c = true) →
      (cs.foldl (fun (st : GridMap × IStream) c =>
          (st.1.set c.1 c.2 (conv (st.2.readInt indet).1), (st.2.readInt indet).2))
        (m, { buf := ws ++ cs.flatMap (fun c => natDigits (wv c) ++ [sep c]) ++ rest,
              fail := false })).1 =
        cs.foldl (fun m c => m.set c.1 c.2 (conv (wv c))) m
  | [], m, ws, _ => rfl
  | c :: cs, m, ws, hws => by
    rw [List.foldl_cons, List.foldl_cons]
    have hbuf : ws ++ (c :: cs).flatMap (fun c => natDigits (wv c) ++ [sep c]) ++ rest =
        ws ++ natDigits (wv c) ++
          sep c :: (cs.flatMap (fun c => natDigits (wv c) ++ [sep c]) ++ rest) := by
      simp [List.flatMap_cons, List.append_assoc]
    have hr := readInt_natDigits ws (wv c) (sep c)
      (cs.flatMap (fun c => natDigits (wv c) ++ [sep c]) ++ rest) indet hws
      (isSpace_not_digit (hsep c))
    simp only [hbuf, hr]
    have := readCells_text conv wv sep indet hsep rest cs (m.set c.1 c.2 (conv (wv c)))
      [sep c] (fun d hd => by
        simp only [List.mem_singleton] at hd; subst hd; exact hsep c)
    simpa [List.append_assoc] using this

/-- Reading back a run of cells written as one byte each. -/
theorem readCells_bytes (conv : Nat → Nat) (wv : Int × Int → Nat) (indetByte : Nat)
    (rest : List Nat) :
    ∀ (cs : List (Int × Int)) (m : GridMap),
      (cs.foldl (fun (st : GridMap × IStream) c =>
          (st.1.set c.1 c.2 (conv (st.2.readByte indetByte).1), (st.2.readByte indetByte).2))
        (m, { buf := cs.map wv ++ rest, fail := false })).1 =
        cs.foldl (fun m c => m.set c.1 c.2 (conv (wv c))) m
  | [], m => rfl
  | c :: cs, m => by
    rw [List.foldl_cons, List.foldl_cons]
    have hr : IStream.readByte { buf := (c :: cs).map wv ++ rest, fail := false } indetByte =
        (wv c, { buf := cs.map wv ++ rest, fail := false }) := by
      simp [IStream.readByte]
    simp only [hr]
    exact readCells_bytes conv wv indetByte rest cs _

/-- The raster a reader builds from the blank `W x H` raster by setting every cell once. -/
theorem at_scan_fold (W H : Int) (f : Int → Int → Nat) (x y : Int) :
    ((scanCells W.toNat H.toNat).foldl (fun m c => m.set c.1 c.2 (f c.1 c.2))
        (GridMap.new W H 0)).at_ x y =
      if (GridMap.new W H 0).InBounds x y then clamp01 (f x y) else 1 := by
  have hp := Paints.foldl_fun f (scanCells W.toNat H.toNat) (GridMap.new W H 0)
    (new_sized W H 0)
  by_cases hin : (GridMap.new W H 0).InBounds x y
  · rw [if_pos hin]
    refine (hp.2.2.2 x y).1 ?_ hin
    show (x, y) ∈ scanCells W.toNat H.toNat
    rw [mem_scanCells]
    obtain ⟨h1, h2, h3, h4⟩ := hin
    simp only [GridMap.new] at h3 h4
    omega
  · rw [if_neg hin]
    apply at_of_not_inBounds
    rw [hp.inBounds]
    exact hin

theorem scan_fold_shape (W H : Int) (f : Int → Int → Nat) :
    HasShape W H ((scanCells W.toNat H.toNat).foldl (fun m c => m.set c.1 c.2 (f c.1 c.2))
        (GridMap.new W H 0)) :=
  (Paints.foldl_fun f (scanCells W.toNat H.toNat) (GridMap.new W H 0)
    (new_sized W H 0)).hasShape (new_hasShape W H 0)

theorem at_le_one_of_binary {m : GridMap} (hb : m.Binary) (x y : Int) :
    m.at_ x y = 0 ∨ m.at_ x y = 1 := by
  unfold at_
  split
  · exact Or.inr rfl
  · rw [List.getD_eq_getElem?_getD]
    cases h : m.data[idx x y m.width]? with
    | none => exact Or.inl rfl
    | some v => exact hb v (List.getElem?_mem h)

theorem natDigits_255 : natDigits 255 = [50, 53, 53] := by
  rw [natDigits, dif_neg (by decide), natDigits, dif_neg (by decide), natDigits,
    dif_pos (by decide)]
  rfl

/-- The text `saveASCII` writes: the header `width height\n`, then per cell its decimal value
followed by a space, or by a newline at the end of a row. -/
theorem saveASCII_eq (R : GridMap) (hw : 0 ≤ R.width) (hh : 0 ≤ R.height) :
    saveASCII R = natDigits R.width.toNat ++ [32] ++ natDigits R.height.toNat ++ [10] ++
      (scanCells R.width.toNat R.height.toNat).flatMap (fun c =>
        natDigits (R.at_ c.1 c.2) ++ [if c.1 + 1 = R.width then 10 else 32]) := by
  unfold saveASCII
  rw [scan_eq_foldl (fun x y out => out ++ putInt (R.at_ x y) ++
    [if x + 1 = R.width then 10 else 32])]
  simp only [putInt_natCast, putInt_of_nonneg hw, putInt_of_nonneg hh, List.append_assoc]
  rw [foldl_append_eq_flatMap
    (fun c : Int × Int => natDigits (R.at_ c.1 c.2) ++ [if c.1 + 1 = R.width then 10 else 32])]
  simp only [List.append_assoc]

/-- Reading the header `<ws> W <sep1> H <sep2> ...` with two extractions. -/
theorem read_two_ints (ws : List Nat) (W H : Nat) (s1 s2 : Nat) (rest : List Nat)
    (hws : ∀ c ∈ ws, isSpace c = true) (h1 : isSpace s1 = true) (h2 : isDigit s2 = false) :
    (IStream.readInt ⟨ws ++ natDigits W ++ [s1] ++ natDigits H ++ s2 :: rest, false⟩ 0).1 =
      (W : Int) ∧
    IStream.readInt
        (IStream.readInt ⟨ws ++ natDigits W ++ [s1] ++ natDigits H ++ s2 :: rest, false⟩ 0).2 0 =
      ((H : Int), ⟨s2 :: rest, false⟩) := by
  have e : ws ++ natDigits W ++ [s1] ++ natDigits H ++ s2 :: rest =
      ws ++ natDigits W ++ s1 :: (natDigits H ++ s2 :: rest) := by
    simp [List.append_assoc]
  have r1 := readInt_natDigits ws W s1 (natDigits H ++ s2 :: rest) 0 hws (isSpace_not_digit h1)
  have r2 := readInt_natDigits [s1] H s2 rest 0
    (fun c hc => by simp only [List.mem_singleton] at hc; subst hc; exact h1) h2
  rw [e, r1]
  exact ⟨rfl, by simpa using r2⟩

/-- The raster `loadASCII` builds from the text `saveASCII` wrote. -/
theorem loadASCII_saveASCII_eq (R : GridMap) (indet : Int) (hw : 0 ≤ R.width)
    (hh : 0 ≤ R.height) :
    loadASCII indet { buf := saveASCII R, fail := false } =
      (scanCells R.width.toNat R.height.toNat).foldl
        (fun m c => m.set c.1 c.2 (if ((R.at_ c.1 c.2 : Nat) : Int) ≠ 0 then 1 else 0))
        (GridMap.new R.width R.height 0) := by
  rw [saveASCII_eq R hw hh]
  obtain ⟨r1, r2⟩ := read_two_ints [] R.width.toNat R.height.toNat 32 10
    ((scanCells R.width.toNat R.height.toNat).flatMap (fun c =>
        natDigits (R.at_ c.1 c.2) ++ [if c.1 + 1 = R.width then 10 else 32]))
    (by simp) (by decide) (by decide)
  simp only [List.nil_append] at r1 r2
  have e : natDigits R.width.toNat ++ [32] ++ natDigits R.height.toNat ++ [10] ++
      (scanCells R.width.toNat R.height.toNat).flatMap (fun c =>
        natDigits (R.at_ c.1 c.2) ++ [if c.1 + 1 = R.width then 10 else 32]) =
      natDigits R.width.toNat ++ [32] ++ natDigits R.height.toNat ++ 10 ::
      (scanCells R.width.toNat R.height.toNat).flatMap (fun c =>
        natDigits (R.at_ c.1 c.2) ++ [if c.1 + 1 = R.width then 10 else 32]) := by
    simp [List.append_assoc]
  rw [e]
  unfold loadASCII
  simp only [r1, r2, Int.toNat_of_nonneg hw, Int.toNat_of_nonneg hh]
  rw [scan_eq_foldl (fun x y (st : GridMap × IStream) =>
    (st.1.set x y (if (st.2.readInt indet).1 ≠ 0 then 1 else 0), (st.2.readInt indet).2))]
  have := readCells_text (fun r => if r ≠ 0 then 1 else 0) (fun c => R.at_ c.1 c.2)
    (fun c => if c.1 + 1 = R.width then 10 else 32) indet
    (fun c => by show isSpace (if c.1 + 1 = R.width then 10 else 32) = true; split <;> decide) []
    (scanCells R.width.toNat R.height.toNat) (GridMap.new R.width R.height 0) [10]
    (by decide)
  simp only [List.append_nil, List.singleton_append] at this
  exact this

/-- The sample `savePGM` writes for a cell: 0 for an obstacle, 255 for a free cell. -/
theorem putInt_sample (v : Nat) :
    putInt (if v ≠ 0 then 0 else 255) = natDigits (if v ≠ 0 then 0 else 255) := by
  split
  · exact putInt_natCast 0
  · exact putInt_natCast 255

/-- The bytes `savePGM` writes in the binary variant: the header `P5\n<width> <height>\n255\n`
and one byte per cell. -/
theorem savePGM_binary_eq (R : GridMap) (hw : 0 ≤ R.width) (hh : 0 ≤ R.height) :
    savePGM R true =
      [80, 53, 10] ++ natDigits R.width.toNat ++ [32] ++ natDigits R.height.toNat ++
        [10, 50, 53, 53, 10] ++
        (scanCells R.width.toNat R.height.toNat).map
          (fun c => if R.at_ c.1 c.2 ≠ 0 then 0 else 255) := by
  unfold savePGM
  rw [if_pos rfl, scan_eq_foldl (fun x y out => out ++ [if R.at_ x y ≠ 0 then 0 else 255])]
  rw [foldl_append_eq_flatMap
    (fun c : Int × Int => [if R.at_ c.1 c.2 ≠ 0 then (0 : Nat) else 255])]
  rw [putInt_of_nonneg hw, putInt_of_nonneg hh]
  congr 1
  generalize scanCells R.width.toNat R.height.toNat = cs
  induction cs with
  | nil => rfl
  | cons c cs ih => rw [List.flatMap_cons, List.map_cons, ih]; rfl

/-- The bytes `savePGM` writes in the ASCII variant: the header `P2\n<width> <height>\n255\n`
and one decimal token per cell. -/
theorem savePGM_ascii_eq (R : GridMap) (hw : 0 ≤ R.width) (hh : 0 ≤ R.height) :
    savePGM R false =
      [80, 50, 10] ++ natDigits R.width.toNat ++ [32] ++ natDigits R.height.toNat ++
        [10, 50, 53, 53, 10] ++
        (scanCells R.width.toNat R.height.toNat).flatMap
          (fun c => natDigits (if R.at_ c.1 c.2 ≠ 0 then 0 else 255) ++
            [if c.1 + 1 = R.width then 10 else 32]) := by
  unfold savePGM
  rw [if_neg (by decide), scan_eq_foldl (fun x y out =>
    out ++ putInt (if R.at_ x y ≠ 0 then 0 else 255) ++ [if x + 1 = R.width then 10 else 32])]
  simp only [putInt_sample, List.append_assoc]
  rw [foldl_append_eq_flatMap
    (fun c : Int × Int => natDigits (if R.at_ c.1 c.2 ≠ 0 then 0 else 255) ++
      [if c.1 + 1 = R.width then 10 else 32])]
  rw [putInt_of_nonneg hw, putInt_of_nonneg hh]
  simp only [List.append_assoc]

/-- Reading the header `P<k>\n<W> <H>\n255\n` of a graymap (`k` is the byte `50` or `53`):
the magic word, the two dimensions, and the stream positioned on the first sample. -/
theorem read_pgm_header (k W H : Nat) (hk : isSpace k = false) (payload : List Nat) :
    (IStream.readWord ⟨[80, k, 10] ++ natDigits W ++ [32] ++ natDigits H ++
        [10, 50, 53, 53, 10] ++ payload, false⟩ []).1 = [80, k] ∧
    (IStream.readInt (IStream.readWord ⟨[80, k, 10] ++ natDigits W ++ [32] ++ natDigits H ++
        [10, 50, 53, 53, 10] ++ payload, false⟩ []).2 0).1 = (W : Int) ∧
    (IStream.readInt (IStream.readInt (IStream.readWord ⟨[80, k, 10] ++ natDigits W ++ [32] ++
        natDigits H ++ [10, 50, 53, 53, 10] ++ payload, false⟩ []).2 0).2 0).1 = (H : Int) ∧
    IStream.get (IStream.readInt (IStream.readInt (IStream.readInt (IStream.readWord
        ⟨[80, k, 10] ++ natDigits W ++ [32] ++ natDigits H ++ [10, 50, 53, 53, 10] ++ payload,
          false⟩ []).2 0).2 0).2 255).2 = ⟨payload, false⟩ := by
  have hword : IStream.readWord ⟨[80, k, 10] ++ natDigits W ++ [32] ++ natDigits H ++
      [10, 50, 53, 53, 10] ++ payload, false⟩ [] =
      ([80, k], ⟨[10] ++ natDigits W ++ [32] ++ natDigits H ++
        10 :: ([50, 53, 53, 10] ++ payload), false⟩) := by
    have h80 : isSpace 80 = false := by decide
    have h10 : isSpace 10 = true := by decide
    simp [IStream.readWord, List.dropWhile_cons, List.takeWhile_cons, h80, h10, hk]
  obtain ⟨r1, r2⟩ := read_two_ints [10] W H 32 10 ([50, 53, 53, 10] ++ payload)
    (by decide) (by decide) (by decide)
  have r3 := readInt_natDigits [10] 255 10 payload 255 (by decide) (by decide)
  rw [natDigits_255] at r3
  rw [hword]
  refine ⟨rfl, r1, ?_, ?_⟩
  · rw [r2]
  · rw [r2]
    have e : (10 :: ([50, 53, 53, 10] ++ payload) : List Nat) =
        [10] ++ [50, 53, 53] ++ 10 :: payload := by simp
    rw [e, r3]
    simp [IStream.get]

/-- The raster `loadPGM` builds from the bytes `savePGM` wrote, in both variants. -/
theorem loadPGM_savePGM_eq (R : GridMap) (binary : Bool) (indet : Int) (indetByte : Nat)
    (hw : 0 ≤ R.width) (hh : 0 ≤ R.height) :
    loadPGM indet indetByte ⟨savePGM R binary, false⟩ =
      (scanCells R.width.toNat R.height.toNat).foldl
        (fun m c => m.set c.1 c.2 (if R.at_ c.1 c.2 ≠ 0 then 1 else 0))
        (GridMap.new R.width R.height 0) := by
  cases binary
  · rw [savePGM_ascii_eq R hw hh]
    obtain ⟨hm, h1, h2, h3⟩ := read_pgm_header 50 R.width.toNat R.height.toNat (by decide)
      ((scanCells R.width.toNat R.height.toNat).flatMap
          (fun c => natDigits (if R.at_ c.1 c.2 ≠ 0 then 0 else 255) ++
            [if c.1 + 1 = R.width then 10 else 32]))
    unfold loadPGM
    simp only [hm, h1, h2, h3, Int.toNat_of_nonneg hw, Int.toNat_of_nonneg hh]
    rw [if_neg (by decide), if_neg (by decide)]
    rw [scan_eq_foldl (fun x y (st : GridMap × IStream) =>
      (st.1.set x y (if (st.2.readInt indet).1 < 128 then 1 else 0), (st.2.readInt indet).2))]
    have := readCells_text (fun r => if r < 128 then 1 else 0)
      (fun c => if R.at_ c.1 c.2 ≠ 0 then 0 else 255)
      (fun c => if c.1 + 1 = R.width then 10 else 32) indet
      (fun c => by
        show isSpace (if c.1 + 1 = R.width then 10 else 32) = true
        split <;> decide) []
      (scanCells R.width.toNat R.height.toNat) (GridMap.new R.width R.height 0) []
      (by simp)
    have hval : ∀ c : Int × Int,
        (if (((if R.at_ c.1 c.2 ≠ 0 then 0 else 255 : Nat) : Nat) : Int) < 128 then 1 else 0) =
          (if R.at_ c.1 c.2 ≠ 0 then 1 else 0 : Nat) := by
      intro c
      by_cases h : R.at_ c.1 c.2 = 0
      · simp only [h, ne_eq, not_true_eq_false, if_false]; rfl
      · simp only [h, ne_eq, not_false_eq_true, if_true]; rfl
    simp only [List.append_nil, List.nil_append, hval] at this
    exact this
  · rw [savePGM_binary_eq R hw hh]
    obtain ⟨hm, h1, h2, h3⟩ := read_pgm_header 53 R.width.toNat R.height.toNat (by decide)
      ((scanCells R.width.toNat R.height.toNat).map
          (fun c => if R.at_ c.1 c.2 ≠ 0 then 0 else 255))
    unfold loadPGM
    simp only [hm, h1, h2, h3, Int.toNat_of_nonneg hw, Int.toNat_of_nonneg hh]
    rw [if_neg (by decide), if_pos trivial]
    rw [scan_eq_foldl (fun x y (st : GridMap × IStream) =>
      (st.1.set x y (if (st.2.readByte indetByte).1 < 128 then 1 else 0),
        (st.2.readByte indetByte).2))]
    have := readCells_bytes (fun pix => if pix < 128 then 1 else 0)
      (fun c => if R.at_ c.1 c.2 ≠ 0 then 0 else 255) indetByte []
      (scanCells R.width.toNat R.height.toNat) (GridMap.new R.width R.height 0)
    have hval : ∀ c : Int × Int,
        (if (if R.at_ c.1 c.2 ≠ 0 then 0 else 255 : Nat) < 128 then 1 else 0) =
          (if R.at_ c.1 c.2 ≠ 0 then 1 else 0 : Nat) := by
      intro c
      by_cases h : R.at_ c.1 c.2 = 0
      · simp only [h, ne_eq, not_true_eq_false, if_false]; rfl
      · simp only [h, ne_eq, not_false_eq_true, if_true]; rfl
    simp only [List.append_nil, hval] at this
    exact this

/-! ### Chains of axis neighbours -/

theorem conn4_mono {F G : Int × Int → Prop} (h : ∀ c, F c → G c) {a b : Int × Int}
    (hab : Conn4 F a b) : Conn4 G a b :=
  Relation.ReflTransGen.mono (fun _ _ hs => ⟨h _ hs.1, h _ hs.2.1, hs.2.2⟩) hab

theorem conn4_symm {F : Int × Int → Prop} {a b : Int × Int} (hab : Conn4 F a b) :
    Conn4 F b a := by
  refine Relation.ReflTransGen.symmetric ?_ hab
  intro x y hs
  refine ⟨hs.2.1, hs.1, ?_⟩
  have := hs.2.2
  unfold iabs at this ⊢
  split_ifs at this ⊢ <;> omega

theorem conn4_trans {F : Int × Int → Prop} {a b c : Int × Int} (hab : Conn4 F a b)
    (hbc : Conn4 F b c) : Conn4 F a c :=
  Relation.ReflTransGen.trans hab hbc

theorem conn4_refl (F : Int × Int → Prop) (a : Int × Int) : Conn4 F a a :=
  Relation.ReflTransGen.refl

/-- A horizontal run of cells of `F` is a chain. -/
theorem conn4_hline {F : Int × Int → Prop} (y : Int) :
    ∀ (n : Nat) (x : Int), (∀ i : Int, 0 ≤ i → i ≤ n → F (x + i, y)) →
      Conn4 F (x, y) (x + n, y)
  | 0, x, _ => by simpa using conn4_refl F (x, y)
  | n + 1, x, h => by
    have h1 := conn4_hline y n x (fun i hi hin => h i hi (by push_cast; omega))
    refine Relation.ReflTransGen.tail h1 ⟨?_, ?_, ?_⟩
    · exact h n (by omega) (by push_cast; omega)
    · exact h (n + 1 : Nat) (by omega) (le_refl _)
    · simp only [iabs]; push_cast; split_ifs <;> omega

/-- A vertical run of cells of `F` is a chain. -/
theorem conn4_vline {F : Int × Int → Prop} (x : Int) :
    ∀ (n : Nat) (y : Int), (∀ i : Int, 0 ≤ i → i ≤ n → F (x, y + i)) →
      Conn4 F (x, y) (x, y + n)
  | 0, y, _ => by simpa using conn4_refl F (x, y)
  | n + 1, y, h => by
    have h1 := conn4_vline x n y (fun i hi hin => h i hi (by push_cast; omega))
    refine Relation.ReflTransGen.tail h1 ⟨?_, ?_, ?_⟩
    · exact h n (by omega) (by push_cast; omega)
    · exact h (n + 1 : Nat) (by omega) (le_refl _)
    · simp only [iabs]; push_cast; split_ifs <;> omega

/-- Any two cells of a box that lies inside `F` are joined by a chain inside `F`. -/
theorem conn4_of_box {F : Int × Int → Prop} (xl xh yl yh : Int)
    (hF : ∀ c, InBox xl xh yl yh c → F c) {a b : Int × Int}
    (ha : InBox xl xh yl yh a) (hb : InBox xl xh yl yh b) : Conn4 F a b := by
  obtain ⟨a1, a2⟩ := a
  obtain ⟨b1, b2⟩ := b
  unfold InBox at ha hb
  simp only at ha hb
  -- along the row of `a` to the column of `b`, then along that column
  have hrow : Conn4 F (a1, a2) (b1, a2) := by
    rcases le_total a1 b1 with h | h
    · have := conn4_hline (F := F) a2 (b1 - a1).toNat a1
        (fun i hi hin => hF _ ⟨by simp only; omega, by simp only; omega, ha.2.2.1, ha.2.2.2⟩)
      rwa [show a1 + ((b1 - a1).toNat : Int) = b1 by omega] at this
    · have := conn4_hline (F := F) a2 (a1 - b1).toNat b1
        (fun i hi hin => hF _ ⟨by simp only; omega, by simp only; omega, ha.2.2.1, ha.2.2.2⟩)
      rw [show b1 + ((a1 - b1).toNat : Int) = a1 by omega] at this
      exact conn4_symm this
  have hcol : Conn4 F (b1, a2) (b1, b2) := by
    rcases le_total a2 b2 with h | h
    · have := conn4_vline (F := F) b1 (b2 - a2).toNat a2
        (fun i hi hin => hF _ ⟨hb.1, hb.2.1, by simp only; omega, by simp only; omega⟩)
      rwa [show a2 + ((b2 - a2).toNat : Int) = b2 by omega] at this
    · have := conn4_vline (F := F) b1 (a2 - b2).toNat b2
        (fun i hi hin => hF _ ⟨hb.1, hb.2.1, by simp only; omega, by simp only; omega⟩)
      rw [show b2 + ((a2 - b2).toNat : Int) = a2 by omega] at this
      exact conn4_symm this
  exact conn4_trans hrow hcol

/-! ### Carving keeps the free space attached to the room centres -/

theorem safe_inBounds {p : RandomParams} {m : GridMap} (hs : HasShape p.width p.height m)
    {c : Int × Int} (h : Safe p c) : m.InBounds c.1 c.2 := by
  unfold Safe at h
  unfold InBounds
  rw [hs.1, hs.2.1]
  split_ifs at h <;> omega

theorem interior_safe {p : RandomParams} {c : Int × Int} (h : Interior p c) : Safe p c := by
  unfold Interior at h
  unfold Safe
  split_ifs <;> omega

theorem rect_centre_mem {p : RandomParams} {r : Rect} (h : RectValid p r) : RectMem r (centre r) := by
  obtain ⟨hw, hh, hx, hxw, hy, hyh, hcx, hcy⟩ := h
  have e1 : r.w.tdiv 2 = r.w / 2 := Int.tdiv_eq_ediv (by omega) (by omega)
  have e2 : r.h.tdiv 2 = r.h / 2 := Int.tdiv_eq_ediv (by omega) (by omega)
  unfold RectMem centre
  simp only
  omega

theorem rect_mem_interior {p : RandomParams} {r : Rect} (h : RectValid p r) {c : Int × Int}
    (hc : RectMem r c) : Interior p c := by
  obtain ⟨hw, hh, hx, hxw, hy, hyh, -, -⟩ := h
  unfold RectMem at hc
  unfold Interior
  omega

theorem rect_centre_interior {p : RandomParams} {r : Rect} (h : RectValid p r) :
    Interior p (centre r) :=
  rect_mem_interior h (rect_centre_mem h)

/-- What painting free cells does to the cells that will be free in the result. -/
theorem Paints.finalFree {p : RandomParams} {m m' : GridMap} {S : Int → Int → Prop}
    (hp : Paints m m' (fun _ _ => 0) S) (hs : HasShape p.width p.height m) :
    (∀ c : Int × Int, m.at_ c.1 c.2 = 0 → m'.at_ c.1 c.2 = 0) ∧
    (∀ c, FinalFree p m c → FinalFree p m' c) ∧
    (∀ c, Safe p c → S c.1 c.2 → FinalFree p m' c) ∧
    (∀ c, FinalFree p m' c → FinalFree p m c ∨ S c.1 c.2) := by
  have h1 : ∀ c : Int × Int, m.at_ c.1 c.2 = 0 → m'.at_ c.1 c.2 = 0 := by
    intro c hc
    by_cases hS : S c.1 c.2
    · by_cases hin : m.InBounds c.1 c.2
      · simpa [clamp01] using (hp.2.2.2 c.1 c.2).1 hS hin
      · rw [at_of_not_inBounds hin] at hc; exact absurd hc (by decide)
    · rw [(hp.2.2.2 c.1 c.2).2 hS]; exact hc
  refine ⟨h1, fun c hc => ⟨hc.1, h1 c hc.2⟩, ?_, ?_⟩
  · intro c hsafe hS
    exact ⟨hsafe, by simpa [clamp01] using (hp.2.2.2 c.1 c.2).1 hS (safe_inBounds hs hsafe)⟩
  · intro c hc
    by_cases hS : S c.1 c.2
    · exact Or.inr hS
    · exact Or.inl ⟨hc.1, by rw [← (hp.2.2.2 c.1 c.2).2 hS]; exact hc.2⟩

theorem brush_paints (p : RandomParams) {m : GridMap} (hs : m.Sized) (ax ay : Int) :
    Paints m (brush p m ax ay) (fun _ _ => 0)
      (fun x y => InBox (ax - p.corridor_width.tdiv 2) (ax + p.corridor_width.tdiv 2)
        (ay - p.corridor_width.tdiv 2) (ay + p.corridor_width.tdiv 2) (x, y)) := by
  unfold brush
  have inner : ∀ (i : Int) (m : GridMap), m.Sized →
      Paints m (path_planning.forLe (-(p.corridor_width.tdiv 2)) (p.corridor_width.tdiv 2)
          (fun oy m => m.set (ax + i) (ay + oy) 0) m) (fun _ _ => 0)
        (fun x y => ∃ j : Int, -(p.corridor_width.tdiv 2) ≤ j ∧ j ≤ p.corridor_width.tdiv 2 ∧
          (x = ax + i ∧ y = ay + j)) :=
    fun i m hm => Paints.forLe (S := fun j x y => x = ax + i ∧ y = ay + j)
      (fun j m hm => Paints.set_cell hm (ax + i) (ay + j) (fun _ _ => 0)) _ _ hm
  refine (Paints.forLe
    (S := fun i x y => ∃ j : Int, -(p.corridor_width.tdiv 2) ≤ j ∧
      j ≤ p.corridor_width.tdiv 2 ∧ (x = ax + i ∧ y = ay + j))
    inner _ _ hs).congr (fun x y => ?_)
  unfold InBox
  constructor
  · rintro ⟨i, hi1, hi2, j, hj1, hj2, rfl, rfl⟩
    simp only
    omega
  · rintro ⟨h1, h2, h3, h4⟩
    simp only at h1 h2 h3 h4
    exact ⟨x - ax, by omega, by omega, y - ay, by omega, by omega, by omega, by omega⟩

/-- One application of the brush at a cell `q` off the outer ring that is already attached to
the centre of the room `r0` (as soon as `q` itself is free). -/
theorem brush_step (p : RandomParams) (rooms : List Rect) (m : GridMap) (q : Int × Int)
    (r0 : Rect) (hk : 0 ≤ p.corridor_width.tdiv 2) (hinv : CarveInv p rooms m)
    (hq : Interior p q) (hr0 : r0 ∈ rooms)
    (hpre : Conn4 (fun c => FinalFree p m c ∨ c = q) q (centre r0)) :
    CarveInv p rooms (brush p m q.1 q.2) ∧
    FinalFree p (brush p m q.1 q.2) q ∧
    Conn4 (FinalFree p (brush p m q.1 q.2)) q (centre r0) ∧
    (∀ c, FinalFree p m c → FinalFree p (brush p m q.1 q.2) c) := by
  obtain ⟨hsh, hrooms, hatt⟩ := hinv
  have hp := brush_paints p hsh.2.2 q.1 q.2
  obtain ⟨f1, f2, f3, f4⟩ := hp.finalFree (p := p) hsh
  have hqS : InBox (q.1 - p.corridor_width.tdiv 2) (q.1 + p.corridor_width.tdiv 2)
      (q.2 - p.corridor_width.tdiv 2) (q.2 + p.corridor_width.tdiv 2) (q.1, q.2) := by
    unfold InBox; simp only; omega
  have hqF : FinalFree p (brush p m q.1 q.2) q := f3 q (interior_safe hq) hqS
  have hqc : Conn4 (FinalFree p (brush p m q.1 q.2)) q (centre r0) :=
    conn4_mono (fun c hc => hc.elim (f2 c) (fun e => e ▸ hqF)) hpre
  refine ⟨⟨hp.hasShape hsh, fun r hr c hc => f1 c (hrooms r hr c hc), ?_⟩, hqF, hqc, f2⟩
  intro c hc
  rcases f4 c hc with hold | hnew
  · obtain ⟨r, hr, hcr⟩ := hatt c hold
    exact ⟨r, hr, conn4_mono f2 hcr⟩
  · refine ⟨r0, hr0, conn4_trans ?_ hqc⟩
    -- `c` and `q` lie in the part of the brush square that the border walls leave alone
    have hsafe := hc.1
    have hqsafe := interior_safe hq
    unfold Safe at hsafe hqsafe
    unfold InBox at hnew hqS
    simp only at hnew hqS
    refine conn4_of_box
      (max (q.1 - p.corridor_width.tdiv 2) (if p.add_border_walls then 1 else 0))
      (min (q.1 + p.corridor_width.tdiv 2)
        (p.width - 1 - (if p.add_border_walls then 1 else 0)))
      (max (q.2 - p.corridor_width.tdiv 2) (if p.add_border_walls then 1 else 0))
      (min (q.2 + p.corridor_width.tdiv 2)
        (p.height - 1 - (if p.add_border_walls then 1 else 0))) ?_ ?_ ?_
    · intro d hd
      unfold InBox at hd
      simp only [max_le_iff, le_min_iff] at hd
      exact f3 d ⟨hd.1.2, hd.2.1.2, hd.2.2.1.2, hd.2.2.2.2⟩
        ⟨hd.1.1, hd.2.1.1, hd.2.2.1.1, hd.2.2.2.1⟩
    · unfold InBox
      simp only [max_le_iff, le_min_iff]
      exact ⟨⟨hnew.1, hsafe.1⟩, ⟨hnew.2.1, hsafe.2.1⟩, ⟨hnew.2.2.1, hsafe.2.2.1⟩,
        ⟨hnew.2.2.2, hsafe.2.2.2⟩⟩
    · unfold InBox
      simp only [max_le_iff, le_min_iff]
      exact ⟨⟨hqS.1, hqsafe.1⟩, ⟨hqS.2.1, hqsafe.2.1⟩, ⟨hqS.2.2.1, hqsafe.2.2.1⟩,
        ⟨hqS.2.2.2, hqsafe.2.2.2⟩⟩

theorem stepDir_between (a b : Int) (t : Nat) (ht : t ≤ (iabs (b - a)).toNat) :
    min a b ≤ a + t * stepDir a b ∧ a + t * stepDir a b ≤ max a b := by
  unfold stepDir
  unfold iabs at ht
  split_ifs at ht ⊢ <;> simp only [mul_one, mul_neg, mul_zero, add_zero, le_max_iff,
    min_le_iff] <;> omega

theorem stepDir_unit (a b : Int) (h : 0 < (iabs (b - a)).toNat) :
    stepDir a b = 1 ∨ stepDir a b = -1 := by
  unfold stepDir
  unfold iabs at h
  split_ifs at h ⊢ <;> first | exact Or.inl rfl | exact Or.inr rfl | omega

/-- A horizontal corridor leg between two columns off the outer ring, on a row off the outer
ring: the loop ends, the invariant is kept, and the end cell is attached to the centre of `r0`
as soon as it is free. -/
theorem leg_horizontal (p : RandomParams) (rooms : List Rect) (r0 : Rect) (m0 : GridMap)
    (hk : 0 ≤ p.corridor_width.tdiv 2) (x0 x1 y : Int)
    (hx0 : 1 ≤ x0 ∧ x0 ≤ p.width - 2) (hx1 : 1 ≤ x1 ∧ x1 ≤ p.width - 2)
    (hy : 1 ≤ y ∧ y ≤ p.height - 2) (hr0 : r0 ∈ rooms) (m : GridMap)
    (hinv : CarveInv p rooms m)
    (hpre : Conn4 (fun c => FinalFree p m c ∨ c = (x0, y)) (x0, y) (centre r0))
    (hmono : ∀ c, FinalFree p m0 c → FinalFree p m c) :
    ∃ m', carve_line p m x0 y x1 y = some m' ∧ CarveInv p rooms m' ∧
      Conn4 (fun c => FinalFree p m' c ∨ c = (x1, y)) (x1, y) (centre r0) ∧
      (∀ c, FinalFree p m0 c → FinalFree p m' c) := by
  have h := carve_line_horizontal p x0 y x1
    (fun m t => CarveInv p rooms m ∧
      Conn4 (fun c => FinalFree p m c ∨ c = (x0 + (t : Int) * stepDir x0 x1, y))
        (x0 + (t : Int) * stepDir x0 x1, y) (centre r0) ∧
      (∀ c, FinalFree p m0 c → FinalFree p m c))
    (fun m t ht hP => by
      obtain ⟨hinv, hpre, hmono⟩ := hP
      have hb := stepDir_between x0 x1 t (by omega)
      have hu := stepDir_unit x0 x1 (by omega)
      have hq : Interior p (x0 + (t : Int) * stepDir x0 x1, y) := by
        unfold Interior
        simp only [min_le_iff, le_max_iff] at hb
        simp only
        omega
      obtain ⟨hinv', hqF, hqc, f2⟩ := brush_step p rooms m
        (x0 + (t : Int) * stepDir x0 x1, y) r0 hk hinv hq hr0 hpre
      refine ⟨hinv', ?_, fun c hc => f2 c (hmono c hc)⟩
      refine Relation.ReflTransGen.head ⟨Or.inr rfl, Or.inl hqF, ?_⟩
        (conn4_mono (fun c hc => Or.inl hc) hqc)
      simp only [iabs]
      push_cast
      rcases hu with hu | hu <;> rw [hu] <;> split_ifs <;> omega)
    m ⟨hinv, by simpa using hpre, hmono⟩
  obtain ⟨m', hrun, hinv', hpre', hmono'⟩ := h
  refine ⟨m', hrun, hinv', ?_, hmono'⟩
  rw [← stepDir_mul x0 x1] at hpre'
  exact hpre'

/-- A vertical corridor leg between two rows off the outer ring, on a column off the outer
ring. -/
theorem leg_vertical (p : RandomParams) (rooms : List Rect) (r0 : Rect) (m0 : GridMap)
    (hk : 0 ≤ p.corridor_width.tdiv 2) (x y0 y1 : Int)
    (hx : 1 ≤ x ∧ x ≤ p.width - 2) (hy0 : 1 ≤ y0 ∧ y0 ≤ p.height - 2)
    (hy1 : 1 ≤ y1 ∧ y1 ≤ p.height - 2) (hr0 : r0 ∈ rooms) (m : GridMap)
    (hinv : CarveInv p rooms m)
    (hpre : Conn4 (fun c => FinalFree p m c ∨ c = (x, y0)) (x, y0) (centre r0))
    (hmono : ∀ c, FinalFree p m0 c → FinalFree p m c) :
    ∃ m', carve_line p m x y0 x y1 = some m' ∧ CarveInv p rooms m' ∧
      Conn4 (fun c => FinalFree p m' c ∨ c = (x, y1)) (x, y1) (centre r0) ∧
      (∀ c, FinalFree p m0 c → FinalFree p m' c) := by
  have h := carve_line_vertical p x y0 y1
    (fun m t => CarveInv p rooms m ∧
      Conn4 (fun c => FinalFree p m c ∨ c = (x, y0 + (t : Int) * stepDir y0 y1))
        (x, y0 + (t : Int) * stepDir y0 y1) (centre r0) ∧
      (∀ c, FinalFree p m0 c → FinalFree p m c))
    (fun m t ht hP => by
      obtain ⟨hinv, hpre, hmono⟩ := hP
      have hb := stepDir_between y0 y1 t (by omega)
      have hu := stepDir_unit y0 y1 (by omega)
      have hq : Interior p (x, y0 + (t : Int) * stepDir y0 y1) := by
        unfold Interior
        simp only [min_le_iff, le_max_iff] at hb
        simp only
        omega
      obtain ⟨hinv', hqF, hqc, f2⟩ := brush_step p rooms m
        (x, y0 + (t : Int) * stepDir y0 y1) r0 hk hinv hq hr0 hpre
      refine ⟨hinv', ?_, fun c hc => f2 c (hmono c hc)⟩
      refine Relation.ReflTransGen.head ⟨Or.inr rfl, Or.inl hqF, ?_⟩
        (conn4_mono (fun c hc => Or.inl hc) hqc)
      simp only [iabs]
      push_cast
      rcases hu with hu | hu <;> rw [hu] <;> split_ifs <;> omega)
    m ⟨hinv, by simpa using hpre, hmono⟩
  obtain ⟨m', hrun, hinv', hpre', hmono'⟩ := h
  refine ⟨m', hrun, hinv', ?_, hmono'⟩
  rw [← stepDir_mul y0 y1] at hpre'
  exact hpre'

/-- Carving the corridor from the centre of `rv` to the centre of `rp` (two rooms placed under
a valid configuration): the loops end, the invariant is kept, nothing that will be free is
lost, and the two centres are joined. -/
theorem carve_corridor_connects (p : RandomParams) (rooms : List Rect) (rv rp : Rect)
    (hk : 0 ≤ p.corridor_width.tdiv 2) (hrv : rv ∈ rooms) (hrp : rp ∈ rooms)
    (hvv : RectValid p rv) (hvp : RectValid p rp) (m : GridMap) (rng : Rng)
    (hinv : CarveInv p rooms m) :
    ∃ s, carve_corridor p m rng rv.cx rv.cy rp.cx rp.cy = some s ∧ CarveInv p rooms s.1 ∧
      Conn4 (FinalFree p s.1) (centre rv) (centre rp) ∧
      (∀ c, FinalFree p m c → FinalFree p s.1 c) := by
  have iv := rect_centre_interior hvv
  have ip := rect_centre_interior hvp
  unfold Interior centre at iv ip
  simp only at iv ip
  have finish : ∀ m2 : GridMap, CarveInv p rooms m2 →
      Conn4 (fun c => FinalFree p m2 c ∨ c = (rp.cx, rp.cy)) (rp.cx, rp.cy) (centre rv) →
      Conn4 (FinalFree p m2) (centre rv) (centre rp) := by
    intro m2 hinv2 hc
    have hfree : FinalFree p m2 (centre rp) :=
      ⟨interior_safe (rect_centre_interior hvp), hinv2.2.1 rp hrp _ (rect_centre_mem hvp)⟩
    exact conn4_symm (conn4_mono (fun c hc => hc.elim id (fun e => e ▸ hfree)) hc)
  unfold carve_corridor
  split
  · obtain ⟨m1, h1, hinv1, hpre1, hmono1⟩ := leg_horizontal p rooms rv m hk rv.cx rp.cx rv.cy
      ⟨iv.1, iv.2.1⟩ ⟨ip.1, ip.2.1⟩ ⟨iv.2.2.1, iv.2.2.2⟩ hrv m hinv
      (Relation.ReflTransGen.refl) (fun c hc => hc)
    obtain ⟨m2, h2, hinv2, hpre2, hmono2⟩ := leg_vertical p rooms rv m hk rp.cx rv.cy rp.cy
      ⟨ip.1, ip.2.1⟩ ⟨iv.2.2.1, iv.2.2.2⟩ ⟨ip.2.2.1, ip.2.2.2⟩ hrv m1 hinv1 hpre1 hmono1
    rw [h1]; simp only; rw [h2]
    exact ⟨_, rfl, hinv2, finish m2 hinv2 hpre2, hmono2⟩
  · obtain ⟨m1, h1, hinv1, hpre1, hmono1⟩ := leg_vertical p rooms rv m hk rv.cx rv.cy rp.cy
      ⟨iv.1, iv.2.1⟩ ⟨iv.2.2.1, iv.2.2.2⟩ ⟨ip.2.2.1, ip.2.2.2⟩ hrv m hinv
      (Relation.ReflTransGen.refl) (fun c hc => hc)
    obtain ⟨m2, h2, hinv2, hpre2, hmono2⟩ := leg_horizontal p rooms rv m hk rv.cx rp.cx rp.cy
      ⟨iv.1, iv.2.1⟩ ⟨ip.1, ip.2.1⟩ ⟨ip.2.2.1, ip.2.2.2⟩ hrv m1 hinv1 hpre1 hmono1
    rw [h1]; simp only; rw [h2]
    exact ⟨_, rfl, hinv2, finish m2 hinv2 hpre2, hmono2⟩

/-! ### Room placement -/

theorem uniformInt_range (a b : Int) (g : Rng) (h : a ≤ b) :
    a ≤ (uniformInt a b g).1 ∧ (uniformInt a b g).1 ≤ b := by
  unfold uniformInt
  simp only
  have h1 := Int.emod_nonneg ((g.next.1 : Nat) : Int) (b := b - a + 1) (by omega)
  have h2 := Int.emod_lt_of_pos ((g.next.1 : Nat) : Int) (b := b - a + 1) (by omega)
  omega

/-- Every candidate room is valid when the raster is at least 3x3 and the size ranges start
at 1 or above. -/
theorem drawRoom_valid (p : RandomParams) (rng : Rng) (hw : 3 ≤ p.width) (hh : 3 ≤ p.height)
    (hrw : 1 ≤ p.room_min_w) (hrw' : p.room_min_w ≤ p.room_max_w)
    (hrh : 1 ≤ p.room_min_h) (hrh' : p.room_min_h ≤ p.room_max_h) :
    RectValid p (drawRoom p rng).1 := by
  unfold drawRoom RectValid
  simp only
  have h1 := uniformInt_range p.room_min_w p.room_max_w rng hrw'
  have h2 := uniformInt_range p.room_min_h p.room_max_h
    (uniformInt p.room_min_w p.room_max_w rng).2 hrh'
  refine ⟨?_, ?_, ?_, ?_, ?_, ?_, ?_, ?_⟩
  all_goals first
    | trivial
    | omega

theorem carve_rect_paints (p : RandomParams) {m : GridMap} (hs : m.Sized) (x0 y0 w h : Int) :
    Paints m (carve_rect p m x0 y0 w h) (fun _ _ => 0)
      (fun x y => x0 ≤ x ∧ x < min (x0 + w) p.width ∧ y0 ≤ y ∧ y < min (y0 + h) p.height) := by
  unfold carve_rect
  have inner : ∀ (j : Int) (m : GridMap), m.Sized →
      Paints m (path_planning.forLt x0 (min (x0 + w) p.width) (fun x m => m.set x j 0) m)
        (fun _ _ => 0)
        (fun x y => ∃ i : Int, x0 ≤ i ∧ i < min (x0 + w) p.width ∧ (x = i ∧ y = j)) :=
    fun j m hm => Paints.forLt (S := fun i x y => x = i ∧ y = j)
      (fun i m hm => Paints.set_cell hm i j (fun _ _ => 0)) _ _ hm
  refine (Paints.forLt
    (S := fun j x y => ∃ i : Int, x0 ≤ i ∧ i < min (x0 + w) p.width ∧ (x = i ∧ y = j))
    inner _ _ hs).congr (fun x y => ?_)
  constructor
  · rintro ⟨j, hj1, hj2, i, hi1, hi2, rfl, rfl⟩
    exact ⟨hi1, hi2, hj1, hj2⟩
  · rintro ⟨h1, h2, h3, h4⟩
    exact ⟨y, h3, h4, x, h1, h2, rfl, rfl⟩

theorem placeInv_push (p : RandomParams) {rooms : List Rect} {m : GridMap} (r : Rect)
    (hinv : PlaceInv p rooms m) (hr : RectValid p r) :
    PlaceInv p (rooms ++ [r]) (carve_rect p m r.x r.y r.w r.h) := by
  obtain ⟨hsh, hval, hfree, hsrc⟩ := hinv
  have hp := carve_rect_paints p hsh.2.2 r.x r.y r.w r.h
  have hmem : ∀ c : Int × Int,
      (r.x ≤ c.1 ∧ c.1 < min (r.x + r.w) p.width ∧ r.y ≤ c.2 ∧
        c.2 < min (r.y + r.h) p.height) ↔ RectMem r c := by
    intro c
    obtain ⟨h1, h2, h3, h4, h5, h6, -, -⟩ := hr
    unfold RectMem
    simp only [lt_min_iff]
    constructor
    · rintro ⟨a, ⟨b, -⟩, c', ⟨d, -⟩⟩; exact ⟨a, b, c', d⟩
    · rintro ⟨a, b, c', d⟩; exact ⟨a, ⟨b, by omega⟩, c', ⟨d, by omega⟩⟩
  obtain ⟨f1, -, -, -⟩ := hp.finalFree (p := p) hsh
  refine ⟨hp.hasShape hsh, ?_, ?_, ?_⟩
  · intro q hq
    rcases List.mem_append.1 hq with h | h
    · exact hval q h
    · simp only [List.mem_singleton] at h; subst h; exact hr
  · intro q hq c hc
    rcases List.mem_append.1 hq with h | h
    · exact f1 c (hfree q h c hc)
    · simp only [List.mem_singleton] at h
      subst h
      have hin : m.InBounds c.1 c.2 :=
        safe_inBounds hsh (interior_safe (rect_mem_interior hr hc))
      simpa [clamp01] using (hp.2.2.2 c.1 c.2).1 ((hmem c).2 hc) hin
  · intro c hc
    by_cases hS : r.x ≤ c.1 ∧ c.1 < min (r.x + r.w) p.width ∧ r.y ≤ c.2 ∧
        c.2 < min (r.y + r.h) p.height
    · exact ⟨r, by simp, (hmem c).1 hS⟩
    · rw [(hp.2.2.2 c.1 c.2).2 hS] at hc
      obtain ⟨q, hq, hqc⟩ := hsrc c hc
      exact ⟨q, List.mem_append_left _ hq, hqc⟩

theorem placeRooms_inv (p : RandomParams) (hw : 3 ≤ p.width) (hh : 3 ≤ p.height)
    (hrw : 1 ≤ p.room_min_w) (hrw' : p.room_min_w ≤ p.room_max_w)
    (hrh : 1 ≤ p.room_min_h) (hrh' : p.room_min_h ≤ p.room_max_h) :
    ∀ (tries : Nat) (rooms : List Rect) (m : GridMap) (rng : Rng), PlaceInv p rooms m →
      PlaceInv p (placeRooms p tries rooms m rng).1 (placeRooms p tries rooms m rng).2.1
  | 0, _, _, _, h => h
  | tries + 1, rooms, m, rng, h => by
    unfold placeRooms
    split
    · simp only
      split
      · exact placeRooms_inv p hw hh hrw hrw' hrh hrh' tries _ _ _ h
      · exact placeRooms_inv p hw hh hrw hrw' hrh hrh' tries _ _ _
          (placeInv_push p _ h (drawRoom_valid p rng hw hh hrw hrw' hrh hrh'))
    · exact h

theorem placeInv_init (p : RandomParams) :
    PlaceInv p [] (GridMap.new p.width p.height 1) := by
  refine ⟨new_hasShape _ _ 1, by simp, by simp, ?_⟩
  intro c hc
  rw [at_new] at hc
  split at hc <;> exact absurd hc (by decide)

/-- When placement is over, every cell that will be free lies in a room and is joined to the
centre of that room inside the room. -/
theorem carveInv_of_placeInv (p : RandomParams) {rooms : List Rect} {m : GridMap}
    (h : PlaceInv p rooms m) : CarveInv p rooms m := by
  obtain ⟨hsh, hval, hfree, hsrc⟩ := h
  refine ⟨hsh, hfree, ?_⟩
  intro c hc
  obtain ⟨r, hr, hrc⟩ := hsrc c hc.2
  refine ⟨r, hr, ?_⟩
  have hcm := rect_centre_mem (hval r hr)
  refine conn4_of_box r.x (r.x + r.w - 1) r.y (r.y + r.h - 1) ?_ ?_ ?_
  · intro d hd
    have hdm : RectMem r d := by unfold InBox at hd; unfold RectMem; omega
    exact ⟨interior_safe (rect_mem_interior (hval r hr) hdm), hfree r hr d hdm⟩
  · unfold RectMem at hrc; unfold InBox; omega
  · unfold RectMem at hcm; unfold InBox; omega

/-! ### The Prim loop -/

theorem forIdx_succ {σ : Type} (n : Nat) (body : Nat → σ → σ) (s : σ) :
    forIdx (n + 1) body s = body n (forIdx n body s) := by
  unfold forIdx
  rw [List.range_succ, List.foldl_append]
  rfl

theorem forIdx_zero {σ : Type} (body : Nat → σ → σ) (s : σ) : forIdx 0 body s = s := rfl

theorem getD_set_eq {α : Type} (l : List α) (i : Nat) (a d : α) (h : i < l.length) :
    (l.set i a).getD i d = a := by
  simp [List.getD_eq_getElem?_getD, List.getElem?_set, h]

theorem getD_set_ne {α : Type} (l : List α) (i j : Nat) (a d : α) (h : i ≠ j) :
    (l.set i a).getD j d = l.getD j d := by
  simp [List.getD_eq_getElem?_getD, List.getElem?_set, h]

theorem not_and_decide_iff (a : Bool) (P : Prop) [Decidable P] :
    (!a && decide P) = true ↔ a = false ∧ P := by
  cases a <;> simp

theorem not_eq_true_iff (a : Bool) : (!a) = true ↔ a = false := by
  cases a <;> simp

/-- The selection loop returns either the start pair (when no room is both unmarked and below
`INT32_MAX`) or an unmarked room with a key below `INT32_MAX`. -/
theorem selectMin_spec (st : PrimState) :
    ∀ n : Nat,
      (selectMin st n = (-1, INT32_MAX) ∧
        ∀ j, j < n → ¬ (st.inMST.getD j false = false ∧ st.key.getD j 0 < INT32_MAX)) ∨
      (∃ u : Nat, u < n ∧ selectMin st n = ((u : Int), st.key.getD u 0) ∧
        st.inMST.getD u false = false ∧ st.key.getD u 0 < INT32_MAX) := by
  intro n
  induction n with
  | zero => exact Or.inl ⟨rfl, fun j hj => absurd hj (Nat.not_lt_zero _)⟩
  | succ n ih =>
    have hs : selectMin st (n + 1) =
        (if !st.inMST.getD n false && decide (st.key.getD n 0 < (selectMin st n).2) then
          ((n : Int), st.key.getD n 0) else selectMin st n) := by
      unfold selectMin
      rw [forIdx_succ]
    rw [hs]
    rcases ih with ⟨hnone, hall⟩ | ⟨u, hu, hsel, hum, huk⟩
    · rw [hnone]
      by_cases hc : st.inMST.getD n false = false ∧ st.key.getD n 0 < INT32_MAX
      · right
        refine ⟨n, by omega, ?_, hc.1, hc.2⟩
        rw [if_pos ((not_and_decide_iff _ _).2 hc)]
      · left
        constructor
        · rw [if_neg (fun h => hc ((not_and_decide_iff _ _).1 h))]
        · intro j hj
          rcases Nat.lt_succ_iff_lt_or_eq.1 hj with h | h
          · exact hall j h
          · subst h; exact hc
    · right
      rw [hsel]
      by_cases hc : st.inMST.getD n false = false ∧ st.key.getD n 0 < st.key.getD u 0
      · refine ⟨n, by omega, ?_, hc.1, by omega⟩
        rw [if_pos ((not_and_decide_iff _ _).2 hc)]
      · refine ⟨u, by omega, ?_, hum, huk⟩
        rw [if_neg (fun h => hc ((not_and_decide_iff _ _).1 h))]

/-- The relaxation loop, entry by entry: an unmarked room whose distance to `u` is below its
key gets that distance as key and `u` as parent; every other entry is unchanged; `inMST` is
unchanged. -/
theorem relax_spec (rooms : List Rect) (u : Int) (st : PrimState) (L : Nat)
    (hp : st.parent.length = L) (hk : st.key.length = L) :
    ∀ n : Nat, n ≤ L →
      (relax rooms u n st).inMST = st.inMST ∧
      (relax rooms u n st).parent.length = L ∧ (relax rooms u n st).key.length = L ∧
      ∀ v : Nat,
        ((v < n ∧ st.inMST.getD v false = false ∧ roomDist rooms u v < st.key.getD v 0) →
          (relax rooms u n st).key.getD v 0 = roomDist rooms u v ∧
          (relax rooms u n st).parent.getD v (-1) = u) ∧
        (¬ (v < n ∧ st.inMST.getD v false = false ∧ roomDist rooms u v < st.key.getD v 0) →
          (relax rooms u n st).key.getD v 0 = st.key.getD v 0 ∧
          (relax rooms u n st).parent.getD v (-1) = st.parent.getD v (-1)) := by
  intro n
  induction n with
  | zero =>
    intro _
    refine ⟨rfl, hp, hk, fun v => ⟨fun h => absurd h.1 (Nat.not_lt_zero _), fun _ => ⟨rfl, rfl⟩⟩⟩
  | succ n ih =>
    intro hn
    obtain ⟨hm, hpl, hkl, hv⟩ := ih (by omega)
    have hs : relax rooms u (n + 1) st =
        (if !(relax rooms u n st).inMST.getD n false then
          if roomDist rooms u n < (relax rooms u n st).key.getD n 0 then
            { relax rooms u n st with
              key := (relax rooms u n st).key.set n (roomDist rooms u n),
              parent := (relax rooms u n st).parent.set n u }
          else relax rooms u n st
        else relax rooms u n st) := by
      unfold relax
      rw [forIdx_succ]
    have hn_old := (hv n).2 (fun h => absurd h.1 (Nat.lt_irrefl _))
    rw [hs, hm, hn_old.1]
    by_cases hc : st.inMST.getD n false = false ∧ roomDist rooms u n < st.key.getD n 0
    · rw [if_pos ((not_eq_true_iff _).2 hc.1), if_pos hc.2]
      refine ⟨hm, by simp [hpl], by simp [hkl], fun v => ⟨?_, ?_⟩⟩
      · rintro ⟨hvn, hv1, hv2⟩
        by_cases hvn' : v = n
        · subst hvn'
          exact ⟨getD_set_eq _ _ _ _ (by omega), getD_set_eq _ _ _ _ (by omega)⟩
        · show ((relax rooms u n st).key.set n (roomDist rooms u n)).getD v 0 = _ ∧
            ((relax rooms u n st).parent.set n u).getD v (-1) = _
          rw [getD_set_ne _ _ _ _ _ (Ne.symm hvn'), getD_set_ne _ _ _ _ _ (Ne.symm hvn')]
          exact (hv v).1 ⟨by omega, hv1, hv2⟩
      · intro hnot
        have hvn' : v ≠ n := by
          rintro rfl
          exact hnot ⟨by omega, hc.1, hc.2⟩
        show ((relax rooms u n st).key.set n (roomDist rooms u n)).getD v 0 = _ ∧
          ((relax rooms u n st).parent.set n u).getD v (-1) = _
        rw [getD_set_ne _ _ _ _ _ (Ne.symm hvn'), getD_set_ne _ _ _ _ _ (Ne.symm hvn')]
        exact (hv v).2 (fun h => hnot ⟨by omega, h.2.1, h.2.2⟩)
    · have hres : (if (!st.inMST.getD n false) = true then
            if roomDist rooms u n < st.key.getD n 0 then
              { relax rooms u n st with
                key := (relax rooms u n st).key.set n (roomDist rooms u n),
                parent := (relax rooms u n st).parent.set n u }
            else relax rooms u n st
          else relax rooms u n st) = relax rooms u n st := by
        by_cases h1 : st.inMST.getD n false = false
        · have h2 : ¬ roomDist rooms u n < st.key.getD n 0 := fun h => hc ⟨h1, h⟩
          rw [if_pos ((not_eq_true_iff _).2 h1), if_neg h2]
        · rw [if_neg (fun h => h1 ((not_eq_true_iff _).1 h))]
      rw [hres]
      refine ⟨hm, hpl, hkl, fun v => ⟨?_, ?_⟩⟩
      · rintro ⟨hvn, hv1, hv2⟩
        have hvn' : v ≠ n := by
          rintro rfl
          exact hc ⟨hv1, hv2⟩
        exact (hv v).1 ⟨by omega, hv1, hv2⟩
      · intro hnot
        by_cases hvn' : v = n
        · subst hvn'; exact hn_old
        · exact (hv v).2 (fun h => hnot ⟨by omega, h.2.1, h.2.2⟩)

theorem count_set_true_le (l : List Bool) :
    ∀ i : Nat, (l.set i true).count true ≤ l.count true + 1 := by
  induction l with
  | nil => intro i; simp
  | cons b l ih =>
    intro i
    cases i with
    | zero =>
      rw [List.set_cons_zero, List.count_cons, List.count_cons]
      simp only [beq_self_eq_true, if_true]
      split <;> omega
    | succ i =>
      rw [List.set_cons_succ, List.count_cons, List.count_cons]
      have := ih i
      omega

theorem exists_unmarked (l : List Bool) (h : l.count true < l.length) :
    ∃ i, i < l.length ∧ l.getD i false = false := by
  induction l with
  | nil => simp at h
  | cons b l ih =>
    cases b with
    | false => exact ⟨0, by simp, rfl⟩
    | true =>
      rw [List.count_cons, List.length_cons] at h
      simp only [beq_self_eq_true, if_true] at h
      obtain ⟨i, hi, hf⟩ := ih (by omega)
      exact ⟨i + 1, by simp; omega, by simpa using hf⟩

theorem getD_replicate_self {α : Type} (n i : Nat) (a : α) :
    (List.replicate n a).getD i a = a := by
  rw [List.getD_eq_getElem?_getD, List.getElem?_replicate]
  split <;> rfl

/-- A path to the root survives when every marked room stays marked and keeps its parent. -/
theorem RootPath.transfer {parent parent' : List Int} {inMST inMST' : List Bool}
    (h : ∀ x, inMST.getD x false = true →
      inMST'.getD x false = true ∧ parent'.getD x (-1) = parent.getD x (-1))
    {w : Nat} (hw : RootPath parent inMST w) : RootPath parent' inMST' w := by
  induction hw with
  | root => exact RootPath.root
  | step v u hm hp _ ih =>
    exact RootPath.step v u (h v hm).1 (by rw [(h v hm).2]; exact hp) ih

theorem primInit_inv (rooms : List Rect) : PrimInv rooms 0 (primInit rooms.length) := by
  have hpar : ∀ v, (primInit rooms.length).parent.getD v (-1) = -1 := by
    intro v
    unfold primInit
    simp only
    by_cases hv : 0 = v
    · subst hv
      by_cases hn : 0 < rooms.length
      · exact getD_set_eq _ _ _ _ (by simpa using hn)
      · have : rooms.length = 0 := by omega
        rw [this]; rfl
    · rw [getD_set_ne _ _ _ _ _ hv]; exact getD_replicate_self _ _ _
  have hmark : ∀ v, (primInit rooms.length).inMST.getD v false = false := fun v =>
    getD_replicate_self _ _ _
  refine ⟨by simp [primInit], by simp [primInit], by simp [primInit], ?_, ?_, ?_, ?_, ?_⟩
  · simp [primInit, List.count_replicate]
  · intro _
    refine ⟨hmark, ?_, ?_⟩
    · unfold primInit
      simp only
      by_cases hn : 0 < rooms.length
      · exact getD_set_eq _ _ _ _ (by simpa using hn)
      · have : rooms.length = 0 := by omega
        rw [this]; rfl
    · intro v hv _
      unfold primInit
      simp only
      rw [getD_set_ne _ _ _ _ _ (by omega)]
      rw [List.getD_eq_getElem?_getD, List.getElem?_replicate]
      split
      · rfl
      · omega
  · intro h; exact absurd h (Nat.lt_irrefl _)
  · intro v _ hne; exact absurd (hpar v) hne
  · intro v _ hm; rw [hmark v] at hm; exact absurd hm (by decide)

/-- One iteration of the Prim loop keeps the invariant, as long as a room is still unmarked
and all distances between rooms are below `INT32_MAX`. -/
theorem primStep_inv (rooms : List Rect)
    (hdist : ∀ u v : Nat, u < rooms.length → v < rooms.length →
      roomDist rooms (u : Int) v < INT32_MAX)
    (c : Nat) (st : PrimState) (hc : c + 1 < rooms.length) (hinv : PrimInv rooms c st) :
    PrimInv rooms (c + 1) (primStep rooms st) := by
  obtain ⟨hpl, hkl, hml, hcnt, h0, hpos, hpar, hroot⟩ := hinv
  have hex : ∃ i, i < rooms.length ∧ st.inMST.getD i false = false ∧
      st.key.getD i 0 < INT32_MAX := by
    rcases Nat.eq_zero_or_pos c with hc0 | hcp
    · obtain ⟨a1, a2, _⟩ := h0 hc0
      exact ⟨0, by omega, a1 0, by rw [a2]; decide⟩
    · obtain ⟨i, hi, hif⟩ := exists_unmarked st.inMST (by omega)
      exact ⟨i, by omega, hif, (hpos hcp).2.1 i (by omega)⟩
  rcases selectMin_spec st rooms.length with ⟨_, hall⟩ | ⟨u, hu, hsel, hum, huk⟩
  · obtain ⟨i, hi, h⟩ := hex
    exact absurd h (hall i hi)
  · have hu0 : c = 0 → u = 0 := by
      intro hc0
      by_contra hne
      have := (h0 hc0).2.2 u (by omega) hu
      rw [this] at huk
      exact lt_irrefl _ huk
    have hstep : primStep rooms st =
        relax rooms (u : Int) rooms.length { st with inMST := st.inMST.set u true } := by
      unfold primStep
      rw [hsel]
      simp only [Int.toNat_ofNat]
    obtain ⟨rm, rpl, rkl, rv⟩ := relax_spec rooms (u : Int)
      { st with inMST := st.inMST.set u true } rooms.length hpl hkl rooms.length le_rfl
    simp only at rm rv
    rw [hstep]
    have hmark : ∀ x, (st.inMST.set u true).getD x false =
        if x = u then true else st.inMST.getD x false := by
      intro x
      by_cases hx : x = u
      · subst hx; rw [if_pos rfl]; exact getD_set_eq _ _ _ _ (by omega)
      · rw [if_neg hx]; exact getD_set_ne _ _ _ _ _ (Ne.symm hx)
    have hkeep : ∀ x, (st.inMST.set u true).getD x false = true →
        (relax rooms (u : Int) rooms.length
          { st with inMST := st.inMST.set u true }).parent.getD x (-1) =
          st.parent.getD x (-1) := by
      intro x hx
      exact ((rv x).2 (fun h => by rw [hx] at h; exact absurd h.2.1 (by decide))).2
    -- at the first iteration every room but room 0 is relaxed
    have hfirst : c = 0 → ∀ v, 0 < v → v < rooms.length →
        (v < rooms.length ∧ (st.inMST.set u true).getD v false = false ∧
          roomDist rooms (u : Int) v < st.key.getD v 0) := by
      intro hc0 v hv hvn
      obtain ⟨a1, _, a3⟩ := h0 hc0
      refine ⟨hvn, ?_, ?_⟩
      · rw [hmark, if_neg (by rw [hu0 hc0]; omega)]; exact a1 v
      · rw [a3 v hv hvn]; exact hdist u v hu hvn
    refine ⟨rpl, rkl, by rw [rm]; simp [hml], ?_, ?_, ?_, ?_, ?_⟩
    · rw [rm]
      exact le_trans (count_set_true_le _ _) (by omega)
    · intro h; omega
    · intro _
      refine ⟨?_, ?_, ?_⟩
      · rw [rm, hmark]
        split
        · rfl
        · rcases Nat.eq_zero_or_pos c with hc0 | hcp
          · rename_i hne; exact absurd (hu0 hc0).symm hne
          · exact (hpos hcp).1
      · intro v hv
        by_cases hupd : v < rooms.length ∧ (st.inMST.set u true).getD v false = false ∧
            roomDist rooms (u : Int) v < st.key.getD v 0
        · rw [((rv v).1 hupd).1]; exact hdist u v hu hv
        · rw [((rv v).2 hupd).1]
          rcases Nat.eq_zero_or_pos c with hc0 | hcp
          · rcases Nat.eq_zero_or_pos v with hv0 | hvp
            · subst hv0; rw [(h0 hc0).2.1]; decide
            · exact absurd (hfirst hc0 v hvp hv) hupd
          · exact (hpos hcp).2.1 v hv
      · intro v hv0 hv
        by_cases hupd : v < rooms.length ∧ (st.inMST.set u true).getD v false = false ∧
            roomDist rooms (u : Int) v < st.key.getD v 0
        · rw [((rv v).1 hupd).2]; omega
        · rw [((rv v).2 hupd).2]
          rcases Nat.eq_zero_or_pos c with hc0 | hcp
          · exact absurd (hfirst hc0 v hv0 hv) hupd
          · exact (hpos hcp).2.2 v hv0 hv
    · intro v hv hne
      by_cases hupd : v < rooms.length ∧ (st.inMST.set u true).getD v false = false ∧
          roomDist rooms (u : Int) v < st.key.getD v 0
      · refine ⟨u, ((rv v).1 hupd).2, hu, ?_⟩
        rw [rm, hmark, if_pos rfl]
      · rw [((rv v).2 hupd).2] at hne ⊢
        obtain ⟨w, hw1, hw2, hw3⟩ := hpar v hv hne
        refine ⟨w, hw1, hw2, ?_⟩
        rw [rm, hmark]
        split
        · rfl
        · exact hw3
    · intro v hv hm
      rw [rm] at hm ⊢
      have htr : ∀ x, st.inMST.getD x false = true →
          (st.inMST.set u true).getD x false = true ∧
          (relax rooms (u : Int) rooms.length
            { st with inMST := st.inMST.set u true }).parent.getD x (-1) =
            st.parent.getD x (-1) := by
        intro x hx
        have hx' : (st.inMST.set u true).getD x false = true := by
          rw [hmark]; split
          · rfl
          · exact hx
        exact ⟨hx', hkeep x hx'⟩
      by_cases hvm : st.inMST.getD v false = true
      · exact RootPath.transfer htr (hroot v hv hvm)
      · have hvu : v = u := by
          by_contra hne
          rw [hmark, if_neg hne] at hm
          exact hvm hm
        subst hvu
        rcases Nat.eq_zero_or_pos v with hv0 | hvp
        · subst hv0; exact RootPath.root
        · have hcp : 0 < c := by
            rcases Nat.eq_zero_or_pos c with hc0 | hcp
            · have := hu0 hc0; omega
            · exact hcp
          obtain ⟨w, hw1, hw2, hw3⟩ := hpar v hv ((hpos hcp).2.2 v hvp hv)
          exact RootPath.step v w hm (by rw [hkeep v hm]; exact hw1)
            (RootPath.transfer htr (hroot w hw2 hw3))

/-- The Prim loop over `n ≥ 2` rooms with distances below `INT32_MAX`: every room but the first
gets a parent among the rooms, and following the parents from that parent leads to room 0. -/
theorem primMST_tree (rooms : List Rect) (hn : 2 ≤ rooms.length)
    (hdist : ∀ u v : Nat, u < rooms.length → v < rooms.length →
      roomDist rooms (u : Int) v < INT32_MAX) :
    ∃ inMST : List Bool, ∀ v, 0 < v → v < rooms.length →
      ∃ u : Nat, (primMST rooms).getD v (-1) = (u : Int) ∧ u < rooms.length ∧
        RootPath (primMST rooms) inMST u := by
  have hloop : ∀ c, c + 1 ≤ rooms.length →
      PrimInv rooms c (forIdx c (fun _ st => primStep rooms st) (primInit rooms.length)) := by
    intro c
    induction c with
    | zero => intro _; exact primInit_inv rooms
    | succ c ih =>
      intro hc
      rw [forIdx_succ]
      exact primStep_inv rooms hdist c _ (by omega) (ih (by omega))
  have hfin := hloop (rooms.length - 1) (by omega)
  obtain ⟨-, -, -, -, -, hpos, hpar, hroot⟩ := hfin
  refine ⟨(forIdx (rooms.length - 1) (fun _ st => primStep rooms st)
    (primInit rooms.length)).inMST, ?_⟩
  intro v hv0 hv
  obtain ⟨w, hw1, hw2, hw3⟩ := hpar v hv ((hpos (by omega)).2.2 v hv0 hv)
  exact ⟨w, hw1, hw2, hroot w hw2 hw3⟩

/-! ### All corridors together -/

theorem getD_mem_of_lt {α : Type} (l : List α) (i : Nat) (d : α) (h : i < l.length) :
    l.getD i d ∈ l := by
  rw [List.getD_eq_getElem l d h]
  exact List.getElem_mem h

/-- The corridor loop ends, keeps the invariant, loses nothing that will be free, and joins the
centre of every room it handles to the centre of its parent. -/
theorem carveCorridors_connects (p : RandomParams) (rooms : List Rect) (parent : List Int)
    (hk : 0 ≤ p.corridor_width.tdiv 2) (hvalid : ∀ r ∈ rooms, RectValid p r) :
    ∀ (vs : List Nat) (m : GridMap) (rng : Rng),
      (∀ v ∈ vs, v < rooms.length ∧
        (parent.getD v (-1) ≠ -1 → (parent.getD v (-1)).toNat < rooms.length)) →
      CarveInv p rooms m →
      ∃ s, carveCorridors p rooms parent vs m rng = some s ∧ CarveInv p rooms s.1 ∧
        (∀ c, FinalFree p m c → FinalFree p s.1 c) ∧
        ∀ v ∈ vs, parent.getD v (-1) ≠ -1 →
          Conn4 (FinalFree p s.1) (centre (rooms.getD v default))
            (centre (rooms.getD (parent.getD v (-1)).toNat default))
  | [], m, rng, _, hinv => ⟨(m, rng), rfl, hinv, fun _ h => h, fun v hv => by simp at hv⟩
  | v :: vs, m, rng, hvs, hinv => by
    have hvs' : ∀ w ∈ vs, w < rooms.length ∧
        (parent.getD w (-1) ≠ -1 → (parent.getD w (-1)).toNat < rooms.length) :=
      fun w hw => hvs w (List.mem_cons_of_mem _ hw)
    unfold carveCorridors
    split
    · rename_i hne
      obtain ⟨hv, hpv⟩ := hvs v (List.mem_cons_self _ _)
      have hrv := getD_mem_of_lt rooms v default hv
      have hrp := getD_mem_of_lt rooms (parent.getD v (-1)).toNat default (hpv hne)
      obtain ⟨s, hs, hinv1, hconn1, hmono1⟩ := carve_corridor_connects p rooms _ _ hk hrv hrp
        (hvalid _ hrv) (hvalid _ hrp) m rng hinv
      rw [hs]
      obtain ⟨s2, hs2, hinv2, hmono2, hconn2⟩ :=
        carveCorridors_connects p rooms parent hk hvalid vs s.1 s.2 hvs' hinv1
      refine ⟨s2, hs2, hinv2, fun c hc => hmono2 c (hmono1 c hc), ?_⟩
      intro w hw hwne
      rcases List.mem_cons.1 hw with h | h
      · subst h; exact conn4_mono hmono2 hconn1
      · exact hconn2 w h hwne
    · rename_i hne
      obtain ⟨s2, hs2, hinv2, hmono2, hconn2⟩ :=
        carveCorridors_connects p rooms parent hk hvalid vs m rng hvs' hinv
      refine ⟨s2, hs2, hinv2, hmono2, ?_⟩
      intro w hw hwne
      rcases List.mem_cons.1 hw with h | h
      · subst h; exact absurd hwne hne
      · exact hconn2 w h hwne

/-- Along the parent pointers every room centre is joined to the centre of room 0. -/
theorem centres_connected (rooms : List Rect) (parent : List Int) (inMST : List Bool)
    (F : Int × Int → Prop)
    (hedge : ∀ v, 0 < v → v < rooms.length → parent.getD v (-1) ≠ -1 →
      Conn4 F (centre (rooms.getD v default))
        (centre (rooms.getD (parent.getD v (-1)).toNat default)))
    (htree : ∀ v, 0 < v → v < rooms.length →
      ∃ u : Nat, parent.getD v (-1) = (u : Int) ∧ u < rooms.length ∧
        RootPath parent inMST u)
    {w : Nat} (hw : RootPath parent inMST w) (hwn : w < rooms.length) :
    Conn4 F (centre (rooms.getD w default)) (centre (rooms.getD 0 default)) := by
  induction hw with
  | root => exact conn4_refl _ _
  | step v u _ hp _ ih =>
    rcases Nat.eq_zero_or_pos v with hv0 | hvp
    · subst hv0; exact conn4_refl _ _
    · obtain ⟨u', hu1, hu2, _⟩ := htree v hvp hwn
      have huu : u = u' := by rw [hp] at hu1; exact_mod_cast hu1
      subst huu
      have he := hedge v hvp hwn (by rw [hp]; omega)
      rw [hp, Int.toNat_ofNat] at he
      exact conn4_trans he (ih hu2)

/-- The distance between two valid rooms is below `INT32_MAX` when the cell count of the
raster fits into an `int`. -/
theorem roomDist_lt (p : RandomParams) (rooms : List Rect) (hw : 3 ≤ p.width)
    (hh : 3 ≤ p.height) (hsize : p.width * p.height ≤ INT32_MAX)
    (hvalid : ∀ r ∈ rooms, RectValid p r) (u v : Nat) (hu : u < rooms.length)
    (hv : v < rooms.length) : roomDist rooms (u : Int) v < INT32_MAX := by
  have iu := rect_centre_interior (hvalid _ (getD_mem_of_lt rooms u default hu))
  have iv := rect_centre_interior (hvalid _ (getD_mem_of_lt rooms v default hv))
  unfold Interior centre at iu iv
  simp only at iu iv
  have hprod : p.width + p.height + 3 ≤ p.width * p.height := by nlinarith
  unfold roomDist
  rw [Int.toNat_ofNat]
  unfold iabs
  split_ifs <;> omega

/-- The free cells of the returned raster are the cells described by `FinalFree` on the raster
before the border-wall block. -/
theorem isFree_final (p : RandomParams) {m : GridMap} (hs : HasShape p.width p.height m)
    (c : Int × Int) :
    (if p.add_border_walls then addBorderWalls p m else m).isFree c.1 c.2 = true ↔
      FinalFree p m c := by
  rw [isFree_iff]
  unfold FinalFree Safe
  by_cases hb : p.add_border_walls = true
  · simp only [hb, if_true]
    have hp := addBorderWalls_paints p hs.2.2
    have hsh := hp.hasShape hs
    by_cases hbc : BorderCells p c.1 c.2
    · have hnot : ¬ (1 ≤ c.1 ∧ c.1 ≤ p.width - 1 - 1 ∧ 1 ≤ c.2 ∧ c.2 ≤ p.height - 1 - 1) := by
        unfold BorderCells at hbc; omega
      constructor
      · rintro ⟨hin, h0⟩
        have h1 : (addBorderWalls p m).at_ c.1 c.2 = 1 := by
          simpa [clamp01] using (hp.2.2.2 c.1 c.2).1 hbc ((hp.inBounds _ _).1 hin)
        rw [h1] at h0
        exact absurd h0 (by decide)
      · rintro ⟨h, _⟩; exact absurd h hnot
    · rw [(hp.2.2.2 c.1 c.2).2 hbc]
      unfold InBounds
      rw [hsh.1, hsh.2.1]
      unfold BorderCells at hbc
      constructor
      · rintro ⟨hin, h0⟩; exact ⟨by omega, h0⟩
      · rintro ⟨h, h0⟩; exact ⟨by omega, h0⟩
  · simp only [hb, Bool.false_eq_true, if_false]
    unfold InBounds
    rw [hs.1, hs.2.1]
    constructor
    · rintro ⟨hin, h0⟩; exact ⟨by omega, h0⟩
    · rintro ⟨h, h0⟩; exact ⟨by omega, h0⟩

theorem axis_neighbour (conn : Connectivity) (a b : Int × Int)
    (h : iabs (b.1 - a.1) + iabs (b.2 - a.2) = 1) : Neighbour conn a b := by
  have h4 : (b.1 - a.1, b.2 - a.2) ∈ dirs4 := by
    unfold iabs at h
    have hc : (b.1 - a.1 = 1 ∧ b.2 - a.2 = 0) ∨ (b.1 - a.1 = -1 ∧ b.2 - a.2 = 0) ∨
        (b.1 - a.1 = 0 ∧ b.2 - a.2 = 1) ∨ (b.1 - a.1 = 0 ∧ b.2 - a.2 = -1) := by
      split_ifs at h <;> omega
    rcases hc with ⟨h1, h2⟩ | ⟨h1, h2⟩ | ⟨h1, h2⟩ | ⟨h1, h2⟩ <;> rw [h1, h2] <;> simp [dirs4]
  unfold Neighbour dirs
  split
  · have h8 : dirs8 = dirs4 ++ [((1 : Int), (1 : Int)), (1, -1), (-1, 1), (-1, -1)] := rfl
    rw [h8]
    exact List.mem_append_left _ h4
  · exact h4

/-! ### The fuel of `carve_line` is enough whenever its loop terminates -/

theorem carveLineLoop_mono (p : RandomParams) (bx by_ dx dy : Int) :
    ∀ (n : Nat) (m : GridMap) (ax ay : Int) (r : GridMap),
      carveLineLoop p bx by_ dx dy n m ax ay = some r →
      ∀ k : Nat, n ≤ k → carveLineLoop p bx by_ dx dy k m ax ay = some r := by
  intro n
  induction n with
  | zero => intro m ax ay r h; simp [carveLineLoop] at h
  | succ n ih =>
    intro m ax ay r h k hk
    obtain ⟨k', rfl⟩ : ∃ k', k = k' + 1 := ⟨k - 1, by omega⟩
    rw [carveLineLoop] at h ⊢
    split at h
    · rename_i hc
      rw [if_pos hc]
      exact ih _ _ _ _ h k' (by omega)
    · rename_i hc
      rw [if_neg hc]
      exact h

/-- A terminating run of the loop reaches `(bx, by)` after some number `k` of steps and needs
`k + 1` units of fuel. -/
theorem carveLineLoop_steps (p : RandomParams) (bx by_ dx dy : Int) :
    ∀ (n : Nat) (m : GridMap) (ax ay : Int) (r : GridMap),
      carveLineLoop p bx by_ dx dy n m ax ay = some r →
      ∃ k : Nat, k < n ∧ bx = ax + k * dx ∧ by_ = ay + k * dy ∧
        (0 < k → ax ≠ bx ∨ ay ≠ by_) ∧
        carveLineLoop p bx by_ dx dy (k + 1) m ax ay = some r := by
  intro n
  induction n with
  | zero => intro m ax ay r h; simp [carveLineLoop] at h
  | succ n ih =>
    intro m ax ay r h
    rw [carveLineLoop] at h
    split at h
    · rename_i hc
      obtain ⟨k, hk, hx, hy, _, hrun⟩ := ih _ _ _ _ h
      refine ⟨k + 1, by omega, by rw [hx]; push_cast; ring, by rw [hy]; push_cast; ring,
        fun _ => hc, ?_⟩
      rw [carveLineLoop, if_pos hc]
      exact hrun
    · rename_i hc
      have hc' : ax = bx ∧ ay = by_ := by
        constructor
        · by_contra hne; exact hc (Or.inl hne)
        · by_contra hne; exact hc (Or.inr hne)
      refine ⟨0, by omega, by simp [hc'.1], by simp [hc'.2], fun h0 => absurd h0 (by omega), ?_⟩
      rw [carveLineLoop, if_neg hc]
      exact h

/-- Whenever the loop of `carve_line` terminates (some fuel makes it return `r`), the fuel
`|bx-ax| + |by-ay| + 1` built into `carve_line` makes it return `r` as well. -/
theorem carveLineLoop_fuel (p : RandomParams) (m : GridMap) (ax ay bx by_ : Int) (fuel : Nat)
    (r : GridMap)
    (h : carveLineLoop p bx by_ (stepDir ax bx) (stepDir ay by_) fuel m ax ay = some r) :
    carve_line p m ax ay bx by_ = some r := by
  obtain ⟨k, _, hx, hy, hne, hrun⟩ := carveLineLoop_steps p bx by_ _ _ fuel m ax ay r h
  unfold carve_line
  simp only
  refine carveLineLoop_mono p bx by_ _ _ (k + 1) m ax ay r hrun _ ?_
  have h1 := iabs_nonneg (bx - ax)
  have h2 := iabs_nonneg (by_ - ay)
  rcases Nat.eq_zero_or_pos k with hk0 | hkp
  · omega
  · have hk : (k : Int) ≤ iabs (bx - ax) + iabs (by_ - ay) := by
      rcases hne hkp with hnx | hny
      · have : (k : Int) = iabs (bx - ax) := by
          unfold stepDir at hx
          unfold iabs
          split_ifs at hx ⊢ <;> simp only [mul_one, mul_neg, mul_zero] at hx <;> omega
        omega
      · have : (k : Int) = iabs (by_ - ay) := by
          unfold stepDir at hy
          unfold iabs
          split_ifs at hy ⊢ <;> simp only [mul_one, mul_neg, mul_zero] at hy <;> omega
        omega
    omega

/-! ### Binary cells -/

theorem binary_new (w h : Int) {fill : Nat} (hf : fill = 0 ∨ fill = 1) :
    (GridMap.new w h fill).Binary := by
  intro v hv
  unfold GridMap.new at hv
  rw [List.eq_of_mem_replicate hv]
  exact hf

theorem clamp01_binary (v : Nat) : clamp01 v = 0 ∨ clamp01 v = 1 := by
  unfold clamp01; split
  · exact Or.inr rfl
  · exact Or.inl rfl

theorem binary_set {m : GridMap} (hb : m.Binary) (x y : Int) (v : Nat) :
    (m.set x y v).Binary := by
  unfold GridMap.set
  split
  · exact hb
  · intro w hw
    rcases List.mem_or_eq_of_mem_set hw with h | h
    · exact hb w h
    · rw [h]; exact clamp01_binary v

theorem binary_clear (m : GridMap) (v : Nat) : (m.clear v).Binary := by
  intro w hw
  unfold GridMap.clear at hw
  rw [List.eq_of_mem_replicate hw]
  exact clamp01_binary v

theorem binary_rectangle {m : GridMap} (hb : m.Binary) (x0 y0 w h : Int) (v : Nat)
    (filled : Bool) : (m.rectangle x0 y0 w h v filled).Binary := by
  unfold rectangle
  simp only
  split
  · exact forLe_inv Binary
      (fun y m hm => forLe_inv Binary (fun x m hm => binary_set hm x y v) _ _ m hm) _ _ m hb
  · exact forLe_inv Binary (fun y m hm => binary_set (binary_set hm _ _ v) _ _ v) _ _ _
      (forLe_inv Binary (fun x m hm => binary_set (binary_set hm _ _ v) _ _ v) _ _ m hb)

/-- For `w ≥ 1` and `h ≥ 1` the outline branch of `rectangle` paints exactly the perimeter of
the range `[x0, x0+w-1] × [y0, y0+h-1]`. -/
theorem rectangle_outline_perimeter {m : GridMap} (hs : m.Sized) (x0 y0 w h : Int) (v : Nat)
    (hw : 1 ≤ w) (hh : 1 ≤ h) :
    Paints m (m.rectangle x0 y0 w h v false) (fun _ _ => v)
      (fun x y => (x0 ≤ x ∧ x ≤ x0 + w - 1 ∧ y0 ≤ y ∧ y ≤ y0 + h - 1) ∧
        (x = x0 ∨ x = x0 + w - 1 ∨ y = y0 ∨ y = y0 + h - 1)) := by
  refine (rectangle_outline_paints hs x0 y0 w h v).congr (fun x y => ?_)
  constructor
  · rintro (⟨h1, h2, h3 | h3⟩ | ⟨h1, h2, h3 | h3⟩)
    · exact ⟨⟨h1, h2, by omega, by omega⟩, Or.inr (Or.inr (Or.inl h3))⟩
    · exact ⟨⟨h1, h2, by omega, by omega⟩, Or.inr (Or.inr (Or.inr h3))⟩
    · exact ⟨⟨by omega, by omega, h1, h2⟩, Or.inl h3⟩
    · exact ⟨⟨by omega, by omega, h1, h2⟩, Or.inr (Or.inl h3)⟩
  · rintro ⟨⟨h1, h2, h3, h4⟩, h5 | h5 | h5 | h5⟩
    · exact Or.inr ⟨h3, h4, Or.inl h5⟩
    · exact Or.inr ⟨h3, h4, Or.inr h5⟩
    · exact Or.inl ⟨h1, h2, Or.inl h5⟩
    · exact Or.inl ⟨h1, h2, Or.inr h5⟩

theorem plot8_inv (P : GridMap → Prop) (hset : ∀ m x y v, P m → P (GridMap.set m x y v))
    (m : GridMap) (cx cy : Int) (v : Nat) (filled : Bool) (px py : Int) (h : P m) :
    P (plot8 m cx cy v filled px py) := by
  unfold plot8
  split
  · exact forLe_inv P (fun ix m hm => hset _ _ _ _ (hset _ _ _ _ hm)) _ _ m h
  · exact hset _ _ _ _ (hset _ _ _ _ (hset _ _ _ _ (hset _ _ _ _ (hset _ _ _ _
      (hset _ _ _ _ (hset _ _ _ _ (hset _ _ _ _ h)))))))

/-- The circle loop stops: `x - y` drops by at least one in every iteration, so any fuel above
`x - y + 1` gives the same result, and an invariant of `set` holds of it. -/
theorem circleLoop_total (P : GridMap → Prop)
    (hset : ∀ m x y v, P m → P (GridMap.set m x y v)) (cx cy : Int) (v : Nat) (filled : Bool) :
    ∀ (k : Nat) (m : GridMap) (x y err : Int), (x - y + 1).toNat ≤ k → P m →
      ∃ m' : GridMap, P m' ∧
        ∀ fuel : Nat, k < fuel → circleLoop cx cy v filled fuel m x y err = some m' := by
  intro k
  induction k with
  | zero =>
    intro m x y err hk hm
    refine ⟨m, hm, fun fuel hf => ?_⟩
    obtain ⟨f, rfl⟩ : ∃ f, fuel = f + 1 := ⟨fuel - 1, by omega⟩
    have hxy : ¬ x ≥ y := by omega
    simp only [circleLoop, if_neg hxy]
  | succ k ih =>
    intro m x y err hk hm
    by_cases hxy : x ≥ y
    · obtain ⟨m', hm', hrun⟩ := ih (plot8 m cx cy v filled x y)
        (if (if err ≤ 0 then err + (2 * (y + 1) + 1) else err) > 0 then x - 1 else x) (y + 1)
        (if (if err ≤ 0 then err + (2 * (y + 1) + 1) else err) > 0 then
          (if err ≤ 0 then err + (2 * (y + 1) + 1) else err) -
            (2 * (if (if err ≤ 0 then err + (2 * (y + 1) + 1) else err) > 0 then x - 1 else x) + 1)
          else (if err ≤ 0 then err + (2 * (y + 1) + 1) else err))
        (by split <;> omega) (plot8_inv P hset m cx cy v filled x y hm)
      refine ⟨m', hm', fun fuel hf => ?_⟩
      obtain ⟨f, rfl⟩ : ∃ f, fuel = f + 1 := ⟨fuel - 1, by omega⟩
      simp only [circleLoop, if_pos hxy]
      exact hrun f (by omega)
    · refine ⟨m, hm, fun fuel hf => ?_⟩
      obtain ⟨f, rfl⟩ : ∃ f, fuel = f + 1 := ⟨fuel - 1, by omega⟩
      simp only [circleLoop, if_neg hxy]

theorem circle_total (P : GridMap → Prop)
    (hset : ∀ m x y v, P m → P (GridMap.set m x y v)) (m : GridMap) (cx cy r : Int) (v : Nat)
    (filled : Bool) (hm : P m) :
    ∃ m' : GridMap, P m' ∧
      ∀ fuel : Nat, (r + 1).toNat < fuel → m.circle fuel cx cy r v filled = some m' := by
  obtain ⟨m', h1, h2⟩ := circleLoop_total P hset cx cy v filled (r + 1).toNat m r 0 0
    (by omega) hm
  exact ⟨m', h1, fun fuel hf => h2 fuel hf⟩

theorem circle_zero_filled (m : GridMap) (cx cy : Int) (v : Nat) (fuel : Nat) :
    m.circle (fuel + 2) cx cy 0 v true = some ((m.set cx cy v).set cx cy v) := by
  simp [circle, circleLoop, plot8, forLe, loopN]

theorem preserved_refl (m : GridMap) : Preserved m m := ⟨rfl, rfl, rfl⟩

theorem preserved_set {m0 m : GridMap} (h : Preserved m0 m) (x y : Int) (v : Nat) :
    Preserved m0 (m.set x y v) :=
  ⟨by rw [set_width, h.1], by rw [set_height, h.2.1], by rw [set_length, h.2.2]⟩

/-- The line loop stops for every pair of end points, and its result is the fold of `set` over
the cells it visited. -/
theorem line_total (m : GridMap) (x0 y0 x1 y1 : Int) (v : Nat) :
    ∃ cells : List (Int × Int),
      ∀ fuel : Nat, iabs (x1 - x0) + iabs (y1 - y0) < fuel →
        m.line fuel x0 y0 x1 y1 v = some (cells.foldl (fun m c => m.set c.1 c.2 v) m, cells) := by
  have hsx : (if x0 < x1 then (1 : Int) else -1) = 1 ∨ (if x0 < x1 then (1 : Int) else -1) = -1 := by
    split <;> simp
  have hsy : (if y0 < y1 then (1 : Int) else -1) = 1 ∨ (if y0 < y1 then (1 : Int) else -1) = -1 := by
    split <;> simp
  have hdx : 0 ≤ iabs (x1 - x0) := by unfold iabs; split <;> omega
  have hdy : 0 ≤ iabs (y1 - y0) := by unfold iabs; split <;> omega
  have hx : x1 = x0 + (if x0 < x1 then (1 : Int) else -1) * iabs (x1 - x0) := by
    unfold iabs; split <;> split <;> omega
  have hy : y1 = y0 + (if y0 < y1 then (1 : Int) else -1) * iabs (y1 - y0) := by
    unfold iabs; split <;> split <;> omega
  obtain ⟨cells, hrun, -⟩ :=
    lineLoop_spec v x1 y1 (iabs (x1 - x0)) (iabs (y1 - y0)) _ _ hsx hsy
      (iabs (x1 - x0) + iabs (y1 - y0) + 1).toNat m x0 y0
      (iabs (x1 - x0) + -iabs (y1 - y0)) (iabs (x1 - x0)) (iabs (y1 - y0))
      hdx hdy (by omega) (le_refl _) (le_refl _) hx hy (by ring)
  exact ⟨cells, fun fuel hf => lineLoop_mono _ _ _ _ _ _ _ _ _ _ _ _ _ hrun fuel (by omega)⟩

theorem preserved_foldl_set (v : Nat) :
    ∀ (cells : List (Int × Int)) (m0 m : GridMap), Preserved m0 m →
      Preserved m0 (cells.foldl (fun m c => m.set c.1 c.2 v) m)
  | [], _, _, h => h
  | c :: cs, m0, _, h => preserved_foldl_set v cs m0 _ (preserved_set h c.1 c.2 v)

theorem growClusters_hasShape {W H : Int} {m : GridMap} (h : HasShape W H m) (n : Int)
    (c : Connectivity) : HasShape W H (growClusters m n c) := by
  unfold growClusters
  split
  · exact h
  · have hout : HasShape W H (GridMap.new m.width m.height 0) := by
      rw [h.1, h.2.1]; exact new_hasShape W H 0
    exact (forLt_inv (fun s : GridMap × GridMap => HasShape W H s.1 ∧ HasShape W H s.2)
      (fun _ s hs => ⟨clusterPass_hasShape c hs.2, clusterPass_hasShape c hs.2⟩) 0 n
      (m, GridMap.new m.width m.height 0) ⟨h, hout⟩).1

theorem savePGM_zero_raster :
    savePGM (GridMap.new 0 0 0) true = [80, 53, 10, 48, 32, 48, 10, 50, 53, 53, 10] := by
  have h0 : natDigits 0 = [48] := by rw [natDigits]; simp
  rw [savePGM_binary_eq _ (by decide) (by decide)]
  simp [GridMap.new, h0, scanCells]

theorem loadPGM_zero_raster (indet : Int) (indetByte : Nat) :
    loadPGM indet indetByte ⟨[80, 53, 10, 48, 32, 48, 10, 50, 53, 53, 10], false⟩ =
      GridMap.empty := by
  rw [← savePGM_zero_raster, loadPGM_savePGM_eq _ _ _ _ (by decide) (by decide)]
  decide

theorem clusterStep_hasShape (m : GridMap) (c : Connectivity) :
    HasShape m.width m.height (clusterStep m c) :=
  clusterPass_hasShape c (new_hasShape m.width m.height 0)

theorem at_clusterPass_dims {m o : GridMap} (conn : Connectivity) (ho : o.Sized)
    (hw : o.width = m.width) (hh : o.height = m.height) (x y : Int) (hin : m.InBounds x y) :
    (clusterPass m o conn).at_ x y = clusterRule m conn x y := by
  have hp := clusterPass_paints (m := m) conn ho
  have hin' : o.InBounds x y := by
    unfold InBounds at hin ⊢; rw [hw, hh]; exact hin
  rw [(hp.2.2.2 x y).1 ⟨hin.1, hin.2.2.1, hin.2.1, hin.2.2.2⟩ hin', clamp01_clusterRule]

theorem at_clusterStep (m : GridMap) (c : Connectivity) (x y : Int) (hin : m.InBounds x y) :
    (clusterStep m c).at_ x y = clusterRule m c x y := by
  unfold clusterStep
  exact at_clusterPass_dims (m := m) (o := GridMap.new m.width m.height 0) c
    (new_sized _ _ _) rfl rfl x y hin

/-- Two rasters of the same dimensions, not both negative, that hold `width*height` cells and
agree on every in-bounds cell are equal. -/
theorem raster_ext {W H : Int} {a b : GridMap} (ha : HasShape W H a) (hb : HasShape W H b)
    (hWH : 0 ≤ W ∨ 0 ≤ H) (h : ∀ x y : Int, a.InBounds x y → a.at_ x y = b.at_ x y) : a = b := by
  obtain ⟨haw, hah, has⟩ := ha
  obtain ⟨hbw, hbh, hbs⟩ := hb
  have hla : a.data.length = (W * H).toNat := by rw [has, haw, hah]
  have hlb : b.data.length = (W * H).toNat := by rw [hbs, hbw, hbh]
  have hdata : a.data = b.data := by
    apply List.ext_getElem (by rw [hla, hlb])
    intro i h1 h2
    have hi : (i : Int) < W * H := by omega
    have hWpos : 0 < W := by
      rcases hWH with hW | hH
      · rcases eq_or_lt_of_le hW with h0 | h0
        · rw [← h0] at hi; simp at hi; omega
        · exact h0
      · by_contra hneg
        have : W * H ≤ 0 := Int.mul_nonpos_of_nonpos_of_nonneg (by omega) hH
        omega
    have hx0 : 0 ≤ (i : Int) % W := Int.emod_nonneg _ (by omega)
    have hx1 : (i : Int) % W < W := Int.emod_lt_of_pos _ hWpos
    have hy0 : 0 ≤ (i : Int) / W := Int.ediv_nonneg (by omega) (by omega)
    have hdm : W * ((i : Int) / W) + (i : Int) % W = i := Int.ediv_add_emod _ _
    have hy1 : (i : Int) / W < H := by
      by_contra hge
      have : W * H ≤ W * ((i : Int) / W) := Int.mul_le_mul_of_nonneg_left (by omega) (by omega)
      omega
    have hin : a.InBounds ((i : Int) % W) ((i : Int) / W) := by
      unfold InBounds; rw [haw, hah]; exact ⟨hx0, hy0, hx1, hy1⟩
    have hin' : b.InBounds ((i : Int) % W) ((i : Int) / W) := by
      unfold InBounds; rw [hbw, hbh]; exact ⟨hx0, hy0, hx1, hy1⟩
    have hidx : idx ((i : Int) % W) ((i : Int) / W) W = i := by
      unfold idx
      have : (i : Int) / W * W + (i : Int) % W = i := by rw [Int.mul_comm]; exact hdm
      rw [this]; simp
    have := h _ _ hin
    unfold at_ at this
    rw [(oob_eq_false_iff a _ _).2 hin, (oob_eq_false_iff b _ _).2 hin', haw, hbw, hidx] at this
    simp only [Bool.false_eq_true, if_false] at this
    rw [List.getD_eq_getElem _ _ h1, List.getD_eq_getElem _ _ h2] at this
    exact this
  cases a; cases b
  simp only at haw hah hbw hbh hdata
  subst haw hah hdata
  simp [hbw, hbh]

theorem clusterPass_degenerate {m out : GridMap} (c : Connectivity)
    (h : m.width ≤ 0 ∨ m.height ≤ 0) : clusterPass m out c = out := by
  unfold clusterPass forLt
  rcases h with h | h
  · apply loopN_id
    intro i s
    have : (m.width - 0).toNat = 0 := by omega
    rw [this]; rfl
  · have : (m.height - 0).toNat = 0 := by omega
    rw [this]; rfl

/-- The buffer `out` that `growClusters` reuses across passes does not influence a pass: every
in-bounds cell is overwritten. -/
theorem clusterPass_self {a : GridMap} (c : Connectivity) (hs : a.Sized)
    (hdeg : a.width < 0 → a.height < 0 → a = GridMap.new a.width a.height 0) :
    clusterPass a a c = clusterStep a c := by
  by_cases hWH : 0 ≤ a.width ∨ 0 ≤ a.height
  · have h1 : HasShape a.width a.height (clusterPass a a c) :=
      clusterPass_hasShape c ⟨rfl, rfl, hs⟩
    refine raster_ext h1 (clusterStep_hasShape a c) hWH (fun x y hin => ?_)
    have hin' : a.InBounds x y := by
      unfold InBounds at hin ⊢; rw [h1.1, h1.2.1] at hin; exact hin
    rw [at_clusterPass_dims c hs rfl rfl x y hin', at_clusterStep a c x y hin']
  · have hw : a.width < 0 := by omega
    have hh : a.height < 0 := by omega
    unfold clusterStep
    rw [clusterPass_degenerate c (Or.inl (by omega)), clusterPass_degenerate c (Or.inl (by omega))]
    exact hdeg hw hh

theorem clusterStep_good (a : GridMap) (c : Connectivity) :
    (clusterStep a c).Sized ∧
    ((clusterStep a c).width < 0 → (clusterStep a c).height < 0 →
      clusterStep a c = GridMap.new (clusterStep a c).width (clusterStep a c).height 0) := by
  have hsh := clusterStep_hasShape a c
  refine ⟨hsh.2.2, fun hw _ => ?_⟩
  rw [hsh.1, hsh.2.1]
  unfold clusterStep
  rw [clusterPass_degenerate c (Or.inl (by rw [hsh.1] at hw; omega))]

theorem growLoop_iterate (c : Connectivity) :
    ∀ (k : Nat) (lo : Int) (a : GridMap), a.Sized →
      (a.width < 0 → a.height < 0 → a = GridMap.new a.width a.height 0) →
      loopN k lo (fun _ (s : GridMap × GridMap) =>
        (clusterPass s.1 s.2 c, clusterPass s.1 s.2 c)) (a, a) =
        ((fun a => clusterStep a c)^[k] a, (fun a => clusterStep a c)^[k] a)
  | 0, _, _, _, _ => rfl
  | k + 1, lo, a, hs, hdeg => by
    rw [loopN]
    simp only
    rw [clusterPass_self c hs hdeg,
      growLoop_iterate c k (lo + 1) (clusterStep a c) (clusterStep_good a c).1
        (clusterStep_good a c).2]
    rfl

theorem growClusters_eq_iterate (m : GridMap) (n : Int) (c : Connectivity) :
    growClusters m n c = if n ≤ 0 then m else (fun a => clusterStep a c)^[n.toNat] m := by
  unfold growClusters
  split
  · rfl
  · rename_i hn
    obtain ⟨k, hk⟩ : ∃ k : Nat, (n - 0).toNat = k + 1 := ⟨(n - 0).toNat - 1, by omega⟩
    have hk' : n.toNat = k + 1 := by omega
    have hrun : ∀ (b : Int → GridMap × GridMap → GridMap × GridMap) (s : GridMap × GridMap),
        forLt 0 n b s = loopN k (0 + 1) b (b 0 s) := by
      intro b s
      unfold forLt
      rw [hk]
      rfl
    simp only
    rw [hrun, hk']
    have := growLoop_iterate c k (0 + 1) (clusterStep m c) (clusterStep_good m c).1
      (clusterStep_good m c).2
    unfold clusterStep at this ⊢
    rw [this]
    rfl

theorem clusterStep_four_keeps_free (a : GridMap) (x y : Int) (h : a.isFree x y = true) :
    (clusterStep a Connectivity.Four).isFree x y = true := by
  have hin := ((isFree_iff a x y).1 h).1
  have hsh := clusterStep_hasShape a Connectivity.Four
  rw [isFree_iff]
  refine ⟨by unfold InBounds at hin ⊢; rw [hsh.1, hsh.2.1]; exact hin, ?_⟩
  rw [at_clusterStep a _ x y hin]
  unfold clusterRule
  have hle : neighbourCount a (dirs Connectivity.Four) x y ≤ 4 := by
    rw [neighbourCount_eq_filter]
    exact le_trans (List.length_filter_le _ _) (by decide)
  simp only [h, Bool.not_true, Bool.false_eq_true, if_false]
  rw [if_neg (by omega)]

theorem iterate_four_keeps_free (x y : Int) :
    ∀ (k : Nat) (a : GridMap), a.isFree x y = true →
      ((fun a => clusterStep a Connectivity.Four)^[k] a).isFree x y = true
  | 0, _, h => h
  | k + 1, a, h => by
    rw [Function.iterate_succ_apply]
    exact iterate_four_keeps_free x y k _ (clusterStep_four_keeps_free a x y h)

theorem drawRoom_pos (p : RandomParams) (rng : Rng) : (drawRoom p rng).2.pos = rng.pos + 4 := by
  simp [drawRoom, uniformInt, Rng.next]

theorem rectDisjoint_of_not_overlaps {r q : Rect} (h : overlaps r q = false) :
    RectDisjoint q r := by
  intro c hc
  obtain ⟨⟨q1, q2, q3, q4⟩, r1, r2, r3, r4⟩ := hc
  have : overlaps r q = true := by
    simp only [overlaps, Bool.and_eq_true, decide_eq_true_eq]
    exact ⟨⟨⟨by omega, by omega⟩, by omega⟩, by omega⟩
  rw [h] at this
  exact absurd this (by decide)

/-- The placement loop: the attempts it makes are bounded by the initial value of `tries`
(each attempt takes four draws from the engine), it never lets the list grow beyond
`num_rooms`, and it keeps the accepted rooms pairwise disjoint. -/
theorem placeRooms_bounds (p : RandomParams) :
    ∀ (tries : Nat) (rooms : List Rect) (m : GridMap) (rng : Rng),
      rooms.Pairwise RectDisjoint →
      (∃ k : Nat, k ≤ tries ∧ (placeRooms p tries rooms m rng).2.2.pos = rng.pos + 4 * k) ∧
      ((placeRooms p tries rooms m rng).1.length : Int) ≤ max (rooms.length : Int) p.num_rooms ∧
      (placeRooms p tries rooms m rng).1.Pairwise RectDisjoint
  | 0, rooms, m, rng, h => ⟨⟨0, le_refl _, rfl⟩, le_max_left _ _, h⟩
  | tries + 1, rooms, m, rng, h => by
    unfold placeRooms
    split
    · rename_i hlt
      simp only
      split
      · obtain ⟨⟨k, hk, hpos⟩, hlen, hpw⟩ := placeRooms_bounds p tries rooms m (drawRoom p rng).2 h
        refine ⟨⟨k + 1, by omega, ?_⟩, hlen, hpw⟩
        rw [hpos, drawRoom_pos]; omega
      · rename_i hno
        have hpw' : (rooms ++ [(drawRoom p rng).1]).Pairwise RectDisjoint := by
          rw [List.pairwise_append]
          refine ⟨h, List.pairwise_singleton _ _, fun q hq r hr => ?_⟩
          rw [List.mem_singleton] at hr
          subst hr
          apply rectDisjoint_of_not_overlaps
          by_contra hov
          exact hno (List.any_eq_true.2 ⟨q, hq, by simpa using hov⟩)
        obtain ⟨⟨k, hk, hpos⟩, hlen, hpw⟩ := placeRooms_bounds p tries
          (rooms ++ [(drawRoom p rng).1])
          (carve_rect p m (drawRoom p rng).1.x (drawRoom p rng).1.y (drawRoom p rng).1.w
            (drawRoom p rng).1.h) (drawRoom p rng).2 hpw'
        refine ⟨⟨k + 1, by omega, ?_⟩, ?_, hpw⟩
        · rw [hpos, drawRoom_pos]; omega
        · rw [List.length_append, List.length_singleton] at hlen
          push_cast at hlen
          omega
    · exact ⟨⟨0, by omega, rfl⟩, le_max_left _ _, h⟩

set_option maxRecDepth 8000 in
theorem carve_line_sample :
    (carve_line { corridor_width := 2 } (GridMap.new 7 5 1) 1 2 4 2).map (fun m => m.data) =
      some [1, 1, 1, 1, 1, 1, 1,
            0, 0, 0, 0, 0, 1, 1,
            0, 0, 0, 0, 0, 1, 1,
            0, 0, 0, 0, 0, 1, 1,
            1, 1, 1, 1, 1, 1, 1] := by
  decide

/-- Re-rooting a forest. `q` is a parent map on the vertex set `U` whose chains leave `U`
(the rank drops along every parent link inside `U`), `d` is a symmetric weight and `u ∈ U`.
Reversing the chain from `u` to the vertex `a` whose parent lies outside `U` gives a parent
map on `U \ {u}` whose chains leave `U \ {u}`, and whose weight is that of `q` without the
link `(a, q a)`. -/
theorem forest_reroot (d : Nat → Nat → Int) (hsym : ∀ a b, d a b = d b a) (U : Finset Nat)
    (q : Nat → Nat) (rank : Nat → Nat)
    (hf : ∀ v ∈ U, q v ∈ U → rank (q v) < rank v) :
    ∀ (r u : Nat), u ∈ U → rank u ≤ r →
      ∃ (a : Nat) (q' : Nat → Nat) (rank' : Nat → Nat), a ∈ U ∧ q a ∉ U ∧
        (∀ v ∈ U.erase u, q' v ∈ U.erase u → rank' (q' v) < rank' v) ∧
        (∀ v, q' v = q v ∨ q' v ∈ U) ∧
        (∑ v ∈ U.erase u, d (q' v) v) + d (q a) a = ∑ v ∈ U, d (q v) v ∧
        (∀ v, rank u < rank v → q' v = q v) := by
  intro r
  induction r with
  | zero =>
    intro u hu hr
    have hq : q u ∉ U := fun h => by have := hf u hu h; omega
    exact ⟨u, q, rank, hu, hq, fun v hv hqv => hf v (Finset.mem_of_mem_erase hv)
      (Finset.mem_of_mem_erase hqv), fun v => Or.inl rfl,
      Finset.sum_erase_add U (fun v => d (q v) v) hu, fun v _ => rfl⟩
  | succ r ih =>
    intro u hu hr
    by_cases hq : q u ∈ U
    · have hlt := hf u hu hq
      obtain ⟨a, q1, rank1, ha, hqa, hf1, hR1, hcost1, hag1⟩ := ih (q u) hq (by omega)
      have hq1u : q1 u = q u := hag1 u hlt
      have hne : u ≠ q u := fun h => by rw [← h] at hlt; exact lt_irrefl _ hlt
      refine ⟨a, Function.update q1 (q u) u, fun v => if v = q u then 0 else rank1 v + 1,
        ha, hqa, ?_, ?_, ?_, ?_⟩
      · intro v hv hqv
        by_cases hvw : v = q u
        · subst hvw
          rw [Function.update_same] at hqv
          exact absurd rfl (Finset.ne_of_mem_erase hqv)
        · rw [Function.update_noteq hvw] at hqv ⊢
          simp only [if_neg hvw]
          by_cases h1 : q1 v = q u
          · rw [if_pos h1]; omega
          · rw [if_neg h1]
            have := hf1 v (Finset.mem_erase.2 ⟨hvw, Finset.mem_of_mem_erase hv⟩)
              (Finset.mem_erase.2 ⟨h1, Finset.mem_of_mem_erase hqv⟩)
            omega
      · intro v
        by_cases hvw : v = q u
        · subst hvw; rw [Function.update_same]; exact Or.inr hu
        · rw [Function.update_noteq hvw]; exact hR1 v
      · have hw_in : q u ∈ U.erase u := Finset.mem_erase.2 ⟨fun h => hne h.symm, hq⟩
        have hu_in : u ∈ U.erase (q u) := Finset.mem_erase.2 ⟨hne, hu⟩
        have e1 := Finset.sum_erase_add (U.erase u)
          (fun v => d (Function.update q1 (q u) u v) v) hw_in
        have e2 := Finset.sum_erase_add (U.erase (q u)) (fun v => d (q1 v) v) hu_in
        have e3 : ∑ v ∈ (U.erase u).erase (q u), d (Function.update q1 (q u) u v) v =
            ∑ v ∈ (U.erase (q u)).erase u, d (q1 v) v := by
          rw [Finset.erase_right_comm]
          apply Finset.sum_congr rfl
          intro v hv
          have hv1 : v ≠ q u := Finset.ne_of_mem_erase (Finset.mem_of_mem_erase hv)
          rw [Function.update_noteq hv1]
        simp only [Function.update_same] at e1
        simp only [hq1u] at e2
        have := hsym u (q u)
        linarith
      · intro v hv
        have hvw : v ≠ q u := fun h => by rw [h] at hv; omega
        rw [Function.update_noteq hvw]
        exact hag1 v (by omega)
    · exact ⟨u, q, rank, hu, hq, fun v hv hqv => hf v (Finset.mem_of_mem_erase hv)
        (Finset.mem_of_mem_erase hqv), fun v => Or.inl rfl,
        Finset.sum_erase_add U (fun v => d (q v) v) hu, fun v _ => rfl⟩

theorem roomDist_comm (rooms : List Rect) (u v : Nat) :
    roomDist rooms (u : Int) v = roomDist rooms (v : Int) u := by
  unfold roomDist iabs
  simp only [Int.toNat_ofNat]
  split_ifs <;> omega

/-- The selection loop ends with `best` no larger than the key of any unmarked room. -/
theorem selectMin_le (st : PrimState) :
    ∀ n j : Nat, j < n → st.inMST.getD j false = false →
      (selectMin st n).2 ≤ st.key.getD j 0 := by
  intro n
  induction n with
  | zero => intro j hj; exact absurd hj (Nat.not_lt_zero _)
  | succ n ih =>
    intro j hj hm
    have hs : selectMin st (n + 1) =
        (if !st.inMST.getD n false && decide (st.key.getD n 0 < (selectMin st n).2) then
          ((n : Int), st.key.getD n 0) else selectMin st n) := by
      unfold selectMin
      rw [forIdx_succ]
    rw [hs]
    by_cases hc : (!st.inMST.getD n false && decide (st.key.getD n 0 < (selectMin st n).2)) = true
    · rw [if_pos hc]
      have hlt := ((not_and_decide_iff _ _).1 hc).2
      rcases Nat.lt_succ_iff_lt_or_eq.1 hj with h | h
      · exact le_trans (le_of_lt hlt) (ih j h hm)
      · subst h; exact le_refl _
    · rw [if_neg hc]
      rcases Nat.lt_succ_iff_lt_or_eq.1 hj with h | h
      · exact ih j h hm
      · subst h
        by_contra hlt
        exact hc ((not_and_decide_iff _ _).2 ⟨hm, by omega⟩)

/-- One iteration of the Prim loop on a state with an unmarked room: the room `u` it marks is
an unmarked room of least key, marked rooms and `u` keep their parent, and the optimality
invariant is kept. -/
theorem primStep_opt (rooms : List Rect)
    (hdist : ∀ u v : Nat, u < rooms.length → v < rooms.length →
      roomDist rooms (u : Int) v < INT32_MAX)
    (st : PrimState) (h : PrimOpt rooms st)
    (hex : ∃ i, i < rooms.length ∧ st.inMST.getD i false = false) :
    ∃ u : Nat, u < rooms.length ∧ st.inMST.getD u false = false ∧
      (∀ j, j < rooms.length → st.inMST.getD j false = false →
        st.key.getD u 0 ≤ st.key.getD j 0) ∧
      (∀ x, (primStep rooms st).inMST.getD x false =
        if x = u then true else st.inMST.getD x false) ∧
      (∀ x, x = u ∨ st.inMST.getD x false = true →
        (primStep rooms st).parent.getD x (-1) = st.parent.getD x (-1)) ∧
      PrimOpt rooms (primStep rooms st) := by
  obtain ⟨hpl, hkl, hml, h0, hO2, hO1, hO4⟩ := h
  rcases selectMin_spec st rooms.length with ⟨_, hall⟩ | ⟨u, hu, hsel, hum, huk⟩
  · obtain ⟨i, hi, hif⟩ := hex
    obtain ⟨s, hs, _, _, hkey⟩ := hO2 i hi hif
    exact absurd ⟨hif, by rw [hkey]; exact hdist s i hs hi⟩ (hall i hi)
  · have hmin : ∀ j, j < rooms.length → st.inMST.getD j false = false →
        st.key.getD u 0 ≤ st.key.getD j 0 := by
      intro j hj hjm
      have := selectMin_le st rooms.length j hj hjm
      rw [hsel] at this
      exact this
    have hstep : primStep rooms st =
        relax rooms (u : Int) rooms.length { st with inMST := st.inMST.set u true } := by
      unfold primStep
      rw [hsel]
      simp only [Int.toNat_ofNat]
    obtain ⟨rm, rpl, rkl, rv⟩ := relax_spec rooms (u : Int)
      { st with inMST := st.inMST.set u true } rooms.length hpl hkl rooms.length le_rfl
    simp only at rm rv
    have hmark : ∀ x, (st.inMST.set u true).getD x false =
        if x = u then true else st.inMST.getD x false := by
      intro x
      by_cases hx : x = u
      · subst hx; rw [if_pos rfl]; exact getD_set_eq _ _ _ _ (by omega)
      · rw [if_neg hx]; exact getD_set_ne _ _ _ _ _ (Ne.symm hx)
    have hkeep : ∀ x, (st.inMST.set u true).getD x false = true →
        (relax rooms (u : Int) rooms.length
          { st with inMST := st.inMST.set u true }).parent.getD x (-1) =
          st.parent.getD x (-1) := by
      intro x hx
      exact ((rv x).2 (fun h => by rw [hx] at h; exact absurd h.2.1 (by decide))).2
    have hmark' : ∀ x, (primStep rooms st).inMST.getD x false =
        if x = u then true else st.inMST.getD x false := by
      intro x; rw [hstep, rm]; exact hmark x
    have hkeep' : ∀ x, x = u ∨ st.inMST.getD x false = true →
        (primStep rooms st).parent.getD x (-1) = st.parent.getD x (-1) := by
      intro x hx
      rw [hstep]
      apply hkeep
      rw [hmark]
      rcases hx with hx | hx
      · rw [if_pos hx]
      · split
        · rfl
        · exact hx
    refine ⟨u, hu, hum, hmin, hmark', hkeep', ?_⟩
    have hrel : ∀ v, v < rooms.length → (primStep rooms st).inMST.getD v false = false →
        st.inMST.getD v false = false ∧ v ≠ u ∧
        ((roomDist rooms (u : Int) v < st.key.getD v 0 ∧
          (primStep rooms st).key.getD v 0 = roomDist rooms (u : Int) v ∧
          (primStep rooms st).parent.getD v (-1) = (u : Int)) ∨
         (st.key.getD v 0 ≤ roomDist rooms (u : Int) v ∧
          (primStep rooms st).key.getD v 0 = st.key.getD v 0 ∧
          (primStep rooms st).parent.getD v (-1) = st.parent.getD v (-1))) := by
      intro v hv hvm
      rw [hmark'] at hvm
      have hvu : v ≠ u := fun h => by rw [if_pos h] at hvm; exact absurd hvm (by decide)
      rw [if_neg hvu] at hvm
      refine ⟨hvm, hvu, ?_⟩
      have hvm' : (st.inMST.set u true).getD v false = false := by
        rw [hmark, if_neg hvu]; exact hvm
      rw [hstep]
      by_cases hlt : roomDist rooms (u : Int) v < st.key.getD v 0
      · exact Or.inl ⟨hlt, (rv v).1 ⟨hv, hvm', hlt⟩⟩
      · exact Or.inr ⟨by omega, (rv v).2 (fun h => hlt h.2.2)⟩
    have hum' : (primStep rooms st).inMST.getD u false = true := by
      rw [hmark', if_pos rfl]
    have hmono : ∀ s, st.inMST.getD s false = true →
        (primStep rooms st).inMST.getD s false = true := by
      intro s hs
      rw [hmark']
      split
      · rfl
      · exact hs
    refine ⟨by rw [hstep]; exact rpl, by rw [hstep]; exact rkl,
      by rw [hstep, rm]; simp [hml], hmono 0 h0, ?_, ?_, ?_⟩
    · intro v hv hvm
      obtain ⟨hvm0, hvu, hcase⟩ := hrel v hv hvm
      rcases hcase with ⟨_, hk, hp⟩ | ⟨_, hk, hp⟩
      · exact ⟨u, hu, hum', hp, hk⟩
      · obtain ⟨s, hs, hsm, hsp, hsk⟩ := hO2 v hv hvm0
        exact ⟨s, hs, hmono s hsm, by rw [hp]; exact hsp, by rw [hk]; exact hsk⟩
    · intro v hv hvm s hs hsm
      obtain ⟨hvm0, hvu, hcase⟩ := hrel v hv hvm
      rw [hmark'] at hsm
      by_cases hsu : s = u
      · subst hsu
        rcases hcase with ⟨_, hk, _⟩ | ⟨hle, hk, _⟩
        · rw [hk]
        · rw [hk]; exact hle
      · rw [if_neg hsu] at hsm
        have hold := hO1 v hv hvm0 s hs hsm
        rcases hcase with ⟨hlt, hk, _⟩ | ⟨_, hk, _⟩
        · rw [hk]; omega
        · rw [hk]; exact hold
    · intro v hv0 hv
      by_cases hvm : (primStep rooms st).inMST.getD v false = false
      · obtain ⟨hvm0, hvu, hcase⟩ := hrel v hv hvm
        rcases hcase with ⟨_, _, hp⟩ | ⟨_, _, hp⟩
        · exact ⟨u, hu, fun h => hvu h.symm, hp⟩
        · obtain ⟨s, hs, hne, hsp⟩ := hO4 v hv0 hv
          exact ⟨s, hs, hne, by rw [hp]; exact hsp⟩
      · have hvm1 : (primStep rooms st).inMST.getD v false = true := by
          cases hb : (primStep rooms st).inMST.getD v false
          · exact absurd hb hvm
          · rfl
        rw [hmark'] at hvm1
        obtain ⟨s, hs, hne, hsp⟩ := hO4 v hv0 hv
        refine ⟨s, hs, hne, ?_⟩
        rw [hkeep' v (by
          by_cases hvu : v = u
          · exact Or.inl hvu
          · rw [if_neg hvu] at hvm1; exact Or.inr hvm1)]
        exact hsp

theorem forIdx_const_succ {σ : Type} (f : σ → σ) :
    ∀ (k : Nat) (s : σ), forIdx (k + 1) (fun _ s => f s) s = forIdx k (fun _ s => f s) (f s)
  | 0, _ => rfl
  | k + 1, s => by
    rw [forIdx_succ, forIdx_const_succ f k s, forIdx_succ]

theorem mem_unmarkedSet (n : Nat) (st : PrimState) (v : Nat) :
    v ∈ unmarkedSet n st ↔ v < n ∧ st.inMST.getD v false = false := by
  simp [unmarkedSet]

theorem marked_of_not_mem (n : Nat) (st : PrimState) (v : Nat) (hv : v < n)
    (h : v ∉ unmarkedSet n st) : st.inMST.getD v false = true := by
  cases hb : st.inMST.getD v false
  · exact absurd ((mem_unmarkedSet n st v).2 ⟨hv, hb⟩) h
  · rfl

/-- The remaining iterations of the Prim loop from a state with `k + 1` unmarked rooms: the
invariant is kept, marked rooms keep their parent, and the parents the loop ends with weigh no
more on the unmarked rooms than any forest that hangs the unmarked rooms on the marked ones. -/
theorem prim_run (rooms : List Rect)
    (hdist : ∀ u v : Nat, u < rooms.length → v < rooms.length →
      roomDist rooms (u : Int) v < INT32_MAX) :
    ∀ (k : Nat) (st : PrimState), PrimOpt rooms st →
      (unmarkedSet rooms.length st).card = k + 1 →
      PrimOpt rooms (forIdx k (fun _ st => primStep rooms st) st) ∧
      (∀ x, st.inMST.getD x false = true →
        (forIdx k (fun _ st => primStep rooms st) st).parent.getD x (-1) =
          st.parent.getD x (-1)) ∧
      ∀ (q rank : Nat → Nat),
        (∀ v ∈ unmarkedSet rooms.length st, q v < rooms.length) →
        (∀ v ∈ unmarkedSet rooms.length st, q v ∈ unmarkedSet rooms.length st →
          rank (q v) < rank v) →
        ∑ v ∈ unmarkedSet rooms.length st,
            roomDist rooms ((forIdx k (fun _ st => primStep rooms st) st).parent.getD v (-1)) v ≤
          ∑ v ∈ unmarkedSet rooms.length st, roomDist rooms ((q v : Nat) : Int) v := by
  intro k
  induction k with
  | zero =>
    intro st hopt hcard
    refine ⟨hopt, fun x _ => rfl, fun q rank hq hf => ?_⟩
    obtain ⟨w, hw⟩ := Finset.card_eq_one.1 hcard
    have hwU : w ∈ unmarkedSet rooms.length st := by rw [hw]; exact Finset.mem_singleton_self w
    obtain ⟨hwn, hwm⟩ := (mem_unmarkedSet _ _ _).1 hwU
    obtain ⟨_, _, _, _, hO2, hO1, _⟩ := hopt
    obtain ⟨s, hs, hsm, hsp, hsk⟩ := hO2 w hwn hwm
    have hqw : q w ∉ unmarkedSet rooms.length st := by
      intro hin
      have hlt := hf w hwU hin
      rw [hw, Finset.mem_singleton] at hin
      rw [hin] at hlt
      exact lt_irrefl _ hlt
    have hqm := marked_of_not_mem _ _ _ (hq w hwU) hqw
    have := hO1 w hwn hwm (q w) (hq w hwU) hqm
    rw [hw, Finset.sum_singleton, Finset.sum_singleton]
    show roomDist rooms (st.parent.getD w (-1)) w ≤ _
    rw [hsp, ← hsk]
    exact this
  | succ k ih =>
    intro st hopt hcard
    have hne : (unmarkedSet rooms.length st).Nonempty := by
      rw [← Finset.card_pos]; omega
    obtain ⟨i, hi⟩ := hne
    obtain ⟨u, hu, hum, hmin, hmark, hkeep, hopt'⟩ := primStep_opt rooms hdist st hopt
      ⟨i, (mem_unmarkedSet _ _ _).1 hi⟩
    have huU : u ∈ unmarkedSet rooms.length st := (mem_unmarkedSet _ _ _).2 ⟨hu, hum⟩
    have hU' : unmarkedSet rooms.length (primStep rooms st) =
        (unmarkedSet rooms.length st).erase u := by
      ext v
      rw [Finset.mem_erase, mem_unmarkedSet, mem_unmarkedSet, hmark]
      by_cases hvu : v = u
      · simp [hvu]
      · simp [hvu]
    have hcard' : (unmarkedSet rooms.length (primStep rooms st)).card = k + 1 := by
      rw [hU', Finset.card_erase_of_mem huU]; omega
    obtain ⟨hfin, hstab, hcost⟩ := ih (primStep rooms st) hopt' hcard'
    rw [forIdx_const_succ]
    have hmono : ∀ x, st.inMST.getD x false = true →
        (primStep rooms st).inMST.getD x false = true := by
      intro x hx
      rw [hmark]
      split
      · rfl
      · exact hx
    refine ⟨hfin, fun x hx => ?_, fun q rank hq hf => ?_⟩
    · rw [hstab x (hmono x hx), hkeep x (Or.inr hx)]
    · obtain ⟨a, q', rank', haU, hqa, hf', hR, hsum, _⟩ :=
        forest_reroot (fun a b => roomDist rooms ((a : Nat) : Int) b)
          (fun a b => roomDist_comm rooms a b) (unmarkedSet rooms.length st) q rank hf
          (rank u) u huU le_rfl
      have hq' : ∀ v ∈ unmarkedSet rooms.length (primStep rooms st), q' v < rooms.length := by
        intro v hv
        rw [hU'] at hv
        rcases hR v with h | h
        · rw [h]; exact hq v (Finset.mem_of_mem_erase hv)
        · exact ((mem_unmarkedSet _ _ _).1 h).1
      have hrest := hcost q' rank' hq' (by rw [hU']; exact hf')
      rw [hU'] at hrest
      obtain ⟨_, _, _, _, hO2, hO1, _⟩ := hopt
      obtain ⟨s, hs, hsm, hsp, hsk⟩ := hO2 u hu hum
      obtain ⟨han, ham⟩ := (mem_unmarkedSet _ _ _).1 haU
      have hqam := marked_of_not_mem _ _ _ (hq a haU) hqa
      have h1 := hmin a han ham
      have h2 := hO1 a han ham (q a) (hq a haU) hqam
      have hfu : (forIdx k (fun _ st => primStep rooms st) (primStep rooms st)).parent.getD u
          (-1) = (s : Int) := by
        rw [hstab u (by rw [hmark, if_pos rfl]), hkeep u (Or.inl rfl), hsp]
      have hsplit := Finset.sum_erase_add (unmarkedSet rooms.length st)
        (fun v => roomDist rooms
          ((forIdx k (fun _ st => primStep rooms st) (primStep rooms st)).parent.getD v (-1)) v)
        huU
      simp only [hfu] at hsplit
      rw [← hsplit, ← hsum]
      rw [← hsk]
      linarith

/-- The first iteration of the Prim loop marks room 0 and hangs every other room on it. -/
theorem primFirst_opt (rooms : List Rect) (hn : 2 ≤ rooms.length)
    (hdist : ∀ u v : Nat, u < rooms.length → v < rooms.length →
      roomDist rooms (u : Int) v < INT32_MAX) :
    PrimOpt rooms (primStep rooms (primInit rooms.length)) ∧
    unmarkedSet rooms.length (primStep rooms (primInit rooms.length)) =
      Finset.Ico 1 rooms.length := by
  obtain ⟨hpl, hkl, hml, -, h0, -, -, -⟩ := primInit_inv rooms
  obtain ⟨hall0, hk0, hkv⟩ := h0 rfl
  rcases selectMin_spec (primInit rooms.length) rooms.length with ⟨_, hall⟩ | ⟨u, hu, hsel, hum, huk⟩
  · exact absurd ⟨hall0 0, by rw [hk0]; decide⟩ (hall 0 (by omega))
  · have hu0 : u = 0 := by
      by_contra hne
      rw [hkv u (by omega) hu] at huk
      exact lt_irrefl _ huk
    subst hu0
    have hstep : primStep rooms (primInit rooms.length) =
        relax rooms ((0 : Nat) : Int) rooms.length
          { primInit rooms.length with inMST := (primInit rooms.length).inMST.set 0 true } := by
      unfold primStep
      rw [hsel]
      simp only [Int.toNat_ofNat]
    obtain ⟨rm, rpl, rkl, rv⟩ := relax_spec rooms ((0 : Nat) : Int)
      { primInit rooms.length with inMST := (primInit rooms.length).inMST.set 0 true }
      rooms.length hpl hkl rooms.length le_rfl
    simp only at rm rv
    have hmark : ∀ x, (primStep rooms (primInit rooms.length)).inMST.getD x false =
        if x = 0 then true else false := by
      intro x
      rw [hstep, rm]
      by_cases hx : x = 0
      · subst hx; rw [if_pos rfl]; exact getD_set_eq _ _ _ _ (by omega)
      · rw [if_neg hx, getD_set_ne _ _ _ _ _ (Ne.symm hx)]; exact hall0 x
    have hupd : ∀ v, 0 < v → v < rooms.length →
        (primStep rooms (primInit rooms.length)).key.getD v 0 =
          roomDist rooms ((0 : Nat) : Int) v ∧
        (primStep rooms (primInit rooms.length)).parent.getD v (-1) = ((0 : Nat) : Int) := by
      intro v hv hvn
      rw [hstep]
      refine (rv v).1 ⟨hvn, ?_, ?_⟩
      · rw [getD_set_ne _ _ _ _ _ (by omega)]; exact hall0 v
      · rw [hkv v hv hvn]; exact hdist 0 v (by omega) hvn
    have hpos : ∀ v, (primStep rooms (primInit rooms.length)).inMST.getD v false = false →
        0 < v := by
      intro v hv
      rw [hmark] at hv
      by_contra h0
      rw [if_pos (by omega)] at hv
      exact absurd hv (by decide)
    have hzero : ∀ s, (primStep rooms (primInit rooms.length)).inMST.getD s false = true →
        s = 0 := by
      intro s hs
      rw [hmark] at hs
      by_contra h0
      rw [if_neg h0] at hs
      exact absurd hs (by decide)
    refine ⟨⟨by rw [hstep]; exact rpl, by rw [hstep]; exact rkl,
      by rw [hstep, rm]; simp [hml], by rw [hmark, if_pos rfl], ?_, ?_, ?_⟩, ?_⟩
    · intro v hv hvm
      exact ⟨0, by omega, by rw [hmark, if_pos rfl], (hupd v (hpos v hvm) hv).2,
        (hupd v (hpos v hvm) hv).1⟩
    · intro v hv hvm s _ hsm
      rw [hzero s hsm, (hupd v (hpos v hvm) hv).1]
    · intro v hv0 hv
      exact ⟨0, by omega, by omega, (hupd v hv0 hv).2⟩
    · ext v
      rw [mem_unmarkedSet, hmark, Finset.mem_Ico]
      by_cases hv : v = 0
      · simp [hv]
      · simp [hv]; omega

theorem rootPath_iterate {parent : List Int} {inMST : List Bool} {v : Nat}
    (h : RootPath parent inMST v) :
    ∃ k : Nat, (fun x : Nat => (parent.getD x (-1)).toNat)^[k] v = 0 := by
  induction h with
  | root => exact ⟨0, rfl⟩
  | step v u _ hp _ ih =>
    obtain ⟨k, hk⟩ := ih
    refine ⟨k + 1, ?_⟩
    rw [Function.iterate_succ_apply]
    simp only [hp, Int.toNat_ofNat]
    exact hk

set_option maxRecDepth 20000 in
theorem random_sample :
    GridMap.random { width := 5, height := 5, cluster_iterations := 1 }
        { raw := fun _ => 0, pos := 0 } =
      some ⟨5, 5, [1, 1, 1, 1, 1,
                   1, 1, 0, 1, 1,
                   1, 0, 0, 0, 1,
                   1, 1, 0, 1, 1,
                   1, 1, 1, 1, 1]⟩ ∧
    GridMap.random { width := 5, height := 5, cluster_iterations := 1, add_border_walls := false }
        { raw := fun _ => 0, pos := 0 } =
      some ⟨5, 5, [1, 0, 0, 0, 1,
                   0, 0, 0, 0, 0,
                   0, 0, 0, 0, 0,
                   0, 0, 0, 0, 0,
                   1, 0, 0, 0, 1]⟩ := by
  constructor <;> decide

set_option maxRecDepth 20000 in
theorem rooms_sample :
    genRoomsAndCorridors
        { width := 9, height := 5, num_rooms := 2, room_min_w := 1, room_min_h := 1,
          room_max_w := 1, room_max_h := 1, corridor_width := 1 }
        { raw := fun i => [0, 0, 0, 0, 0, 0, 6, 2, 1].getD i 0, pos := 0 } =
      some ⟨9, 5, [1, 1, 1, 1, 1, 1, 1, 1, 1,
                   1, 0, 1, 1, 1, 1, 1, 1, 1,
                   1, 0, 1, 1, 1, 1, 1, 1, 1,
                   1, 0, 0, 0, 0, 0, 0, 0, 1,
                   1, 1, 1, 1, 1, 1, 1, 1, 1]⟩ ∧
    2 ≤ (placeRooms
        { width := 9, height := 5, num_rooms := 2, room_min_w := 1, room_min_h := 1,
          room_max_w := 1, room_max_h := 1, corridor_width := 1 }
        ((2 : Int) * 10).toNat [] (GridMap.new 9 5 1)
        { raw := fun i => [0, 0, 0, 0, 0, 0, 6, 2, 1].getD i 0, pos := 0 }).1.length := by
  constructor <;> decide

theorem between_stepDir (a b x : Int) (h1 : min a b ≤ x) (h2 : x ≤ max a b) (hne : x ≠ b) :
    ∃ t : Nat, t < (iabs (b - a)).toNat ∧ x = a + (t : Int) * stepDir a b := by
  unfold stepDir iabs
  rcases lt_trichotomy a b with h | h | h
  · refine ⟨(x - a).toNat, ?_, ?_⟩
    · simp only [min_le_iff, le_max_iff] at h1 h2
      split_ifs <;> omega
    · simp only [min_le_iff, le_max_iff] at h1 h2
      split_ifs <;> omega
  · subst h
    simp only [min_self, max_self] at h1 h2
    exact absurd (le_antisymm h2 h1) hne
  · refine ⟨(a - x).toNat, ?_, ?_⟩
    · simp only [min_le_iff, le_max_iff] at h1 h2
      split_ifs <;> omega
    · simp only [min_le_iff, le_max_iff] at h1 h2
      split_ifs <;> omega

/-- The brush at a cell off the outer ring frees that cell and loses nothing that will be
free. -/
theorem brush_free (p : RandomParams) {m : GridMap} (hs : HasShape p.width p.height m)
    (hk : 0 ≤ p.corridor_width.tdiv 2) (q : Int × Int) (hq : Interior p q) :
    HasShape p.width p.height (brush p m q.1 q.2) ∧
    FinalFree p (brush p m q.1 q.2) q ∧
    (∀ c, FinalFree p m c → FinalFree p (brush p m q.1 q.2) c) := by
  have hp := brush_paints p hs.2.2 q.1 q.2
  obtain ⟨_, f2, f3, _⟩ := hp.finalFree (p := p) hs
  refine ⟨hp.hasShape hs, f3 q (interior_safe hq) ?_, f2⟩
  unfold InBox; simp only; omega

/-- A horizontal corridor leg frees every cell of its row from the start column up to, but not
including, the end column. -/
theorem leg_free_horizontal (p : RandomParams) (hk : 0 ≤ p.corridor_width.tdiv 2)
    (x0 x1 y : Int) (hx0 : 1 ≤ x0 ∧ x0 ≤ p.width - 2) (hx1 : 1 ≤ x1 ∧ x1 ≤ p.width - 2)
    (hy : 1 ≤ y ∧ y ≤ p.height - 2) (m : GridMap) (hs : HasShape p.width p.height m) :
    ∃ m', carve_line p m x0 y x1 y = some m' ∧ HasShape p.width p.height m' ∧
      (∀ c, FinalFree p m c → FinalFree p m' c) ∧
      ∀ x, min x0 x1 ≤ x → x ≤ max x0 x1 → x ≠ x1 → FinalFree p m' (x, y) := by
  obtain ⟨m', hrun, hsh, hmono, hleg⟩ := carve_line_horizontal p x0 y x1
    (fun m' t => HasShape p.width p.height m' ∧ (∀ c, FinalFree p m c → FinalFree p m' c) ∧
      ∀ i : Nat, i < t → FinalFree p m' (x0 + (i : Int) * stepDir x0 x1, y))
    (fun m' t ht hP => by
      obtain ⟨hsh, hmono, hleg⟩ := hP
      have hb := stepDir_between x0 x1 t (by omega)
      have hq : Interior p (x0 + (t : Int) * stepDir x0 x1, y) := by
        unfold Interior
        simp only [min_le_iff, le_max_iff] at hb
        simp only
        omega
      obtain ⟨b1, b2, b3⟩ := brush_free p hsh hk _ hq
      refine ⟨b1, fun c hc => b3 c (hmono c hc), fun i hi => ?_⟩
      rcases Nat.lt_succ_iff_lt_or_eq.1 hi with h | h
      · exact b3 _ (hleg i h)
      · subst h; exact b2)
    m ⟨hs, fun c hc => hc, fun i hi => absurd hi (Nat.not_lt_zero _)⟩
  refine ⟨m', hrun, hsh, hmono, fun x h1 h2 hne => ?_⟩
  obtain ⟨t, ht, rfl⟩ := between_stepDir x0 x1 x h1 h2 hne
  exact hleg t ht

/-- A vertical corridor leg frees every cell of its column from the start row up to, but not
including, the end row. -/
theorem leg_free_vertical (p : RandomParams) (hk : 0 ≤ p.corridor_width.tdiv 2)
    (x y0 y1 : Int) (hx : 1 ≤ x ∧ x ≤ p.width - 2) (hy0 : 1 ≤ y0 ∧ y0 ≤ p.height - 2)
    (hy1 : 1 ≤ y1 ∧ y1 ≤ p.height - 2) (m : GridMap) (hs : HasShape p.width p.height m) :
    ∃ m', carve_line p m x y0 x y1 = some m' ∧ HasShape p.width p.height m' ∧
      (∀ c, FinalFree p m c → FinalFree p m' c) ∧
      ∀ y, min y0 y1 ≤ y → y ≤ max y0 y1 → y ≠ y1 → FinalFree p m' (x, y) := by
  obtain ⟨m', hrun, hsh, hmono, hleg⟩ := carve_line_vertical p x y0 y1
    (fun m' t => HasShape p.width p.height m' ∧ (∀ c, FinalFree p m c → FinalFree p m' c) ∧
      ∀ i : Nat, i < t → FinalFree p m' (x, y0 + (i : Int) * stepDir y0 y1))
    (fun m' t ht hP => by
      obtain ⟨hsh, hmono, hleg⟩ := hP
      have hb := stepDir_between y0 y1 t (by omega)
      have hq : Interior p (x, y0 + (t : Int) * stepDir y0 y1) := by
        unfold Interior
        simp only [min_le_iff, le_max_iff] at hb
        simp only
        omega
      obtain ⟨b1, b2, b3⟩ := brush_free p hsh hk _ hq
      refine ⟨b1, fun c hc => b3 c (hmono c hc), fun i hi => ?_⟩
      rcases Nat.lt_succ_iff_lt_or_eq.1 hi with h | h
      · exact b3 _ (hleg i h)
      · subst h; exact b2)
    m ⟨hs, fun c hc => hc, fun i hi => absurd hi (Nat.not_lt_zero _)⟩
  refine ⟨m', hrun, hsh, hmono, fun y h1 h2 hne => ?_⟩
  obtain ⟨t, ht, rfl⟩ := between_stepDir y0 y1 y h1 h2 hne
  exact hleg t ht

/-- Carving the corridor from `a` to `b`, two cells off the outer ring with `b` already free:
every cell of the L-shaped path it takes is free afterwards. -/
theorem carve_corridor_free (p : RandomParams) (hk : 0 ≤ p.corridor_width.tdiv 2)
    (a b : Int × Int) (ha : Interior p a) (hb : Interior p b) (m : GridMap) (rng : Rng)
    (hs : HasShape p.width p.height m) (hbf : FinalFree p m b) :
    ∃ s, carve_corridor p m rng a.1 a.2 b.1 b.2 = some s ∧ HasShape p.width p.height s.1 ∧
      (∀ c, FinalFree p m c → FinalFree p s.1 c) ∧ CorridorFree (FinalFree p s.1) a b := by
  obtain ⟨a1, a2⟩ := a
  obtain ⟨b1, b2⟩ := b
  unfold Interior at ha hb
  simp only at ha hb ⊢
  unfold carve_corridor
  split
  · obtain ⟨m1, h1, hs1, hm1, hl1⟩ := leg_free_horizontal p hk a1 b1 a2 ⟨ha.1, ha.2.1⟩
      ⟨hb.1, hb.2.1⟩ ⟨ha.2.2.1, ha.2.2.2⟩ m hs
    obtain ⟨m2, h2, hs2, hm2, hl2⟩ := leg_free_vertical p hk b1 a2 b2 ⟨hb.1, hb.2.1⟩
      ⟨ha.2.2.1, ha.2.2.2⟩ ⟨hb.2.2.1, hb.2.2.2⟩ m1 hs1
    rw [h1]; simp only; rw [h2]
    refine ⟨_, rfl, hs2, fun c hc => hm2 c (hm1 c hc), (b1, a2), Or.inl rfl, ?_⟩
    have hend : FinalFree p m2 (b1, b2) := hm2 _ (hm1 _ hbf)
    have hcol : ∀ y, min a2 b2 ≤ y → y ≤ max a2 b2 → FinalFree p m2 (b1, y) := by
      intro y h1 h2
      by_cases hy : y = b2
      · rw [hy]; exact hend
      · exact hl2 y h1 h2 hy
    rintro ⟨c1, c2⟩ hc
    unfold OnLeg at hc
    simp only [min_self, max_self] at hc
    show FinalFree p m2 (c1, c2)
    rcases hc with (⟨_, e2, h3, h4⟩ | ⟨hab, e1, h3, h4⟩) | (⟨_, e2, h3, h4⟩ | ⟨_, e1, h3, h4⟩)
    · rw [e2]
      by_cases hx : c1 = b1
      · rw [hx]; exact hcol a2 (min_le_left _ _) (le_max_left _ _)
      · exact hm2 _ (hl1 c1 h3 h4 hx)
    · rw [e1, hab, le_antisymm h4 h3]
      exact hcol a2 (min_le_left _ _) (le_max_left _ _)
    · rw [e2, le_antisymm h4 h3]
      exact hcol a2 (min_le_left _ _) (le_max_left _ _)
    · rw [e1]
      exact hcol c2 h3 h4
  · obtain ⟨m1, h1, hs1, hm1, hl1⟩ := leg_free_vertical p hk a1 a2 b2 ⟨ha.1, ha.2.1⟩
      ⟨ha.2.2.1, ha.2.2.2⟩ ⟨hb.2.2.1, hb.2.2.2⟩ m hs
    obtain ⟨m2, h2, hs2, hm2, hl2⟩ := leg_free_horizontal p hk a1 b1 b2 ⟨ha.1, ha.2.1⟩
      ⟨hb.1, hb.2.1⟩ ⟨hb.2.2.1, hb.2.2.2⟩ m1 hs1
    rw [h1]; simp only; rw [h2]
    refine ⟨_, rfl, hs2, fun c hc => hm2 c (hm1 c hc), (a1, b2), Or.inr rfl, ?_⟩
    have hend : FinalFree p m2 (b1, b2) := hm2 _ (hm1 _ hbf)
    have hrow : ∀ x, min a1 b1 ≤ x → x ≤ max a1 b1 → FinalFree p m2 (x, b2) := by
      intro x h1 h2
      by_cases hx : x = b1
      · rw [hx]; exact hend
      · exact hl2 x h1 h2 hx
    rintro ⟨c1, c2⟩ hc
    unfold OnLeg at hc
    simp only [min_self, max_self] at hc
    show FinalFree p m2 (c1, c2)
    rcases hc with (⟨hab, e2, h3, h4⟩ | ⟨_, e1, h3, h4⟩) | (⟨_, e2, h3, h4⟩ | ⟨hab, e1, h3, h4⟩)
    · rw [e2, hab, le_antisymm h4 h3]
      exact hrow a1 (min_le_left _ _) (le_max_left _ _)
    · rw [e1]
      by_cases hy : c2 = b2
      · rw [hy]; exact hrow a1 (min_le_left _ _) (le_max_left _ _)
      · exact hm2 _ (hl1 c2 h3 h4 hy)
    · rw [e2]
      exact hrow c1 h3 h4
    · rw [e1, le_antisymm h4 h3]
      exact hrow a1 (min_le_left _ _) (le_max_left _ _)

theorem corridorFree_mono {F G : Int × Int → Prop} {a b : Int × Int}
    (h : CorridorFree F a b) (hFG : ∀ c, F c → G c) : CorridorFree G a b := by
  obtain ⟨e, he, hall⟩ := h
  exact ⟨e, he, fun c hc => hFG c (hall c hc)⟩

/-- The corridor loop frees, for every room it handles, the cells of an L-shaped path from the
centre of the room to the centre of its parent, and later corridors leave them free. -/
theorem carveCorridors_free (p : RandomParams) (rooms : List Rect) (parent : List Int)
    (hk : 0 ≤ p.corridor_width.tdiv 2) (hvalid : ∀ r ∈ rooms, RectValid p r) :
    ∀ (vs : List Nat) (m : GridMap) (rng : Rng),
      (∀ v ∈ vs, v < rooms.length ∧
        (parent.getD v (-1) ≠ -1 → (parent.getD v (-1)).toNat < rooms.length)) →
      HasShape p.width p.height m → (∀ r ∈ rooms, FinalFree p m (centre r)) →
      ∃ s, carveCorridors p rooms parent vs m rng = some s ∧
        HasShape p.width p.height s.1 ∧ (∀ c, FinalFree p m c → FinalFree p s.1 c) ∧
        ∀ v ∈ vs, parent.getD v (-1) ≠ -1 →
          CorridorFree (FinalFree p s.1) (centre (rooms.getD v default))
            (centre (rooms.getD (parent.getD v (-1)).toNat default))
  | [], m, rng, _, hs, _ => ⟨(m, rng), rfl, hs, fun _ h => h, fun v hv => by simp at hv⟩
  | v :: vs, m, rng, hvs, hs, hcen => by
    have hvs' : ∀ w ∈ vs, w < rooms.length ∧
        (parent.getD w (-1) ≠ -1 → (parent.getD w (-1)).toNat < rooms.length) :=
      fun w hw => hvs w (List.mem_cons_of_mem _ hw)
    unfold carveCorridors
    split
    · rename_i hne
      obtain ⟨hv, hpv⟩ := hvs v (List.mem_cons_self _ _)
      have hrv := getD_mem_of_lt rooms v default hv
      have hrp := getD_mem_of_lt rooms (parent.getD v (-1)).toNat default (hpv hne)
      obtain ⟨s1, hs1, hsh1, hmono1, hcor1⟩ := carve_corridor_free p hk
        (centre (rooms.getD v default))
        (centre (rooms.getD (parent.getD v (-1)).toNat default))
        (rect_centre_interior (hvalid _ hrv)) (rect_centre_interior (hvalid _ hrp)) m rng hs
        (hcen _ hrp)
      have hs1' : carve_corridor p m rng (rooms.getD v default).cx (rooms.getD v default).cy
          (rooms.getD (parent.getD v (-1)).toNat default).cx
          (rooms.getD (parent.getD v (-1)).toNat default).cy = some s1 := hs1
      rw [hs1']
      simp only
      obtain ⟨s2, hs2, hsh2, hmono2, hcor2⟩ := carveCorridors_free p rooms parent hk hvalid vs
        s1.1 s1.2 hvs' hsh1 (fun r hr => hmono1 _ (hcen r hr))
      refine ⟨s2, hs2, hsh2, fun c hc => hmono2 c (hmono1 c hc), fun w hw hwne => ?_⟩
      rcases List.mem_cons.1 hw with h | h
      · subst h
        exact corridorFree_mono hcor1 hmono2
      · exact hcor2 w h hwne
    · rename_i hne
      obtain ⟨s2, hs2, hsh2, hmono2, hcor2⟩ := carveCorridors_free p rooms parent hk hvalid vs
        m rng hvs' hs hcen
      refine ⟨s2, hs2, hsh2, hmono2, fun w hw hwne => ?_⟩
      rcases List.mem_cons.1 hw with h | h
      · subst h; exact absurd hwne hne
      · exact hcor2 w h hwne

/-- The Prim loop in terms of the edge weight `roomDist` of the source: every room but the first
gets a parent other than itself, the parents lead to room 0, and the tree weighs no more than
any parent map rooted at room 0. -/
theorem prim_tree_roomDist (rooms : List Rect) (hn : 2 ≤ rooms.length)
    (hdist : ∀ u v : Nat, u < rooms.length → v < rooms.length →
      roomDist rooms (u : Int) v < INT32_MAX) :
    (∀ v, 0 < v → v < rooms.length →
      ∃ u : Nat, (primMST rooms).getD v (-1) = (u : Int) ∧ u < rooms.length ∧ u ≠ v) ∧
    (∀ v, v < rooms.length →
      ∃ k : Nat, (fun x : Nat => ((primMST rooms).getD x (-1)).toNat)^[k] v = 0) ∧
    (∀ q : Nat → Nat, (∀ v, 0 < v → v < rooms.length → q v < rooms.length) →
      (∀ v, v < rooms.length → ∃ k : Nat, q^[k] v = 0) →
      ∑ v ∈ Finset.Ico 1 rooms.length, roomDist rooms ((primMST rooms).getD v (-1)) v ≤
        ∑ v ∈ Finset.Ico 1 rooms.length, roomDist rooms ((q v : Nat) : Int) v) := by
  obtain ⟨hopt1, hU1⟩ := primFirst_opt rooms hn hdist
  have hrun : primMST rooms = (forIdx (rooms.length - 2) (fun _ st => primStep rooms st)
      (primStep rooms (primInit rooms.length))).parent := by
    unfold primMST
    have : rooms.length - 1 = (rooms.length - 2) + 1 := by omega
    rw [this, forIdx_const_succ]
  have hcard : (unmarkedSet rooms.length (primStep rooms (primInit rooms.length))).card =
      (rooms.length - 2) + 1 := by
    rw [hU1, Nat.card_Ico]; omega
  obtain ⟨hfin, -, hcost⟩ := prim_run rooms hdist (rooms.length - 2) _ hopt1 hcard
  refine ⟨?_, ?_, ?_⟩
  · intro v hv0 hv
    obtain ⟨s, hs, hne, hp⟩ := hfin.2.2.2.2.2.2 v hv0 hv
    exact ⟨s, by rw [hrun]; exact hp, hs, hne⟩
  · intro v hv
    obtain ⟨inMST, htree⟩ := primMST_tree rooms hn hdist
    rcases Nat.eq_zero_or_pos v with h0 | hpos
    · exact ⟨0, h0⟩
    · obtain ⟨u, hu, _, hroot⟩ := htree v hpos hv
      obtain ⟨k, hk⟩ := rootPath_iterate hroot
      refine ⟨k + 1, ?_⟩
      rw [Function.iterate_succ_apply]
      simp only [hu, Int.toNat_ofNat]
      exact hk
  · intro q hq hreach
    classical
    have hrank : ∀ v, 0 < v → v < rooms.length → q v ≠ 0 →
        ∀ (h1 : ∃ k : Nat, q^[k] v = 0) (h2 : ∃ k : Nat, q^[k] (q v) = 0),
          Nat.find h2 < Nat.find h1 := by
      intro v hv0 _ _ h1 h2
      have hspec := Nat.find_spec h1
      obtain ⟨k', hk'⟩ : ∃ k', Nat.find h1 = k' + 1 := by
        refine ⟨Nat.find h1 - 1, ?_⟩
        have : Nat.find h1 ≠ 0 := by
          intro h
          rw [h] at hspec
          simp at hspec
          omega
        omega
      rw [hk', Function.iterate_succ_apply] at hspec
      have := Nat.find_min' h2 hspec
      omega
    rw [hrun]
    have := hcost q (fun v => if h : ∃ k : Nat, q^[k] v = 0 then Nat.find h else 0)
      (by
        intro v hv
        rw [hU1, Finset.mem_Ico] at hv
        exact hq v (by omega) hv.2)
      (by
        intro v hv hqv
        rw [hU1, Finset.mem_Ico] at hv hqv
        simp only [dif_pos (hreach v hv.2), dif_pos (hreach (q v) hqv.2)]
        exact hrank v (by omega) hv.2 (by omega) _ _)
    rw [hU1] at this
    exact this

theorem iabs_eq_abs (a : Int) : iabs a = |a| := by
  unfold iabs
  split
  · rename_i h; rw [abs_of_neg h]
  · rename_i h; rw [abs_of_nonneg (by omega)]

/-- The edge weight of the Prim loop is the Manhattan distance of the two room centres. -/
theorem roomDist_abs (rooms : List Rect) (u : Int) (v : Nat) :
    roomDist rooms u v =
      |(rooms.getD u.toNat default).cx - (rooms.getD v default).cx| +
        |(rooms.getD u.toNat default).cy - (rooms.getD v default).cy| := by
  unfold roomDist
  rw [iabs_eq_abs, iabs_eq_abs]

/-- C1: `at` answers 1 (blocked) for every coordinate outside `[0,width) × [0,height)`, and for
every in-bounds coordinate of a raster whose buffer holds `width*height` cells it answers the
entry stored at the row-major index `y*width + x`, which lies inside the buffer. -/
theorem at_spec (m : GridMap) (x y : Int) :
    ((x < 0 ∨ y < 0 ∨ x ≥ m.width ∨ y ≥ m.height) → m.at_ x y = 1) ∧
    (m.Sized → m.InBounds x y →
      (y * m.width + x).toNat < m.data.length ∧
      m.data[(y * m.width + x).toNat]? = some (m.at_ x y)) := by
  constructor
  · intro h
    have : m.oob x y = true := by
      simp only [oob, Bool.or_eq_true, decide_eq_true_eq]; tauto
    simp [at_, this]
  · intro hs hin
    have hlt := idx_lt_of_inBounds hs hin
    have ho : m.oob x y = false := (oob_eq_false_iff m x y).2 hin
    unfold idx at hlt
    refine ⟨hlt, ?_⟩
    simp [at_, ho, idx, List.getD_eq_getElem?_getD, List.getElem?_eq_getElem hlt]

/-- Witness for C1 on a 2x2 raster at the in-bounds cell `(1, 1)`. -/
theorem at_spec_witness :
    (GridMap.mk 2 2 [0, 0, 0, 1]).Sized ∧ (GridMap.mk 2 2 [0, 0, 0, 1]).InBounds 1 1 ∧
    (GridMap.mk 2 2 [0, 0, 0, 1]).data[((1 : Int) * 2 + 1).toNat]? =
      some ((GridMap.mk 2 2 [0, 0, 0, 1]).at_ 1 1) :=
  ⟨by decide, by decide,
    ((at_spec (GridMap.mk 2 2 [0, 0, 0, 1]) 1 1).2 (by decide) (by decide)).2⟩

/-- C2: on a raster whose buffer holds `width*height` cells (in particular every raster with
`width, height ≥ 0` and data length `width*height`), `set` out of bounds changes nothing; in
bounds, the cell reads back as 1 when `v ≠ 0` and 0 when `v = 0`, every other in-bounds cell reads
as before, and width and height are unchanged. -/
theorem set_spec (m : GridMap) (x y : Int) (v : Nat) (hs : m.Sized) :
    (¬ m.InBounds x y → m.set x y v = m) ∧
    (m.InBounds x y →
      (m.set x y v).at_ x y = (if v ≠ 0 then 1 else 0) ∧
      (∀ x' y' : Int, m.InBounds x' y' → (x', y') ≠ (x, y) →
        (m.set x y v).at_ x' y' = m.at_ x' y') ∧
      (m.set x y v).width = m.width ∧ (m.set x y v).height = m.height) := by
  constructor
  · intro h
    exact set_of_not_inBounds h v
  · intro hin
    refine ⟨?_, ?_, set_width .., set_height ..⟩
    · rw [at_set hs]; simp [hin, clamp01]
    · intro x' y' _ hne
      rw [at_set hs]
      have : ¬ (x' = x ∧ y' = y) := by
        rintro ⟨rfl, rfl⟩; exact hne rfl
      simp [this]

/-- Witness for C2: writing 7 into cell `(0, 1)` of a 2x2 raster. -/
theorem set_spec_witness :
    (GridMap.mk 2 2 [0, 0, 0, 1]).Sized ∧
    ((GridMap.mk 2 2 [0, 0, 0, 1]).set 0 1 7).at_ 0 1 = 1 ∧
    ((GridMap.mk 2 2 [0, 0, 0, 1]).set 5 1 7) = GridMap.mk 2 2 [0, 0, 0, 1] :=
  ⟨by decide,
    ((set_spec (GridMap.mk 2 2 [0, 0, 0, 1]) 0 1 7 (by decide)).2 (by decide)).1,
    (set_spec (GridMap.mk 2 2 [0, 0, 0, 1]) 5 1 7 (by decide)).1 (by decide)⟩

/-- C4: for all `x0, y0, w, h` that are values of `int` with `x0 + w` and `y0 + h` in the range
of `int` (so that no computation of the source overflows), after the filled
`rectangle(x0,y0,w,h,v)` every in-bounds cell with `x0 ≤ x ≤ x0+w-1` and `y0 ≤ y ≤ y0+h-1`
reads `v ? 1 : 0`, every other cell reads as before, the dimensions are unchanged, and the
raster is untouched when `w ≤ 0` or `h ≤ 0`. Scenario: `rectangle(2,2,3,3,1,true)` on the
all-free 10x10 raster marks exactly the cells with `x, y ∈ [2,4]`. -/
theorem rectangle_filled_spec (m : GridMap) (x0 y0 w h : Int) (v : Nat) (hs : m.Sized)
    (_hr : RectInRange x0 y0 w h) :
    (m.rectangle x0 y0 w h v true).width = m.width ∧
    (m.rectangle x0 y0 w h v true).height = m.height ∧
    (∀ x y : Int, m.InBounds x y → x0 ≤ x ∧ x ≤ x0 + w - 1 ∧ y0 ≤ y ∧ y ≤ y0 + h - 1 →
      (m.rectangle x0 y0 w h v true).at_ x y = (if v ≠ 0 then 1 else 0)) ∧
    (∀ x y : Int, ¬ (x0 ≤ x ∧ x ≤ x0 + w - 1 ∧ y0 ≤ y ∧ y ≤ y0 + h - 1) →
      (m.rectangle x0 y0 w h v true).at_ x y = m.at_ x y) ∧
    (w ≤ 0 ∨ h ≤ 0 → m.rectangle x0 y0 w h v true = m) ∧
    (∀ x y : Int, 0 ≤ x ∧ x < 10 ∧ 0 ≤ y ∧ y < 10 →
      ((GridMap.new 10 10 0).rectangle 2 2 3 3 1 true).at_ x y =
        if 2 ≤ x ∧ x ≤ 4 ∧ 2 ≤ y ∧ y ≤ 4 then 1 else 0) := by
  have hp := rectangle_filled_paints hs x0 y0 w h v
  refine ⟨hp.1, hp.2.1, ?_, ?_, ?_, ?_⟩
  · intro x y hin hr
    simpa [clamp01] using (hp.2.2.2 x y).1 hr hin
  · intro x y hr
    exact (hp.2.2.2 x y).2 hr
  · intro hwh
    unfold rectangle
    simp only [if_true]
    rcases hwh with hw | hh
    · unfold forLe
      apply loopN_id
      intro i s
      have : (x0 + w - 1 + 1 - x0).toNat = 0 := by omega
      rw [this]; rfl
    · unfold forLe
      have : (y0 + h - 1 + 1 - y0).toNat = 0 := by omega
      rw [this]; rfl
  · intro x y hxy
    have hq := rectangle_filled_paints (new_sized 10 10 0) 2 2 3 3 1
    have hin : (GridMap.new 10 10 0).InBounds x y := by
      simp only [InBounds, GridMap.new]; omega
    by_cases hr : 2 ≤ x ∧ x ≤ 4 ∧ 2 ≤ y ∧ y ≤ 4
    · rw [if_pos hr]
      have := (hq.2.2.2 x y).1 (by omega) hin
      simpa [clamp01] using this
    · rw [if_neg hr]
      rw [(hq.2.2.2 x y).2 (by omega), at_new, if_pos hin]

/-- Witness for C4: the 3x3 block at `(2,2)` of a blank 10x10 raster. -/
theorem rectangle_filled_spec_witness :
    (GridMap.new 10 10 0).Sized ∧ RectInRange 2 2 3 3 ∧
    ((GridMap.new 10 10 0).rectangle 2 2 3 3 1 true).at_ 3 4 = 1 ∧
    ((GridMap.new 10 10 0).rectangle 2 2 3 3 1 true).at_ 5 4 = 0 :=
  ⟨new_sized 10 10 0, by decide,
    by simpa using
      (rectangle_filled_spec (GridMap.new 10 10 0) 2 2 3 3 1 (new_sized 10 10 0)
        (by decide)).2.2.2.2.2 3 4 (by decide),
    by simpa using
      (rectangle_filled_spec (GridMap.new 10 10 0) 2 2 3 3 1 (new_sized 10 10 0)
        (by decide)).2.2.2.2.2 5 4 (by decide)⟩

/-- C5 (failing input): `rectangle(1,0,0,1,1,filled=false)` on the blank 3x1 raster. The range
`[1,0] × [0,0]` is empty (`w = 0`), yet the column loop of the outline branch still runs for
`y = 0` and sets the cells `(1,0)` and `(0,0)`. -/
theorem rectangle_outline_degenerate :
    (GridMap.new 3 1 0).data = [0, 0, 0] ∧
    ((GridMap.new 3 1 0).rectangle 1 0 0 1 1 false).data = [1, 1, 0] ∧
    ((GridMap.new 3 1 0).rectangle 1 0 0 1 1 true).data = [0, 0, 0] := by
  decide

/-- C6: for every configuration with `width, height ≥ 1`, a cell count `width*height` that fits
an `int` (so that the buffer the source allocates holds every cell) and
`add_border_walls = true`, for every engine state, in both modes, for every
`cluster_iterations` and both connectivities, `random(p)` returns a raster of the configured
dimensions in which every in-bounds cell with `x ∈ {0, width-1}` or `y ∈ {0, height-1}`
reads 1. -/
theorem random_border_walls (p : RandomParams) (rng : Rng) (_hw : 1 ≤ p.width)
    (_hh : 1 ≤ p.height) (_hsize : NewInRange p.width p.height)
    (hb : p.add_border_walls = true) :
    ∃ m, GridMap.random p rng = some m ∧ m.width = p.width ∧ m.height = p.height ∧
      ∀ x y : Int, 0 ≤ x → x < p.width → 0 ≤ y → y < p.height →
        (x = 0 ∨ x = p.width - 1 ∨ y = 0 ∨ y = p.height - 1) → m.at_ x y = 1 := by
  have main : ∃ m, GridMap.random p rng = some m ∧ HasShape p.width p.height m ∧
      BorderBlocked m := by
    unfold GridMap.random
    split
    · obtain ⟨m, hm, hsh, hbb⟩ := genRoomsAndCorridors_total p rng
      rw [hm]
      refine ⟨_, rfl, ?_⟩
      split
      · exact growClusters_borderBlocked _ _ hsh (hbb hb)
      · exact ⟨hsh, hbb hb⟩
    · refine ⟨_, rfl, ?_⟩
      have hu := genUniform_shape p rng
      split
      · exact growClusters_borderBlocked _ _ hu.1 (hu.2 hb)
      · exact ⟨hu.1, hu.2 hb⟩
  obtain ⟨m, hm, hsh, hbb⟩ := main
  refine ⟨m, hm, hsh.1, hsh.2.1, ?_⟩
  intro x y h1 h2 h3 h4 hbd
  apply hbb x y
  · unfold InBounds; rw [hsh.1, hsh.2.1]; exact ⟨h1, h3, h2, h4⟩
  · rw [hsh.1, hsh.2.1]; exact hbd

/-- Witness for C6: a 5x5 raster in uniform mode with one clustering pass, on the engine whose
raw outputs are all 0 (no cell is drawn as an obstacle). With border walls the ring reads 1 and
the centre is free; without them the border cell `(0,2)` is free. -/
theorem random_border_walls_witness :
    ∃ m, GridMap.random { width := 5, height := 5, cluster_iterations := 1 }
        { raw := fun _ => 0, pos := 0 } = some m ∧
      m.at_ 0 2 = 1 ∧ m.at_ 2 2 = 0 ∧
      (GridMap.random
        { width := 5, height := 5, cluster_iterations := 1, add_border_walls := false }
        { raw := fun _ => 0, pos := 0 }).map (fun m => m.at_ 0 2) = some 0 :=
  match random_border_walls { width := 5, height := 5, cluster_iterations := 1 }
    { raw := fun _ => 0, pos := 0 } (by decide) (by decide) (by decide) rfl with
  | ⟨m, hm, _, _, h⟩ =>
    ⟨m, hm, h 0 2 (by decide) (by decide) (by decide) (by decide) (Or.inl rfl),
      by rw [Option.some.inj (hm.symm.trans random_sample.1)]; decide,
      by rw [random_sample.2]; decide⟩

/-- C8: for a raster with `width, height ≥ 0` whose cells are all 0 or 1, `loadASCII` applied to
the text `saveASCII` wrote (header `width height`, then per cell its value followed by a space
or, at the end of a row, a newline) returns a raster with the same width, the same height and
the same value at every coordinate. -/
theorem ascii_roundtrip (R : GridMap) (indet : Int) (hw : 0 ≤ R.width) (hh : 0 ≤ R.height)
    (hb : ∀ v ∈ R.data, v = 0 ∨ v = 1) :
    (loadASCII indet { buf := saveASCII R, fail := false }).width = R.width ∧
    (loadASCII indet { buf := saveASCII R, fail := false }).height = R.height ∧
    ∀ x y : Int, (loadASCII indet { buf := saveASCII R, fail := false }).at_ x y = R.at_ x y := by
  rw [loadASCII_saveASCII_eq R indet hw hh]
  have hsh := scan_fold_shape R.width R.height
    (fun x y => if ((R.at_ x y : Nat) : Int) ≠ 0 then 1 else 0)
  refine ⟨hsh.1, hsh.2.1, fun x y => ?_⟩
  rw [at_scan_fold R.width R.height (fun x y => if ((R.at_ x y : Nat) : Int) ≠ 0 then 1 else 0)]
  by_cases hin : R.InBounds x y
  · have hin' : (GridMap.new R.width R.height 0).InBounds x y := hin
    rw [if_pos hin']
    rcases at_le_one_of_binary hb x y with h | h <;> rw [h] <;> simp [clamp01]
  · have hin' : ¬ (GridMap.new R.width R.height 0).InBounds x y := hin
    rw [if_neg hin', at_of_not_inBounds hin]

/-- Witness for C8: the 2x2 raster with rows `0 1` and `1 0`. -/
theorem ascii_roundtrip_witness :
    (loadASCII 0 { buf := saveASCII (GridMap.mk 2 2 [0, 1, 1, 0]), fail := false }).width = 2 ∧
    (loadASCII 0 { buf := saveASCII (GridMap.mk 2 2 [0, 1, 1, 0]), fail := false }).at_ 1 0 = 1 :=
  have h := ascii_roundtrip (GridMap.mk 2 2 [0, 1, 1, 0]) 0 (by decide) (by decide) (by decide)
  ⟨h.1, (h.2.2 1 0).trans (by decide)⟩

/-- C9: for a raster with `width, height ≥ 0` and both variants (`binary = true` writes P5,
`binary = false` writes P2), `loadPGM` applied to the bytes `savePGM` wrote returns a raster
with the same width and height in which a cell reads 1 exactly when it is non-zero in `R` and 0
exactly when it is 0 in `R`; the samples written are 0 for obstacle cells and 255 for free cells
(one byte per cell in P5, one decimal token per cell in P2). -/
theorem pgm_roundtrip (R : GridMap) (binary : Bool) (indet : Int) (indetByte : Nat)
    (hw : 0 ≤ R.width) (hh : 0 ≤ R.height) :
    (loadPGM indet indetByte ⟨savePGM R binary, false⟩).width = R.width ∧
    (loadPGM indet indetByte ⟨savePGM R binary, false⟩).height = R.height ∧
    (∀ x y : Int, R.InBounds x y →
      ((loadPGM indet indetByte ⟨savePGM R binary, false⟩).at_ x y = 1 ↔ R.at_ x y ≠ 0) ∧
      ((loadPGM indet indetByte ⟨savePGM R binary, false⟩).at_ x y = 0 ↔ R.at_ x y = 0)) ∧
    savePGM R true =
      [80, 53, 10] ++ natDigits R.width.toNat ++ [32] ++ natDigits R.height.toNat ++
        [10, 50, 53, 53, 10] ++
        (scanCells R.width.toNat R.height.toNat).map
          (fun c => if R.at_ c.1 c.2 ≠ 0 then 0 else 255) ∧
    savePGM R false =
      [80, 50, 10] ++ natDigits R.width.toNat ++ [32] ++ natDigits R.height.toNat ++
        [10, 50, 53, 53, 10] ++
        (scanCells R.width.toNat R.height.toNat).flatMap
          (fun c => natDigits (if R.at_ c.1 c.2 ≠ 0 then 0 else 255) ++
            [if c.1 + 1 = R.width then 10 else 32]) := by
  rw [loadPGM_savePGM_eq R binary indet indetByte hw hh]
  have hsh := scan_fold_shape R.width R.height (fun x y => if R.at_ x y ≠ 0 then 1 else 0)
  refine ⟨hsh.1, hsh.2.1, fun x y hin => ?_, savePGM_binary_eq R hw hh,
    savePGM_ascii_eq R hw hh⟩
  rw [at_scan_fold R.width R.height (fun x y => if R.at_ x y ≠ 0 then 1 else 0)]
  have hin' : (GridMap.new R.width R.height 0).InBounds x y := hin
  rw [if_pos hin']
  by_cases h : R.at_ x y = 0 <;> simp [h, clamp01]

/-- Witness for C9: the 2x1 raster holding an obstacle stored as 7 and a free cell, written
as P5. -/
theorem pgm_roundtrip_witness :
    (loadPGM 0 0 ⟨savePGM (GridMap.mk 2 1 [7, 0]) true, false⟩).at_ 0 0 = 1 ∧
    (loadPGM 0 0 ⟨savePGM (GridMap.mk 2 1 [7, 0]) true, false⟩).at_ 1 0 = 0 :=
  have h := pgm_roundtrip (GridMap.mk 2 1 [7, 0]) true 0 0 (by decide) (by decide)
  ⟨((h.2.2.1 0 0 (by decide)).1).2 (by decide), ((h.2.2.1 1 0 (by decide)).2).2 (by decide)⟩

/-- C10 (failing input): `GridMap(1, 1, 2)` stores the fill byte unclamped, so `at(0,0)` is 2,
neither 0 nor 1; `set` and `clear` on the same byte store 1. -/
theorem new_fill_not_clamped :
    (GridMap.new 1 1 2).at_ 0 0 = 2 ∧
    ((GridMap.new 1 1 0).set 0 0 2).at_ 0 0 = 1 ∧
    ((GridMap.new 1 1 0).clear 2).at_ 0 0 = 1 := by
  decide

/-- C7: for a rooms-and-corridors configuration with `width, height ≥ 3`, a cell count that
fits into an `int`, `1 ≤ room_min ≤ room_max` in both dimensions and `corridor_width ≥ 1`,
border walls on or off, and every engine state for which the placement loop accepts at least
two rooms, `genRoomsAndCorridors` returns a raster of the configured dimensions in which
every cell of every accepted room is free (each room has at least one cell), every cell of an
L-shaped path from the centre of each room `v ≥ 1` to the centre of its Prim parent is free
(the corridor), and whose free cells form a single connected component: any two free cells,
in particular cells of two different rooms, are joined by a chain of free cells whose
consecutive cells are neighbours under the configured connectivity. -/
theorem rooms_connected (p : RandomParams) (rng : Rng)
    (hw : 3 ≤ p.width) (hh : 3 ≤ p.height) (hsize : p.width * p.height ≤ 2147483647)
    (hrw : 1 ≤ p.room_min_w) (hrw' : p.room_min_w ≤ p.room_max_w)
    (hrh : 1 ≤ p.room_min_h) (hrh' : p.room_min_h ≤ p.room_max_h)
    (hcw : 1 ≤ p.corridor_width)
    (hplaced : 2 ≤ (placeRooms p (p.num_rooms * 10).toNat []
      (GridMap.new p.width p.height 1) rng).1.length) :
    ∃ m, genRoomsAndCorridors p rng = some m ∧
      m.width = p.width ∧ m.height = p.height ∧
      (∀ r ∈ (placeRooms p (p.num_rooms * 10).toNat []
          (GridMap.new p.width p.height 1) rng).1,
        1 ≤ r.w ∧ 1 ≤ r.h ∧ ∀ c : Int × Int, RectMem r c → m.isFree c.1 c.2 = true) ∧
      (∀ v, 0 < v →
        v < (placeRooms p (p.num_rooms * 10).toNat []
          (GridMap.new p.width p.height 1) rng).1.length →
        CorridorFree (fun c => m.isFree c.1 c.2 = true)
          (centre ((placeRooms p (p.num_rooms * 10).toNat []
            (GridMap.new p.width p.height 1) rng).1.getD v default))
          (centre ((placeRooms p (p.num_rooms * 10).toNat []
            (GridMap.new p.width p.height 1) rng).1.getD
              ((primMST (placeRooms p (p.num_rooms * 10).toNat []
                (GridMap.new p.width p.height 1) rng).1).getD v (-1)).toNat default))) ∧
      ∀ a b : Int × Int, m.isFree a.1 a.2 = true → m.isFree b.1 b.2 = true →
        Relation.ReflTransGen (FreeStep m p.connectivity) a b := by
  have hk : 0 ≤ p.corridor_width.tdiv 2 := Int.tdiv_nonneg (by omega) (by omega)
  have hplace := placeRooms_inv p hw hh hrw hrw' hrh hrh' (p.num_rooms * 10).toNat []
    (GridMap.new p.width p.height 1) rng (placeInv_init p)
  unfold genRoomsAndCorridors
  simp only []
  generalize placeRooms p (p.num_rooms * 10).toNat [] (GridMap.new p.width p.height 1) rng = st
    at hplace hplaced ⊢
  obtain ⟨rooms, m0, g0⟩ := st
  simp only at hplace hplaced ⊢
  rw [if_pos hplaced]
  have hvalid := hplace.2.1
  obtain ⟨inMST, htree⟩ := primMST_tree rooms hplaced
    (roomDist_lt p rooms hw hh hsize hvalid)
  obtain ⟨s, hs, hinv, -, hconn⟩ := carveCorridors_connects p rooms (primMST rooms) hk hvalid
    (List.range' 1 (rooms.length - 1)) m0 g0
    (fun v hv => by
      rw [List.mem_range'_1] at hv
      refine ⟨by omega, fun _ => ?_⟩
      obtain ⟨u, hu1, hu2, _⟩ := htree v (by omega) (by omega)
      rw [hu1, Int.toNat_ofNat]; exact hu2)
    (carveInv_of_placeInv p hplace)
  have hcorr : ∀ v, 0 < v → v < rooms.length →
      CorridorFree (FinalFree p s.1) (centre (rooms.getD v default))
        (centre (rooms.getD ((primMST rooms).getD v (-1)).toNat default)) := by
    intro v hv0 hv
    obtain ⟨s', hs', -, -, hcor⟩ := carveCorridors_free p rooms (primMST rooms) hk hvalid
      (List.range' 1 (rooms.length - 1)) m0 g0
      (fun v hv => by
        rw [List.mem_range'_1] at hv
        refine ⟨by omega, fun _ => ?_⟩
        obtain ⟨u, hu1, hu2, _⟩ := htree v (by omega) (by omega)
        rw [hu1, Int.toNat_ofNat]; exact hu2)
      hplace.1
      (fun r hr => ⟨interior_safe (rect_centre_interior (hvalid r hr)),
        hplace.2.2.1 r hr _ (rect_centre_mem (hvalid r hr))⟩)
    have hss : s' = s := Option.some.inj (hs'.symm.trans hs)
    rw [hss] at hcor
    obtain ⟨u, hu1, _, _⟩ := htree v hv0 hv
    exact hcor v (by rw [List.mem_range'_1]; omega) (by rw [hu1]; omega)
  rw [hs]
  have hshape : HasShape p.width p.height
      (if p.add_border_walls then addBorderWalls p s.1 else s.1) := by
    split
    · exact (addBorderWalls_borderBlocked p hinv.1).1
    · exact hinv.1
  refine ⟨_, rfl, hshape.1, hshape.2.1, fun r hr => ⟨(hvalid r hr).1, (hvalid r hr).2.1,
    fun c hc => (isFree_final p hinv.1 c).2
      ⟨interior_safe (rect_mem_interior (hvalid r hr) hc), hinv.2.1 r hr c hc⟩⟩,
    fun v hv0 hv => corridorFree_mono (hcorr v hv0 hv)
      (fun c hc => (isFree_final p hinv.1 c).2 hc), ?_⟩
  -- every room centre is joined to the centre of room 0
  have hroot : ∀ v, v < rooms.length →
      Conn4 (FinalFree p s.1) (centre (rooms.getD v default)) (centre (rooms.getD 0 default)) := by
    intro v hv
    have hedge : ∀ v, 0 < v → v < rooms.length → (primMST rooms).getD v (-1) ≠ -1 →
        Conn4 (FinalFree p s.1) (centre (rooms.getD v default))
          (centre (rooms.getD ((primMST rooms).getD v (-1)).toNat default)) :=
      fun v hv0 hv hne => hconn v (by rw [List.mem_range'_1]; omega) hne
    rcases Nat.eq_zero_or_pos v with hv0 | hvp
    · subst hv0; exact conn4_refl _ _
    · obtain ⟨u, hu1, hu2, hu3⟩ := htree v hvp hv
      have he := hedge v hvp hv (by rw [hu1]; omega)
      rw [hu1, Int.toNat_ofNat] at he
      exact conn4_trans he (centres_connected rooms (primMST rooms) inMST _ hedge htree hu3 hu2)
  -- every free cell is joined to the centre of room 0
  have hall : ∀ c, FinalFree p s.1 c →
      Conn4 (FinalFree p s.1) c (centre (rooms.getD 0 default)) := by
    intro c hc
    obtain ⟨r, hr, hcr⟩ := hinv.2.2 c hc
    obtain ⟨i, hi, rfl⟩ := List.getElem_of_mem hr
    have := hroot i hi
    rw [List.getD_eq_getElem rooms default hi] at this
    exact conn4_trans hcr this
  intro a b ha hb
  rw [isFree_final p hinv.1] at ha hb
  have hab := conn4_trans (hall a ha) (conn4_symm (hall b hb))
  refine Relation.ReflTransGen.mono ?_ hab
  intro x y hxy
  exact ⟨(isFree_final p hinv.1 x).2 hxy.1, (isFree_final p hinv.1 y).2 hxy.2.1,
    axis_neighbour _ _ _ hxy.2.2⟩

/-- Witness for C7: a 9x5 raster, two 1x1 rooms, corridor width 1, on an engine whose draws
place the rooms at `(1,1)` and `(7,3)` and pick the horizontal-then-vertical elbow. The result
frees the two rooms and the corridor along row 3 and column 1, and the two rooms are joined. -/
theorem rooms_connected_witness :
    ∃ m, genRoomsAndCorridors
        { width := 9, height := 5, num_rooms := 2, room_min_w := 1, room_min_h := 1,
          room_max_w := 1, room_max_h := 1, corridor_width := 1 }
        { raw := fun i => [0, 0, 0, 0, 0, 0, 6, 2, 1].getD i 0, pos := 0 } = some m ∧
      m.data = [1, 1, 1, 1, 1, 1, 1, 1, 1,
                1, 0, 1, 1, 1, 1, 1, 1, 1,
                1, 0, 1, 1, 1, 1, 1, 1, 1,
                1, 0, 0, 0, 0, 0, 0, 0, 1,
                1, 1, 1, 1, 1, 1, 1, 1, 1] ∧
      Relation.ReflTransGen (FreeStep m Connectivity.Eight) (1, 1) (7, 3) :=
  match rooms_connected
    { width := 9, height := 5, num_rooms := 2, room_min_w := 1, room_min_h := 1,
      room_max_w := 1, room_max_h := 1, corridor_width := 1 }
    { raw := fun i => [0, 0, 0, 0, 0, 0, 6, 2, 1].getD i 0, pos := 0 }
    (by decide) (by decide) (by decide) (by decide) (by decide) (by decide) (by decide)
    (by decide) rooms_sample.2 with
  | ⟨m, hm, _, _, _, _, hconn⟩ =>
    have hm' := Option.some.inj (hm.symm.trans rooms_sample.1)
    ⟨m, hm, by rw [hm'], hconn (1, 1) (7, 3) (by rw [hm']; decide) (by rw [hm']; decide)⟩

/-- C18: refuted at radius 1. On a blank 3x3 raster with centre `(1,1)` the outline circle sets
the four cells `(0,1)`, `(2,1)`, `(1,0)`, `(1,2)`, while the filled circle sets only the row
`y = 1`: the cells `(1,0)` and `(1,2)` of the outline are not covered. -/
theorem circle_filled_misses_outline :
    ∃ mo mf : GridMap,
      (GridMap.new 3 3 0).circle 3 1 1 1 1 false = some mo ∧
      (GridMap.new 3 3 0).circle 3 1 1 1 1 true = some mf ∧
      mo.data = [0, 1, 0, 1, 0, 1, 0, 1, 0] ∧ mf.data = [0, 0, 0, 1, 1, 1, 0, 0, 0] ∧
      mo.at_ 1 2 = 1 ∧ mf.at_ 1 2 = 0 ∧ mo.at_ 1 0 = 1 ∧ mf.at_ 1 0 = 0 :=
  ⟨_, _, rfl, rfl, by decide, by decide, by decide, by decide, by decide, by decide⟩

/-- C12, counterexample: the input `"P6\n"` has the magic number `P6`, and `loadPGM` returns
for it the very raster it returns for the well-formed binary 0x0 file `"P5\n0 0\n255\n"`, which
is what `savePGM` writes for the 0x0 raster: the two outcomes cannot be told apart. -/
theorem loadPGM_bad_magic_indistinguishable :
    (IStream.readWord ⟨[80, 54, 10], false⟩ []).1 = [80, 54] ∧
    savePGM (GridMap.new 0 0 0) true = [80, 53, 10, 48, 32, 48, 10, 50, 53, 53, 10] ∧
    loadPGM 0 0 ⟨[80, 54, 10], false⟩ =
      loadPGM 0 0 ⟨[80, 53, 10, 48, 32, 48, 10, 50, 53, 53, 10], false⟩ := by
  refine ⟨by decide, savePGM_zero_raster, ?_⟩
  rw [loadPGM_zero_raster]
  decide

/-- C12, amended: for every input whose first white-space-delimited token is neither `P2` nor
`P5` (also when there is no token at all), `loadPGM` returns the default-constructed raster:
width 0, height 0, empty buffer. No error is signalled, and the result is the raster obtained
by loading the well-formed 0x0 file `"P5\n0 0\n255\n"`. -/
theorem loadPGM_bad_magic (indet : Int) (indetByte : Nat) (ifs : IStream)
    (h2 : (ifs.readWord []).1 ≠ [80, 50]) (h5 : (ifs.readWord []).1 ≠ [80, 53]) :
    loadPGM indet indetByte ifs = GridMap.empty ∧
    GridMap.empty.width = 0 ∧ GridMap.empty.height = 0 ∧ GridMap.empty.data = [] ∧
    loadPGM indet indetByte ⟨[80, 53, 10, 48, 32, 48, 10, 50, 53, 53, 10], false⟩ =
      GridMap.empty := by
  refine ⟨?_, rfl, rfl, rfl, loadPGM_zero_raster indet indetByte⟩
  unfold loadPGM
  simp only
  rw [if_pos ⟨h2, h5⟩]

/-- Witness for C12: the input `"XY 1 1"`. -/
theorem loadPGM_bad_magic_witness :
    (IStream.readWord ⟨[88, 89, 32, 49, 32, 49], false⟩ []).1 ≠ [80, 50] ∧
    (IStream.readWord ⟨[88, 89, 32, 49, 32, 49], false⟩ []).1 ≠ [80, 53] ∧
    loadPGM 0 0 ⟨[88, 89, 32, 49, 32, 49], false⟩ = GridMap.empty :=
  ⟨by decide, by decide,
    (loadPGM_bad_magic 0 0 ⟨[88, 89, 32, 49, 32, 49], false⟩ (by decide) (by decide)).1⟩

/-- C15: `growClusters(m, n, c)` is `m` itself for `n <= 0` and otherwise the `n`-fold iterate
of the synchronous step `S = clusterStep`; `S m` has the dimensions of `m`, and at every
in-bounds cell it reads 1 when the cell of `m` is not free and at least 3 offsets of the
neighbour set (the 4 axis offsets, or the 8 including the diagonals) lead to a cell that is not
free in `m`, or when the cell is free and at least 5 do, and 0 otherwise; a cell is free exactly
when it is in bounds and reads 0, so neighbours out of bounds count as blocked. Every value is
computed from `m`, the raster before the pass. -/
theorem growClusters_iterates (m : GridMap) (c : Connectivity) (n : Int) :
    growClusters m n c = (if n ≤ 0 then m else (fun a => clusterStep a c)^[n.toNat] m) ∧
    (∀ a : GridMap, (clusterStep a c).width = a.width ∧ (clusterStep a c).height = a.height ∧
      ∀ x y : Int, a.InBounds x y →
        (clusterStep a c).at_ x y =
          if a.at_ x y ≠ 0 then
            (if 3 ≤ ((dirs c).filter (fun d => !a.isFree (x + d.1) (y + d.2))).length
              then 1 else 0)
          else
            (if 5 ≤ ((dirs c).filter (fun d => !a.isFree (x + d.1) (y + d.2))).length
              then 1 else 0)) ∧
    (∀ (a : GridMap) (x y : Int), a.isFree x y = true ↔ a.InBounds x y ∧ a.at_ x y = 0) ∧
    dirs Connectivity.Four = [(1, 0), (-1, 0), (0, 1), (0, -1)] ∧
    dirs Connectivity.Eight =
      [(1, 0), (-1, 0), (0, 1), (0, -1), (1, 1), (1, -1), (-1, 1), (-1, -1)] := by
  refine ⟨growClusters_eq_iterate m n c, fun a => ⟨(clusterStep_hasShape a c).1,
    (clusterStep_hasShape a c).2.1, fun x y hin => ?_⟩, isFree_iff, by decide, by decide⟩
  rw [at_clusterStep a c x y hin]
  unfold clusterRule
  rw [neighbourCount_eq_filter]
  by_cases h0 : a.at_ x y = 0
  · have hf : a.isFree x y = true := (isFree_iff a x y).2 ⟨hin, h0⟩
    simp [hf, h0]
  · have hf : a.isFree x y = false := (isFree_eq_false_iff a x y).2 (fun h => h0 h.2)
    simp [hf, h0]

/-- C19: under `Connectivity::Four` every cell that is free in `m` (in bounds, value 0) is free
after `growClusters(m, n, Four)`, for every `n`: the count of non-free neighbours is at most 4,
below the birth threshold 5. Hence every in-bounds cell that is an obstacle afterwards was one
before. -/
theorem growClusters_four_keeps_free (m : GridMap) (n x y : Int)
    (h : m.isFree x y = true) :
    (growClusters m n Connectivity.Four).isFree x y = true ∧
    (∀ x' y' : Int, m.InBounds x' y' →
      (growClusters m n Connectivity.Four).at_ x' y' ≠ 0 → m.at_ x' y' ≠ 0) := by
  have key : ∀ x y : Int, m.isFree x y = true →
      (growClusters m n Connectivity.Four).isFree x y = true := by
    intro x y h
    rw [growClusters_eq_iterate]
    split
    · exact h
    · exact iterate_four_keeps_free x y _ m h
  refine ⟨key x y h, fun x' y' hin hne h0 => ?_⟩
  exact hne ((isFree_iff _ x' y').1 (key x' y' ((isFree_iff m x' y').2 ⟨hin, h0⟩))).2

/-- Witness for C19: two passes over a 3x3 raster whose centre is the only free cell. -/
theorem growClusters_four_keeps_free_witness :
    ((GridMap.new 3 3 1).set 1 1 0).isFree 1 1 = true ∧
    (growClusters ((GridMap.new 3 3 1).set 1 1 0) 2 Connectivity.Four).isFree 1 1 = true :=
  ⟨by decide,
    (growClusters_four_keeps_free ((GridMap.new 3 3 1).set 1 1 0) 2 1 1 (by decide)).1⟩

/-- C16: for every configuration with `width, height >= 3`, `1 <= room_min <= room_max` in both
dimensions and `num_rooms >= 0`, and every engine state, the placement loop of
`genRoomsAndCorridors` makes `k <= 10 * num_rooms` attempts (the engine advances by the four
draws of each attempt), accepts at most `num_rooms` rooms, every accepted room has at least
one cell, and the accepted rooms are pairwise disjoint as half-open rectangles. -/
theorem placement_bounds (p : RandomParams) (rng : Rng) (hw : 3 ≤ p.width) (hh : 3 ≤ p.height)
    (hrw : 1 ≤ p.room_min_w) (hrw' : p.room_min_w ≤ p.room_max_w)
    (hrh : 1 ≤ p.room_min_h) (hrh' : p.room_min_h ≤ p.room_max_h) (hn : 0 ≤ p.num_rooms) :
    (∃ k : Nat, (k : Int) ≤ 10 * p.num_rooms ∧
      (placeRooms p (p.num_rooms * 10).toNat [] (GridMap.new p.width p.height 1) rng).2.2.pos =
        rng.pos + 4 * k) ∧
    ((placeRooms p (p.num_rooms * 10).toNat [] (GridMap.new p.width p.height 1) rng).1.length
      : Int) ≤ p.num_rooms ∧
    (∀ r ∈ (placeRooms p (p.num_rooms * 10).toNat [] (GridMap.new p.width p.height 1) rng).1,
      1 ≤ r.w ∧ 1 ≤ r.h) ∧
    (placeRooms p (p.num_rooms * 10).toNat [] (GridMap.new p.width p.height 1) rng).1.Pairwise
      (fun q r => ∀ c : Int × Int, ¬ (RectMem q c ∧ RectMem r c)) := by
  obtain ⟨⟨k, hk, hpos⟩, hlen, hpw⟩ := placeRooms_bounds p (p.num_rooms * 10).toNat []
    (GridMap.new p.width p.height 1) rng List.Pairwise.nil
  have hinv := placeRooms_inv p hw hh hrw hrw' hrh hrh' (p.num_rooms * 10).toNat []
    (GridMap.new p.width p.height 1) rng (placeInv_init p)
  refine ⟨⟨k, by omega, hpos⟩, ?_, fun r hr => ?_, hpw⟩
  · simp only [List.length_nil, Nat.cast_zero] at hlen
    omega
  · have := hinv.2.1 r hr
    exact ⟨this.1, this.2.1⟩

/-- Witness for C16: a 12x12 raster, rooms of side 2 to 3, two rooms asked for, and the engine
whose raw outputs are `0, 1, 2, ...`. -/
theorem placement_bounds_witness :
    ∃ k : Nat, (k : Int) ≤ 10 * 2 ∧
      (placeRooms
        { width := 12, height := 12, num_rooms := 2, room_min_w := 2, room_min_h := 2,
          room_max_w := 3, room_max_h := 3 }
        (2 * 10 : Int).toNat [] (GridMap.new 12 12 1) { raw := fun i => i, pos := 0 }).2.2.pos =
          0 + 4 * k :=
  (placement_bounds
    { width := 12, height := 12, num_rooms := 2, room_min_w := 2, room_min_h := 2,
      room_max_w := 3, room_max_h := 3 }
    { raw := fun i => i, pos := 0 }
    (by decide) (by decide) (by decide) (by decide) (by decide) (by decide) (by decide)).1

/-- C17: refuted at the default `corridor_width = 2`. On a fully blocked 5x5 raster the brush
at the path cell `(2,2)` frees the 3x3 square `[1,3] × [1,3]`, of side 3 and not 2; and the
horizontal leg carved from `(1,2)` towards `(4,2)` on a fully blocked 7x5 raster is 3 cells
thick (rows 1 to 3). -/
theorem brush_even_width_side :
    ({ corridor_width := 2 } : RandomParams).corridor_width = 2 ∧
    (brush { corridor_width := 2 } (GridMap.new 5 5 1) 2 2).data =
      [1, 1, 1, 1, 1,
       1, 0, 0, 0, 1,
       1, 0, 0, 0, 1,
       1, 0, 0, 0, 1,
       1, 1, 1, 1, 1] ∧
    (carve_line { corridor_width := 2 } (GridMap.new 7 5 1) 1 2 4 2).map (fun m => m.data) =
      some [1, 1, 1, 1, 1, 1, 1,
            0, 0, 0, 0, 0, 1, 1,
            0, 0, 0, 0, 0, 1, 1,
            0, 0, 0, 0, 0, 1, 1,
            1, 1, 1, 1, 1, 1, 1] :=
  ⟨rfl, by decide, carve_line_sample⟩

/-- C14: for `n >= 2` rooms whose pairwise Manhattan distances
`|cx_u - cx_v| + |cy_u - cy_v|` are below `INT32_MAX` (the initial key of the loop; the
distances then fit an `int`), the array `parent` of the Prim loop gives every room `v >= 1` a
parent in `[0, n)` other than `v`; following the parents from any room reaches room 0; and the
sum over `v >= 1` of `|cx_v - cx_parent[v]| + |cy_v - cy_parent[v]|` is at most the same sum
for every spanning tree of the complete graph on the rooms, a spanning tree being given by the
parent map `q` it has when rooted at room 0. -/
theorem prim_minimum_spanning_tree (rooms : List Rect) (hn : 2 ≤ rooms.length)
    (hdist : ∀ u v : Nat, u < rooms.length → v < rooms.length →
      |(rooms.getD u default).cx - (rooms.getD v default).cx| +
        |(rooms.getD u default).cy - (rooms.getD v default).cy| < INT32_MAX) :
    (∀ v, 0 < v → v < rooms.length →
      ∃ u : Nat, (primMST rooms).getD v (-1) = (u : Int) ∧ u < rooms.length ∧ u ≠ v) ∧
    (∀ v, v < rooms.length →
      ∃ k : Nat, (fun x : Nat => ((primMST rooms).getD x (-1)).toNat)^[k] v = 0) ∧
    (∀ q : Nat → Nat, (∀ v, 0 < v → v < rooms.length → q v < rooms.length) →
      (∀ v, v < rooms.length → ∃ k : Nat, q^[k] v = 0) →
      ∑ v ∈ Finset.Ico 1 rooms.length,
          (|(rooms.getD ((primMST rooms).getD v (-1)).toNat default).cx -
              (rooms.getD v default).cx| +
            |(rooms.getD ((primMST rooms).getD v (-1)).toNat default).cy -
              (rooms.getD v default).cy|) ≤
        ∑ v ∈ Finset.Ico 1 rooms.length,
          (|(rooms.getD (q v) default).cx - (rooms.getD v default).cx| +
            |(rooms.getD (q v) default).cy - (rooms.getD v default).cy|)) := by
  have h := prim_tree_roomDist rooms hn (fun u v hu hv => by
    rw [roomDist_abs, Int.toNat_ofNat]; exact hdist u v hu hv)
  refine ⟨h.1, h.2.1, fun q hq hr => ?_⟩
  have := h.2.2 q hq hr
  simpa only [roomDist_abs, Int.toNat_ofNat] using this

/-- Witness for C14: on `sampleRooms` (centres `(0,0)`, `(10,0)`, `(3,0)`) the Prim loop hangs
room 1 on room 2 and room 2 on room 0, and that tree weighs no more than the star on room 0. -/
theorem prim_minimum_spanning_tree_witness :
    2 ≤ sampleRooms.length ∧ primMST sampleRooms = [-1, 2, 0] ∧
    ∑ v ∈ Finset.Ico 1 sampleRooms.length,
        (|(sampleRooms.getD ((primMST sampleRooms).getD v (-1)).toNat default).cx -
            (sampleRooms.getD v default).cx| +
          |(sampleRooms.getD ((primMST sampleRooms).getD v (-1)).toNat default).cy -
            (sampleRooms.getD v default).cy|) ≤
      ∑ v ∈ Finset.Ico 1 sampleRooms.length,
        (|(sampleRooms.getD ((fun _ => 0) v) default).cx - (sampleRooms.getD v default).cx| +
          |(sampleRooms.getD ((fun _ => 0) v) default).cy - (sampleRooms.getD v default).cy|) :=
  ⟨by decide, by decide,
    (prim_minimum_spanning_tree sampleRooms (by decide)
      (by
        intro u v hu hv
        have hu' : u < 3 := hu
        have hv' : v < 3 := hv
        interval_cases u <;> interval_cases v <;> simp [sampleRooms, INT32_MAX])).2.2 (fun _ => 0)
      (fun _ _ _ => show 0 < 3 by decide)
      (fun v _ => ⟨1, by simp⟩)⟩

/-- Witness for C15: two passes over a fully blocked 3x3 raster under `Connectivity::Eight`;
the centre cell, blocked with 8 blocked neighbours, reads 1 after one step. -/
theorem growClusters_iterates_witness :
    growClusters (GridMap.new 3 3 1) 2 Connectivity.Eight =
      (fun a => clusterStep a Connectivity.Eight)^[2] (GridMap.new 3 3 1) ∧
    (clusterStep (GridMap.new 3 3 1) Connectivity.Eight).at_ 1 1 = 1 :=
  ⟨(growClusters_iterates (GridMap.new 3 3 1) Connectivity.Eight 2).1,
    ((((growClusters_iterates (GridMap.new 3 3 1) Connectivity.Eight 2).2.1
      (GridMap.new 3 3 1)).2.2 1 1 (by decide)).trans (by decide))⟩

end GridMap

/-! ## Dijkstra: termination and correctness -/

theorem pqTop_eq_none : ∀ l : List State, pqTop l = none ↔ l = []
  | [] => by simp [pqTop]
  | x :: xs => by
    simp only [pqTop]
    cases h : pqTop xs with
    | none => simp
    | some m =>
      simp only
      split <;> simp

theorem pqTop_spec : ∀ (l : List State) (m : State), pqTop l = some m →
    m ∈ l ∧ ∀ y ∈ l, m.1 ≤ y.1
  | [], m, h => by simp [pqTop] at h
  | x :: xs, m, h => by
    simp only [pqTop] at h
    cases hx : pqTop xs with
    | none =>
      rw [hx] at h
      simp only [Option.some.injEq] at h
      subst h
      rw [(pqTop_eq_none xs).1 hx]
      exact ⟨List.mem_singleton_self _, fun y hy => by
        rw [List.mem_singleton] at hy; rw [hy]⟩
    | some m' =>
      rw [hx] at h
      simp only at h
      obtain ⟨hm', hmin'⟩ := pqTop_spec xs m' hx
      by_cases hle : stateLe x m' = true
      · rw [if_pos hle] at h
        simp only [Option.some.injEq] at h
        subst h
        have hxm : x.1 ≤ m'.1 := by
          simp only [stateLe, Bool.or_eq_true, Bool.and_eq_true, decide_eq_true_eq] at hle
          rcases hle with h1 | ⟨h1, _⟩
          · exact le_of_lt h1
          · exact le_of_eq h1
        refine ⟨List.mem_cons_self _ _, fun y hy => ?_⟩
        rcases List.mem_cons.1 hy with h1 | h1
        · rw [h1]
        · exact le_trans hxm (hmin' y h1)
      · rw [if_neg hle] at h
        simp only [Option.some.injEq] at h
        subst h
        have hmx : m'.1 ≤ x.1 := by
          simp only [stateLe, Bool.or_eq_true, Bool.and_eq_true, decide_eq_true_eq] at hle
          by_contra hlt
          exact hle (Or.inl (lt_of_not_le hlt))
        refine ⟨List.mem_cons_of_mem _ hm', fun y hy => ?_⟩
        rcases List.mem_cons.1 hy with h1 | h1
        · rw [h1]; exact hmx
        · exact hmin' y h1

theorem getD_set_dist (l : List (WithTop ℚ)) (v : Nat) (a : WithTop ℚ) (hv : v < l.length)
    (x : Nat) : (l.set v a).getD x ⊤ = if x = v then a else l.getD x ⊤ := by
  by_cases hx : x = v
  · subst hx; rw [if_pos rfl]; exact GridMap.getD_set_eq _ _ _ _ hv
  · rw [if_neg hx]; exact GridMap.getD_set_ne _ _ _ _ _ (Ne.symm hx)

/-- One more relaxed edge of the node `u` being expanded may be recorded once its target is no
farther than `dist[u] + w`. -/
theorem dinv_record (g : Graph) (n s : Nat) (X : Finset Nat) (d : WithTop ℚ)
    (f : Nat → List Edge) (u : Nat) (done : List Edge) (e : Edge) (st : DijkstraState)
    (h : DInv g n s X d (Function.update f u done) st)
    (he : st.dist.getD e.v ⊤ ≤ st.dist.getD u ⊤ + (e.w : WithTop ℚ)) :
    DInv g n s X d (Function.update f u (done ++ [e])) st := by
  obtain ⟨h1, h2, h3, h4, h5, h6, h7⟩ := h
  refine ⟨h1, h2, h3, fun x hx => ?_, h5, h6, h7⟩
  obtain ⟨a, b, c, hcl⟩ := h4 x hx
  refine ⟨a, b, c, fun e' he' => ?_⟩
  by_cases hxu : x = u
  · subst hxu
    rw [Function.update_same] at he'
    rcases List.mem_append.1 he' with hm | hm
    · exact hcl e' (by rw [Function.update_same]; exact hm)
    · rw [List.mem_singleton] at hm; rw [hm]; exact he
  · rw [Function.update_noteq hxu] at he'
    exact hcl e' (by rw [Function.update_noteq hxu]; exact he')

/-- The assignment `dist[v] = dist[u] + w; prev[v] = u; pq.emplace(dist[v], v)` made when
`dist[v] > dist[u] + w`, for an edge of the node `u` being expanded at key `d`. -/
theorem dinv_relax (g : Graph) (n s : Nat) (X : Finset Nat) (d : WithTop ℚ)
    (cl : Nat → List Edge) (u : Nat) (e : Edge) (st : DijkstraState)
    (h : DInv g n s X d cl st) (huX : u ∈ X) (hud : st.dist.getD u ⊤ = d)
    (hmem : e ∈ g.getD u []) (hev : e.v < n) (hew : 0 ≤ e.w)
    (hgt : st.dist.getD e.v ⊤ > st.dist.getD u ⊤ + (e.w : WithTop ℚ)) :
    DInv g n s X d cl
      { dist := st.dist.set e.v (st.dist.getD u ⊤ + (e.w : WithTop ℚ)),
        prev := st.prev.set e.v (u : Int),
        pq := (st.dist.getD u ⊤ + (e.w : WithTop ℚ), e.v) :: st.pq } ∧
    (st.dist.set e.v (st.dist.getD u ⊤ + (e.w : WithTop ℚ))).getD u ⊤ = d := by
  obtain ⟨h1, h2, h3, h4, h5, h6, h7⟩ := h
  rw [hud] at hgt ⊢
  have hw0 : (0 : WithTop ℚ) ≤ (e.w : WithTop ℚ) := WithTop.coe_nonneg.2 hew
  have hdle : d ≤ d + (e.w : WithTop ℚ) := le_add_of_nonneg_right hw0
  have hvl : e.v < st.dist.length := by rw [h1]; exact hev
  have hget := getD_set_dist st.dist e.v (d + (e.w : WithTop ℚ)) hvl
  have hvX : ∀ x ∈ X, x ≠ e.v := by
    intro x hx hxv
    have := (h4 x hx).2.1
    rw [hxv] at this
    exact absurd (lt_of_le_of_lt (le_trans this hdle) hgt) (lt_irrefl _)
  have hvu : u ≠ e.v := hvX u huX
  have hle : ∀ x, (st.dist.set e.v (d + (e.w : WithTop ℚ))).getD x ⊤ ≤ st.dist.getD x ⊤ := by
    intro x
    rw [hget]
    split
    · rename_i hx; rw [hx]; exact le_of_lt hgt
    · exact le_refl _
  have hdtop : d ≠ ⊤ := by
    intro htop
    rw [htop] at hgt
    simp at hgt
  refine ⟨⟨by simp [h1], ?_, ?_, ?_, ?_, ?_, le_trans (hle s) h7⟩, by rw [hget, if_neg hvu, hud]⟩
  · intro k x hkx
    simp only at hkx ⊢
    rcases List.mem_cons.1 hkx with hh | hh
    · obtain ⟨rfl, rfl⟩ := Prod.mk.inj hh
      exact ⟨hev, by rw [hget, if_pos rfl], hdle⟩
    · obtain ⟨a, b, c⟩ := h2 k x hh
      exact ⟨a, le_trans (hle x) b, c⟩
  · simp only
    rw [List.nodup_cons]
    refine ⟨fun hin => ?_, h3⟩
    have := (h2 _ _ hin).2.1
    exact absurd (lt_of_le_of_lt this hgt) (lt_irrefl _)
  · intro x hx
    simp only
    obtain ⟨a, b, c, hcl⟩ := h4 x hx
    have hxv := hvX x hx
    have hxe : (st.dist.set e.v (d + (e.w : WithTop ℚ))).getD x ⊤ = st.dist.getD x ⊤ := by
      rw [hget, if_neg hxv]
    refine ⟨a, by rw [hxe]; exact b, fun k hk => ?_, fun e' he' => ?_⟩
    · rw [hxe]
      rcases List.mem_cons.1 hk with hh | hh
      · exact absurd (Prod.mk.inj hh).2 hxv
      · exact c k hh
    · rw [hxe]
      exact le_trans (hle e'.v) (hcl e' he')
  · intro x hx hxX hfin
    simp only at hfin ⊢
    by_cases hxv : x = e.v
    · subst hxv
      rw [hget, if_pos rfl]
      exact List.mem_cons_self _ _
    · rw [hget, if_neg hxv] at hfin ⊢
      exact List.mem_cons_of_mem _ (h5 x hx hxX hfin)
  · intro x hx hfin
    simp only at hfin ⊢
    by_cases hxv : x = e.v
    · subst hxv
      rw [hget, if_pos rfl]
      obtain ⟨c, hp, hc⟩ := h6 u (h4 u huX).1 (by rw [hud]; exact hdtop)
      refine ⟨c + e.w, Path.snoc u c e hp hmem, ?_⟩
      rw [WithTop.coe_add, ← hc, hud]
    · rw [hget, if_neg hxv] at hfin ⊢
      exact h6 x hx hfin

/-- The edge loop of an expansion: it keeps the invariant, records every edge it has visited,
and pushes at most one pair per edge. -/
theorem relaxEdges_inv (g : Graph) (n s : Nat)
    (hv : ∀ u, u < n → ∀ e ∈ g.getD u [], e.v < n)
    (hw : ∀ u, u < n → ∀ e ∈ g.getD u [], 0 ≤ e.w)
    (X : Finset Nat) (d : WithTop ℚ) (f : Nat → List Edge) (u : Nat) (huX : u ∈ X) :
    ∀ (es done : List Edge) (st : DijkstraState), (∀ e ∈ es, e ∈ g.getD u []) →
      DInv g n s X d (Function.update f u done) st → st.dist.getD u ⊤ = d →
      DInv g n s X d (Function.update f u (done ++ es)) (relaxEdges u es st) ∧
      (relaxEdges u es st).pq.length ≤ st.pq.length + es.length
  | [], done, st, _, h, _ => by
    rw [List.append_nil]
    exact ⟨h, le_refl _⟩
  | e :: es, done, st, hes, h, hud => by
    have hun : u < n := (h.2.2.2.1 u huX).1
    have hmem : e ∈ g.getD u [] := hes e (List.mem_cons_self _ _)
    have hes' : ∀ e' ∈ es, e' ∈ g.getD u [] := fun e' he' => hes e' (List.mem_cons_of_mem _ he')
    have happ : done ++ e :: es = (done ++ [e]) ++ es := by simp
    rw [relaxEdges, happ]
    by_cases hgt : st.dist.getD e.v ⊤ > st.dist.getD u ⊤ + (e.w : WithTop ℚ)
    · rw [if_pos hgt]
      obtain ⟨hinv, hud'⟩ := dinv_relax g n s X d (Function.update f u done) u e st h huX hud
        hmem (hv u hun e hmem) (hw u hun e hmem) hgt
      have hrec := dinv_record g n s X d f u done e _ hinv (by
        simp only
        rw [hud', getD_set_dist _ _ _ (by rw [h.1]; exact hv u hun e hmem), if_pos rfl, hud])
      obtain ⟨r1, r2⟩ := relaxEdges_inv g n s hv hw X d f u huX es (done ++ [e]) _ hes' hrec hud'
      refine ⟨r1, le_trans r2 ?_⟩
      simp only [List.length_cons]
      omega
    · rw [if_neg hgt]
      have hrec := dinv_record g n s X d f u done e st h (not_lt.1 hgt)
      obtain ⟨r1, r2⟩ := relaxEdges_inv g n s hv hw X d f u huX es (done ++ [e]) st hes' hrec hud
      refine ⟨r1, le_trans r2 ?_⟩
      simp only [List.length_cons]
      omega

/-- Popping a stale pair (`d > dist[u]`) keeps the invariant. -/
theorem dinv_skip (g : Graph) (n s : Nat) (X : Finset Nat) (dstar : WithTop ℚ)
    (cl : Nat → List Edge) (st : DijkstraState) (top : State)
    (h : DInv g n s X dstar cl st) (hgt : top.1 > st.dist.getD top.2 ⊤) :
    DInv g n s X dstar cl { st with pq := st.pq.erase top } := by
  obtain ⟨h1, h2, h3, h4, h5, h6, h7⟩ := h
  refine ⟨h1, fun k x hkx => h2 k x (List.mem_of_mem_erase hkx), h3.erase _, fun x hx => ?_,
    fun x hx hxX hfin => ?_, h6, h7⟩
  · obtain ⟨a, b, c, e⟩ := h4 x hx
    exact ⟨a, b, fun k hk => c k (List.mem_of_mem_erase hk), e⟩
  · have hne : (st.dist.getD x ⊤, x) ≠ top := by
      intro heq
      rw [← heq] at hgt
      exact lt_irrefl _ hgt
    exact (List.mem_erase_of_ne hne).2 (h5 x hx hxX hfin)

/-- Popping the least pair `(d, u)` with `d = dist[u]` starts the expansion of `u`. -/
theorem dinv_expand (g : Graph) (n s : Nat) (X : Finset Nat) (dstar : WithTop ℚ)
    (cl : Nat → List Edge) (st : DijkstraState) (top : State)
    (h : DInv g n s X dstar cl st) (htop : pqTop st.pq = some top)
    (hle : ¬ top.1 > st.dist.getD top.2 ⊤) :
    top.2 < n ∧ top.2 ∉ X ∧ st.dist.getD top.2 ⊤ = top.1 ∧
    DInv g n s (insert top.2 X) top.1 (Function.update cl top.2 [])
      { st with pq := st.pq.erase top } := by
  obtain ⟨h1, h2, h3, h4, h5, h6, h7⟩ := h
  obtain ⟨hmem, hmin⟩ := pqTop_spec st.pq top htop
  obtain ⟨hun, hdu, hds⟩ := h2 top.1 top.2 hmem
  have heq : st.dist.getD top.2 ⊤ = top.1 := le_antisymm hdu (not_lt.1 hle)
  have huX : top.2 ∉ X := by
    intro hx
    have := (h4 top.2 hx).2.2.1 top.1 hmem
    rw [heq] at this
    exact lt_irrefl _ this
  refine ⟨hun, huX, heq, h1, fun k x hkx => ?_, h3.erase _, fun x hx => ?_,
    fun x hx hxX hfin => ?_, h6, h7⟩
  · have hin := List.mem_of_mem_erase hkx
    obtain ⟨a, b, _⟩ := h2 k x hin
    exact ⟨a, b, hmin (k, x) hin⟩
  · by_cases hxu : x = top.2
    · subst hxu
      refine ⟨hun, le_of_eq heq, fun k hk => ?_, fun e he => ?_⟩
      · simp only at hk
        obtain ⟨hne, hin⟩ := (List.Nodup.mem_erase_iff h3).1 hk
        have hk' := (h2 k top.2 hin).2.1
        rw [heq] at hk' ⊢
        refine lt_of_le_of_ne hk' (fun hkd => hne ?_)
        rw [← hkd]
      · rw [Function.update_same] at he
        exact absurd he (List.not_mem_nil _)
    · have hxX : x ∈ X := Finset.mem_of_mem_insert_of_ne hx hxu
      obtain ⟨a, b, c, e⟩ := h4 x hxX
      refine ⟨a, le_trans b hds, fun k hk => c k (List.mem_of_mem_erase hk), fun e' he' => ?_⟩
      rw [Function.update_noteq hxu] at he'
      exact e e' he'
  · have hxu : x ≠ top.2 := fun hh => hxX (by rw [hh]; exact Finset.mem_insert_self _ _)
    have hxX' : x ∉ X := fun hh => hxX (Finset.mem_insert_of_mem hh)
    have hne : (st.dist.getD x ⊤, x) ≠ top := by
      intro hh
      exact hxu (by rw [← hh])
    exact (List.mem_erase_of_ne hne).2 (h5 x hx hxX' hfin)

/-- The loop of `dijkstra` stops: the pairs in the queue plus the edges and nodes not yet
expanded decrease in every iteration. Every fuel above that measure gives the same final
state, whose queue is empty and which satisfies the invariant. -/
theorem dijkstraLoop_total (g : Graph) (n s : Nat)
    (hv : ∀ u, u < n → ∀ e ∈ g.getD u [], e.v < n)
    (hw : ∀ u, u < n → ∀ e ∈ g.getD u [], 0 ≤ e.w) :
    ∀ (k : Nat) (X : Finset Nat) (dstar : WithTop ℚ) (st : DijkstraState),
      DInv g n s X dstar (fun x => g.getD x []) st →
      st.pq.length + ∑ x ∈ Finset.range n \ X, ((g.getD x []).length + 1) ≤ k →
      ∃ final : DijkstraState,
        (∀ fuel : Nat, k < fuel → dijkstraLoop g fuel st = some final) ∧ final.pq = [] ∧
        ∃ (X' : Finset Nat) (dstar' : WithTop ℚ),
          DInv g n s X' dstar' (fun x => g.getD x []) final := by
  intro k
  induction k with
  | zero =>
    intro X dstar st h hk
    have hpq : st.pq = [] := List.length_eq_zero.1 (by omega)
    refine ⟨st, fun fuel hf => ?_, hpq, X, dstar, h⟩
    obtain ⟨f, rfl⟩ : ∃ f, fuel = f + 1 := ⟨fuel - 1, by omega⟩
    rw [dijkstraLoop, hpq]
    rfl
  | succ k ih =>
    intro X dstar st h hk
    cases htop : pqTop st.pq with
    | none =>
      have hpq : st.pq = [] := (pqTop_eq_none _).1 htop
      refine ⟨st, fun fuel hf => ?_, hpq, X, dstar, h⟩
      obtain ⟨f, rfl⟩ : ∃ f, fuel = f + 1 := ⟨fuel - 1, by omega⟩
      rw [dijkstraLoop, htop]
    | some top =>
      have hmem := (pqTop_spec st.pq top htop).1
      have hlen : (st.pq.erase top).length + 1 = st.pq.length := by
        rw [List.length_erase_of_mem hmem]
        have := List.length_pos_of_mem hmem
        omega
      by_cases hgt : top.1 > st.dist.getD top.2 ⊤
      · obtain ⟨final, hrun, hfin⟩ := ih X dstar { st with pq := st.pq.erase top }
          (dinv_skip g n s X dstar _ st top h hgt) (by simp only; omega)
        refine ⟨final, fun fuel hf => ?_, hfin⟩
        obtain ⟨f, rfl⟩ : ∃ f, fuel = f + 1 := ⟨fuel - 1, by omega⟩
        rw [dijkstraLoop, htop]
        simp only [if_pos hgt]
        exact hrun f (by omega)
      · obtain ⟨hun, huX, heq, hinv⟩ := dinv_expand g n s X dstar _ st top h htop hgt
        obtain ⟨r1, r2⟩ := relaxEdges_inv g n s hv hw (insert top.2 X) top.1
          (fun x => g.getD x []) top.2 (Finset.mem_insert_self _ _) (g.getD top.2 []) []
          { st with pq := st.pq.erase top } (fun e he => he) hinv heq
        rw [List.nil_append, Function.update_eq_self top.2 (fun x => g.getD x [])] at r1
        simp only at r2
        have hsum : ∑ x ∈ Finset.range n \ insert top.2 X, ((g.getD x []).length + 1) +
            ((g.getD top.2 []).length + 1) =
            ∑ x ∈ Finset.range n \ X, ((g.getD x []).length + 1) := by
          have hin : top.2 ∈ Finset.range n \ X :=
            Finset.mem_sdiff.2 ⟨Finset.mem_range.2 hun, huX⟩
          rw [← Finset.sum_erase_add _ _ hin]
          congr 2
          ext x
          simp only [Finset.mem_sdiff, Finset.mem_insert, Finset.mem_erase, Finset.mem_range]
          tauto
        obtain ⟨final, hrun, hfin⟩ := ih (insert top.2 X) top.1
          (relaxEdges top.2 (g.getD top.2 []) { st with pq := st.pq.erase top }) r1 (by omega)
        refine ⟨final, fun fuel hf => ?_, hfin⟩
        obtain ⟨f, rfl⟩ : ∃ f, fuel = f + 1 := ⟨fuel - 1, by omega⟩
        rw [dijkstraLoop, htop]
        simp only [if_neg hgt]
        exact hrun f (by omega)

theorem path_lt (g : Graph) (n s : Nat) (hs : s < n)
    (hv : ∀ u, u < n → ∀ e ∈ g.getD u [], e.v < n) {v : Nat} {c : ℚ} (h : Path g s v c) :
    v < n := by
  induction h with
  | nil => exact hs
  | snoc u c e _ hmem ih => exact hv u ih e hmem

/-- With an empty queue the invariant makes `dist` a lower bound of every path weight. -/
theorem dinv_final_le (g : Graph) (n s : Nat) (hs : s < n)
    (hv : ∀ u, u < n → ∀ e ∈ g.getD u [], e.v < n)
    (X : Finset Nat) (dstar : WithTop ℚ) (st : DijkstraState)
    (h : DInv g n s X dstar (fun x => g.getD x []) st) (hpq : st.pq = []) {v : Nat} {c : ℚ}
    (hp : Path g s v c) : st.dist.getD v ⊤ ≤ (c : WithTop ℚ) := by
  obtain ⟨h1, h2, h3, h4, h5, h6, h7⟩ := h
  induction hp with
  | nil => exact h7
  | snoc u c e hpath hmem ih =>
    have hun := path_lt g n s hs hv hpath
    have hfin : st.dist.getD u ⊤ ≠ ⊤ := ne_top_of_le_ne_top WithTop.coe_ne_top ih
    have huX : u ∈ X := by
      by_contra hnot
      have := h5 u hun hnot hfin
      rw [hpq] at this
      exact absurd this (List.not_mem_nil _)
    have hcl := (h4 u huX).2.2.2 e hmem
    rw [WithTop.coe_add]
    exact le_trans hcl (add_le_add_right ih _)

/-- The state of `dijkstra` before the loop satisfies the invariant. -/
theorem dinv_init (g : Graph) (n s : Nat) (hs : s < n) :
    DInv g n s ∅ 0 (fun x => g.getD x [])
      { dist := (List.replicate n ⊤).set s 0, prev := List.replicate n (-1), pq := [(0, s)] } := by
  have hget : ∀ x, ((List.replicate n (⊤ : WithTop ℚ)).set s 0).getD x ⊤ =
      if x = s then 0 else ⊤ := by
    intro x
    rw [getD_set_dist _ _ _ (by simpa using hs)]
    split
    · rfl
    · exact GridMap.getD_replicate_self _ _ _
  refine ⟨by simp, ?_, List.nodup_singleton _, fun x hx => absurd hx (Finset.not_mem_empty x),
    ?_, ?_, by simp only; rw [hget, if_pos rfl]⟩
  · intro k x hkx
    simp only [List.mem_singleton] at hkx
    obtain ⟨rfl, rfl⟩ := Prod.mk.inj hkx
    simp only
    rw [hget, if_pos rfl]
    exact ⟨hs, le_refl _, le_refl _⟩
  · intro x _ _ hfin
    simp only at hfin ⊢
    rw [hget] at hfin ⊢
    by_cases hxs : x = s
    · rw [if_pos hxs, hxs]; exact List.mem_singleton_self _
    · rw [if_neg hxs] at hfin; exact absurd rfl hfin
  · intro x _ hfin
    simp only at hfin ⊢
    rw [hget] at hfin ⊢
    by_cases hxs : x = s
    · rw [if_pos hxs, hxs]; exact ⟨0, Path.nil, rfl⟩
    · rw [if_neg hxs] at hfin; exact absurd rfl hfin

/-- C20: for `n >= 1`, a graph with `n` adjacency lists whose edge targets lie in `[0, n)` and
whose weights are non-negative rationals, and a source `s < n`, `dijkstra(n, g, s)` terminates
(every fuel above `1 + n + |E|` loop tests gives the same result), `dist` has `n` entries,
and for every node `v`: `dist[v]` is at most the weight of every directed path from `s` to
`v`, it is the weight of such a path when it is finite, and it is infinite exactly when there
is no such path. -/
theorem dijkstra_correct (n : Nat) (g : Graph) (s : Nat) (_hn : 1 ≤ n) (_hg : g.length = n)
    (hs : s < n) (hv : ∀ u, u < n → ∀ e ∈ g.getD u [], e.v < n)
    (hw : ∀ u, u < n → ∀ e ∈ g.getD u [], 0 ≤ e.w) :
    ∃ (dist : List (WithTop ℚ)) (prev : List Int),
      (∀ fuel : Nat, 1 + ∑ x ∈ Finset.range n, ((g.getD x []).length + 1) < fuel →
        dijkstra fuel n g s = some (dist, prev)) ∧
      dist.length = n ∧
      ∀ v, v < n →
        (∀ c : ℚ, Path g s v c → dist.getD v ⊤ ≤ (c : WithTop ℚ)) ∧
        (dist.getD v ⊤ ≠ ⊤ → ∃ c : ℚ, Path g s v c ∧ dist.getD v ⊤ = (c : WithTop ℚ)) ∧
        (dist.getD v ⊤ = ⊤ ↔ ¬ ∃ c : ℚ, Path g s v c) := by
  obtain ⟨final, hrun, hpq, X', dstar', hinv⟩ := dijkstraLoop_total g n s hv hw
    (1 + ∑ x ∈ Finset.range n, ((g.getD x []).length + 1)) ∅ 0 _ (dinv_init g n s hs)
    (by simp)
  refine ⟨final.dist, final.prev, fun fuel hf => ?_, hinv.1, fun v hvn => ⟨fun c hp => ?_,
    fun hfin => hinv.2.2.2.2.2.1 v hvn hfin, ?_, ?_⟩⟩
  · unfold dijkstra
    rw [hrun fuel hf]
  · exact dinv_final_le g n s hs hv X' dstar' final hinv hpq hp
  · rintro htop ⟨c, hp⟩
    have := dinv_final_le g n s hs hv X' dstar' final hinv hpq hp
    rw [htop] at this
    exact absurd this (by simp)
  · intro hno
    by_contra hfin
    obtain ⟨c, hp, _⟩ := hinv.2.2.2.2.2.1 v hvn hfin
    exact hno ⟨c, hp⟩

/-- Witness for C20: the graph of `main_dijkstra_demo` with source 0; 13 loop tests suffice. -/
theorem dijkstra_correct_witness :
    ∃ (dist : List (WithTop ℚ)) (prev : List Int),
      dijkstra 13 5 demoGraph 0 = some (dist, prev) ∧ dist.length = 5 ∧
      (dist.getD 4 ⊤ = ⊤ ↔ ¬ ∃ c : ℚ, Path demoGraph 0 4 c) :=
  match dijkstra_correct 5 demoGraph 0 (by decide) rfl (by decide)
    (by
      intro u hu e he
      interval_cases u <;> simp [demoGraph] at he
      all_goals rcases he with rfl | rfl
      all_goals simp)
    (by
      intro u hu e he
      interval_cases u <;> simp [demoGraph] at he
      all_goals rcases he with rfl | rfl
      all_goals norm_num) with
  | ⟨dist, prev, hrun, hlen, hall⟩ =>
    ⟨dist, prev, hrun 13 (by simp [Finset.sum_range_succ, demoGraph]), hlen,
      (hall 4 (by decide)).2.2⟩

end path_planning
